import Mathlib

/-! Verification of the front end of `n0ryst.c`: lexer and parser.

A shallow embedding of `lexer` and `parser` of `src/n0ryst.c`.

* A C `char` is modelled by a `Char`; a C string by the `List Char` of the
  bytes that precede its terminating NUL.
* A pointer into the source (`&input[pos]`) is modelled by the suffix of the
  source that starts at `pos`, carried next to `pos` itself; likewise
  `&tokens[token_pos]`.
* The global arrays `tokens` and `ast` are modelled by lists of slots; a slot
  that was never written reads as the zero-initialised record, as in a C
  object of static storage duration. When the loop of `lexer` has filled the
  array `tokens`, the store of `TOKEN_EOF` that follows the loop goes to
  `tokens[MAX_TOKENS]`, outside the array: this is the outcome `overflow`, and
  nothing is modelled of a run behind it.
* `exit(1)` is modelled by an error result carrying what the diagnostic prints.
-/

namespace N0ryst

/-! ## Constants and data model -/

/-- Capacity of the global token array (`#define MAX_TOKENS 1024`). -/
def MAX_TOKENS : Nat := 1024

/-- Capacity of the global AST array (`#define MAX_AST 2048`). -/
def MAX_AST : Nat := 2048

/-- The enumeration `enum TokenType`, in declaration order. -/
inductive TokenType
  | TOKEN_OP_BLOCK_START
  | TOKEN_OP_BLOCK_END
  | TOKEN_STRING
  | TOKEN_NUMBER
  | TOKEN_KEYWORD
  | TOKEN_SYMBOL
  | TOKEN_EOF
  deriving DecidableEq

/-- The record `Token`: a kind and the C string held in `value[256]`. -/
structure Token where
  type : TokenType
  value : List Char
  deriving DecidableEq

/-- The enumeration `enum ASTType`, in declaration order. -/
inductive ASTType
  | AST_BLOCK
  | AST_VARDECL
  | AST_PRINT
  | AST_KBCHK
  | AST_END
  deriving DecidableEq

/-- The record `ASTNode`: a kind and the C strings `value` and `value2`. -/
structure ASTNode where
  type : ASTType
  value : List Char
  value2 : List Char
  deriving DecidableEq

/-! ## Character classes of `<ctype.h>` in the C locale -/

/-- The C function `isspace` in the C locale, the only one the program runs
in: space, `\t`, `\n`, `\v`, `\f`, `\r`. -/
def isspace (c : Char) : Bool :=
  c.toNat == 32 || (9 ≤ c.toNat && c.toNat ≤ 13)

/-- The C function `isdigit`: `0` to `9`. -/
def isdigit (c : Char) : Bool :=
  48 ≤ c.toNat && c.toNat ≤ 57

/-- The C function `isalpha`: `A` to `Z` and `a` to `z`. -/
def isalpha (c : Char) : Bool :=
  (65 ≤ c.toNat && c.toNat ≤ 90) || (97 ≤ c.toNat && c.toNat ≤ 122)

/-- The bytes of a buffer seen as a C string: those before the first NUL. -/
def cstr (buf : List Char) : List Char :=
  buf.takeWhile (fun c => c != Char.ofNat 0)

/-! ## The lexer (`lexer`, lines 179-249) -/

/-- Outcome of `lexer`: the tokens written to `tokens[0 .. token_count)`, all
inside the array; or the position and byte printed by the diagnostic before
`exit(1)`; or `overflow`, when the loop has ended with
`token_count = MAX_TOKENS` and the store of `TOKEN_EOF` goes to
`tokens[MAX_TOKENS]`, outside the array, whose `MAX_TOKENS` slots hold
`tokens`. -/
inductive LexResult
  | ok (tokens : List Token)
  | error (pos : Nat) (c : Char)
  | overflow (tokens : List Token)
  deriving DecidableEq

/-- State of the scanning loop: `pos`, the bytes of `input` from `pos` on, and
the tokens written so far (`token_count` is their number). -/
structure LexState where
  pos : Nat
  rest : List Char
  tokens : List Token
  deriving DecidableEq

/-- Effect of one evaluation of the loop condition and body of `lexer`. -/
inductive LexStep
  | done
  | fail (pos : Nat) (c : Char)
  | next (s : LexState)
  deriving DecidableEq

/-- One iteration of `while (input[pos] && token_count < MAX_TOKENS)`:
`done` when the condition is false, `fail` for the `exit(1)` at the end of the
body, `next` for every `continue`. -/
def lexStep (s : LexState) : LexStep :=
  match s.rest with
  | [] => .done
  | c :: r =>
    if ¬ (s.tokens.length < MAX_TOKENS) then .done
    else if isspace c then .next ⟨s.pos + 1, r, s.tokens⟩
    else if c = '/' ∧ r.take 2 = ['+', '['] then
      .next ⟨s.pos + 3, r.drop 2, s.tokens ++ [⟨.TOKEN_OP_BLOCK_START, ['/', '+', '[']⟩]⟩
    else if c = '/' ∧ r.take 2 = ['=', ']'] then
      .next ⟨s.pos + 3, r.drop 2, s.tokens ++ [⟨.TOKEN_OP_BLOCK_END, ['/', '=', ']']⟩]⟩
    else if c = '"' then
      let body := (r.take 255).takeWhile (fun x => x != '"')
      match r.drop body.length with
      | '"' :: r2 =>
        .next ⟨s.pos + 1 + body.length + 1, r2, s.tokens ++ [⟨.TOKEN_STRING, body⟩]⟩
      | r1 => .next ⟨s.pos + 1 + body.length, r1, s.tokens ++ [⟨.TOKEN_STRING, body⟩]⟩
    else if isdigit c then
      let body := ((c :: r).take 255).takeWhile isdigit
      .next ⟨s.pos + body.length, (c :: r).drop body.length,
        s.tokens ++ [⟨.TOKEN_NUMBER, body⟩]⟩
    else if isalpha c then
      let body := ((c :: r).take 255).takeWhile isalpha
      .next ⟨s.pos + body.length, (c :: r).drop body.length,
        s.tokens ++ [⟨.TOKEN_KEYWORD, body⟩]⟩
    else if c = '=' then
      .next ⟨s.pos + 1, r, s.tokens ++ [⟨.TOKEN_SYMBOL, ['=']⟩]⟩
    else .fail s.pos c

/-- The token written after the loop: `TOKEN_EOF` with an empty `value`. -/
def eofToken : Token := ⟨.TOKEN_EOF, []⟩

/-- The statements behind the loop of `lexer` (lines 246-248): the store of
the `TOKEN_EOF` token to `tokens[token_count]`, which is a slot of the array
`Token tokens[MAX_TOKENS]` only when `token_count < MAX_TOKENS`. -/
def lexDone (s : LexState) : LexResult :=
  if s.tokens.length < MAX_TOKENS then .ok (s.tokens ++ [eofToken]) else .overflow s.tokens

/-- The loop of `lexer` run for at most `fuel` iterations, then the write of
the `TOKEN_EOF` token to `tokens[token_count]`. `none` means that the fuel
ran out. -/
def lexLoop : Nat → LexState → Option LexResult
  | 0, _ => none
  | fuel + 1, s =>
    match lexStep s with
    | .done => some (lexDone s)
    | .fail p c => some (.error p c)
    | .next s1 => lexLoop fuel s1

/-- The function `lexer`, entered with `token_count = 0` as `compile_file`
leaves it. Every iteration consumes a byte, so the fuel is never used up
(`lexer_returns`). -/
def lexer (input : List Char) : Option LexResult :=
  lexLoop ((cstr input).length + 1) ⟨0, cstr input, []⟩

/-- The state before iteration `n` of the loop of `lexer`, counted from state
`s`; `none` when the loop has ended or failed before. -/
def lexIter : Nat → LexState → Option LexState
  | 0, s => some s
  | n + 1, s =>
    match lexStep s with
    | .next s1 => lexIter n s1
    | _ => none

/-- The state in which `lexer` enters its loop. -/
def lexInit (input : List Char) : LexState := ⟨0, cstr input, []⟩

/-! ## The parser (`parser`, lines 251-303) -/

/-- A slot of the array `tokens` that was never written: all bytes zero, hence
kind `TOKEN_OP_BLOCK_START` (enumerator 0) and an empty `value`. -/
def zeroToken : Token := ⟨.TOKEN_OP_BLOCK_START, []⟩

/-- A slot of the array `ast` that was never written: all bytes zero, hence
kind `AST_BLOCK` (enumerator 0) and empty strings. -/
def zeroNode : ASTNode := ⟨.AST_BLOCK, [], []⟩

/-- The token `tokens[token_pos]`, where `toks` holds the slots of `tokens`
from `token_pos` on; slots behind the last written one read as zero. -/
def cur (toks : List Token) : Token := toks.headD zeroToken

/-- The slot `ast[i]` as left by earlier compilations (`old`), before the
parser writes to it. -/
def slot (old : List ASTNode) (i : Nat) : ASTNode := old.getD i zeroNode

/-- What the three diagnostics of `parser` print before `exit(1)`. -/
inductive ParseError
  | unknownKeyword (kw : List Char)
  | unexpectedToken (token_pos : Nat)
  | expectedBlockStart
  deriving DecidableEq

/-- Outcome of `parser`: the nodes written to `ast[0 .. ast_count)`, or the
diagnostic of `exit(1)`. -/
inductive ParseResult
  | ok (ast : List ASTNode)
  | error (e : ParseError)
  deriving DecidableEq

/-- Outcome of the statement loop of a block: the state in which it has found
`TOKEN_OP_BLOCK_END`, or the diagnostic of `exit(1)`. -/
inductive StmtsResult
  | closed (token_pos : Nat) (toks : List Token) (ast : List ASTNode)
  | error (e : ParseError)
  deriving DecidableEq

/-- The inner loop `while (tokens[token_pos].type != TOKEN_OP_BLOCK_END)` run
for at most `fuel` iterations. `toks` holds the token slots from `token_pos`
on, `ast` the nodes written so far (`ast_count` is their number); a node
keeps in the fields that are not assigned what `old` holds in its slot. -/
def parseStmts (old : List ASTNode) :
    Nat → Nat → List Token → List ASTNode → Option StmtsResult
  | 0, _, _, _ => none
  | fuel + 1, token_pos, toks, ast =>
    if (cur toks).type = .TOKEN_OP_BLOCK_END then some (.closed token_pos toks ast)
    else if (cur toks).type = .TOKEN_KEYWORD then
      if (cur toks).value = ['l', 'e', 't'] then
        let toks1 := toks.tail
        let toks2 := toks1.tail
        if (cur toks2).type = .TOKEN_SYMBOL ∧ (cur toks2).value.head? = some '=' then
          let toks3 := toks2.tail
          parseStmts old fuel (token_pos + 4) toks3.tail
            (ast ++ [⟨.AST_VARDECL, (cur toks1).value, (cur toks3).value⟩])
        else
          parseStmts old fuel (token_pos + 2) toks2
            (ast ++ [⟨.AST_VARDECL, (cur toks1).value, []⟩])
      else if (cur toks).value = ['p', 'n', 't'] then
        let toks1 := toks.tail
        parseStmts old fuel (token_pos + 2) toks1.tail
          (ast ++ [{ slot old ast.length with type := .AST_PRINT, value := (cur toks1).value }])
      else if (cur toks).value = ['k', 'b', 'c', 'h', 'k'] then
        parseStmts old fuel (token_pos + 1) toks.tail
          (ast ++ [{ slot old ast.length with type := .AST_KBCHK }])
      else some (.error (.unknownKeyword (cur toks).value))
    else some (.error (.unexpectedToken token_pos))

/-- The outer loop `while (ast_count < MAX_AST)` run for at most `fuel`
iterations. -/
def parseLoop (old : List ASTNode) :
    Nat → Nat → List Token → List ASTNode → Option ParseResult
  | 0, _, _, _ => none
  | fuel + 1, token_pos, toks, ast =>
    if ¬ (ast.length < MAX_AST) then some (.ok ast)
    else if (cur toks).type = .TOKEN_EOF then
      some (.ok (ast ++ [{ slot old ast.length with type := .AST_END }]))
    else if (cur toks).type = .TOKEN_OP_BLOCK_START then
      match parseStmts old fuel (token_pos + 1) toks.tail
          (ast ++ [{ slot old ast.length with type := .AST_BLOCK }]) with
      | none => none
      | some (.error e) => some (.error e)
      | some (.closed token_pos1 toks1 ast1) =>
        parseLoop old fuel (token_pos1 + 1) toks1.tail ast1
    else some (.error .expectedBlockStart)

/-- The function `parser`, entered with `ast_count = 0` as `compile_file`
leaves it. `tokens` holds the written slots of the array `tokens`: those
that `lexer` has just written, followed by what earlier compilations have
left behind them; `old` holds the slots of the array `ast`. Every iteration
of either loop consumes a token or fails, so the fuel is never used up
(`parser_returns`). -/
def parser (tokens : List Token) (old : List ASTNode) : Option ParseResult :=
  parseLoop old (tokens.length + 2) 0 tokens []

/-- Outcome of the front end of `compile_file`: the diagnostic of the first
`exit(1)`, or the nodes written to `ast`, or `tokenOverflow` when `lexer` has
stored outside the array `tokens`. -/
inductive FrontResult
  | lexError (pos : Nat) (c : Char)
  | parseError (e : ParseError)
  | ok (ast : List ASTNode)
  | tokenOverflow
  deriving DecidableEq

/-- The calls `lexer(input); parser();` of `compile_file`, with `stale` the
slots of `tokens` and `old` the slots of `ast` as earlier compilations have
left them (both empty in the first compilation of a process). -/
def parseSource (input : List Char) (stale : List Token) (old : List ASTNode) :
    Option FrontResult :=
  match lexer input with
  | none => none
  | some (.error p c) => some (.lexError p c)
  | some (.overflow _) => some .tokenOverflow
  | some (.ok toks) =>
    match parser (toks ++ stale.drop toks.length) old with
    | none => none
    | some (.error e) => some (.parseError e)
    | some (.ok ast) => some (.ok ast)

/-! ## Vocabulary of the parser's specification -/

/-- An AST node as the specification describes it: a kind together with the
fields that the kind uses. -/
inductive Node
  | BLOCK
  | VARDECL (v1 v2 : List Char)
  | PRINT (v1 : List Char)
  | KBCHK
  | END
  deriving DecidableEq

/-- The kind and the used fields of a slot of `ast`. -/
def ASTNode.view (n : ASTNode) : Node :=
  match n.type with
  | .AST_BLOCK => .BLOCK
  | .AST_VARDECL => .VARDECL n.value n.value2
  | .AST_PRINT => .PRINT n.value
  | .AST_KBCHK => .KBCHK
  | .AST_END => .END

/-- The kind of a node. -/
def Node.kind : Node → ASTType
  | .BLOCK => .AST_BLOCK
  | .VARDECL _ _ => .AST_VARDECL
  | .PRINT _ => .AST_PRINT
  | .KBCHK => .AST_KBCHK
  | .END => .AST_END

/-- The terminal `w` of the grammar, for `w` one of `let`, `pnt`, `kbchk`: a
`KEYWORD` token with that lexeme. -/
def IsKw (w : List Char) (t : Token) : Prop := t.type = .TOKEN_KEYWORD ∧ t.value = w

/-- The terminal `=` of the grammar: a `SYMBOL` token whose lexeme starts with
`=` (the lexer writes no other `SYMBOL` token than `=`). -/
def IsEq (t : Token) : Prop := t.type = .TOKEN_SYMBOL ∧ t.value.head? = some '='

/-- The non-terminal `KEYWORD` in `'let' KEYWORD ...`. -/
def IsName (t : Token) : Prop := t.type = .TOKEN_KEYWORD

/-- The alternative `(NUMBER|STRING|KEYWORD)` of the grammar. -/
def IsOperand (t : Token) : Prop :=
  t.type = .TOKEN_NUMBER ∨ t.type = .TOKEN_STRING ∨ t.type = .TOKEN_KEYWORD

/-- Derivations of `stmt*`, each with the nodes that the emission rules give:
`nm` says which tokens may stand for the name of a `let`, `op` which tokens
may stand for an initializer or for the operand of `pnt`. -/
inductive Stmts (nm op : Token → Prop) : List Token → List Node → Prop
  | nil : Stmts nm op [] []
  | letDecl (k n : Token) (rest : List Token) (ns : List Node) :
      IsKw ['l', 'e', 't'] k → nm n → Stmts nm op rest ns →
      Stmts nm op (k :: n :: rest) (.VARDECL n.value [] :: ns)
  | letInit (k n e v : Token) (rest : List Token) (ns : List Node) :
      IsKw ['l', 'e', 't'] k → nm n → IsEq e → op v → Stmts nm op rest ns →
      Stmts nm op (k :: n :: e :: v :: rest) (.VARDECL n.value v.value :: ns)
  | pnt (k v : Token) (rest : List Token) (ns : List Node) :
      IsKw ['p', 'n', 't'] k → op v → Stmts nm op rest ns →
      Stmts nm op (k :: v :: rest) (.PRINT v.value :: ns)
  | kbchk (k : Token) (rest : List Token) (ns : List Node) :
      IsKw ['k', 'b', 'c', 'h', 'k'] k → Stmts nm op rest ns →
      Stmts nm op (k :: rest) (.KBCHK :: ns)

/-- Derivations of `block*` with `block := '/+[' stmt* '/=]'`: each block gives
one `BLOCK` node followed by the nodes of its statements. -/
inductive Blocks (nm op : Token → Prop) : List Token → List Node → Prop
  | nil : Blocks nm op [] []
  | cons (bs be : Token) (body rest : List Token) (ns ms : List Node) :
      bs.type = .TOKEN_OP_BLOCK_START → Stmts nm op body ns →
      be.type = .TOKEN_OP_BLOCK_END → Blocks nm op rest ms →
      Blocks nm op (bs :: (body ++ be :: rest)) (.BLOCK :: (ns ++ ms))

/-- Derivations of `program := block* EOF`: the nodes of the blocks, then one
`END` node. -/
def Program (nm op : Token → Prop) (toks : List Token) (nodes : List Node) : Prop :=
  ∃ body e ns, toks = body ++ [e] ∧ e.type = .TOKEN_EOF ∧ Blocks nm op body ns ∧
    nodes = ns ++ [.END]

/-- No constraint on a token. -/
def AnyToken (_ : Token) : Prop := True

/-! ## Vocabulary of the lexer's specification -/

/-- The whitespace bytes that the specification lists: space, tab, newline and
carriage return. -/
def listedWhitespace (c : Char) : Bool :=
  c == ' ' || c == '\t' || c == '\n' || c == '\r'

/-- The byte `c`, followed by the bytes `r`, can start a token: it is `"`, a
decimal digit, an ASCII letter, `=`, or the first byte of `/+[` or `/=]`. -/
def canStartToken (c : Char) (r : List Char) : Bool :=
  c == '"' || isdigit c || isalpha c || c == '=' ||
    (c == '/' && (r.take 2 == ['+', '['] || r.take 2 == ['=', ']']))

/-- Scanning `input` reaches, with the loop condition true, the token-start
position `p`, whose byte `c` is neither whitespace according to `ws` nor able
to start a token. -/
def LexFailsAt (ws : Char → Bool) (input : List Char) (p : Nat) (c : Char) : Prop :=
  ∃ n s r, lexIter n (lexInit input) = some s ∧ s.pos = p ∧ s.rest = c :: r ∧
    s.tokens.length < MAX_TOKENS ∧ ws c = false ∧ canStartToken c r = false

/-- A source of 512 empty blocks `/+[/=]`: 3072 bytes that hold 1024 tokens. -/
def fullTokenSource : List Char := (List.replicate 512 "/+[/=]".toList).flatten

/-- The 1024 tokens of `fullTokenSource`: 512 times `/+[` and `/=]`. -/
def fullTokenArray : List Token :=
  (List.replicate 512 [(⟨.TOKEN_OP_BLOCK_START, ['/', '+', '[']⟩ : Token),
    ⟨.TOKEN_OP_BLOCK_END, ['/', '=', ']']⟩]).flatten

/-- The lexeme of a `TOKEN_NUMBER` token matches `[0-9]+` and that of a
`TOKEN_KEYWORD` token matches `[A-Za-z]+`. -/
def LexemeOk (t : Token) : Prop :=
  (t.type = .TOKEN_NUMBER → t.value ≠ [] ∧ ∀ c ∈ t.value, isdigit c = true) ∧
  (t.type = .TOKEN_KEYWORD → t.value ≠ [] ∧ ∀ c ∈ t.value, isalpha c = true)

/-- Capacity of the global output buffer (`#define MAX_OUTPUT 4096`). -/
def MAX_OUTPUT : Nat := 4096

/-- Size of the buffer of `read_file` (`#define MAX_BUFFER 4096`). -/
def MAX_BUFFER : Nat := 4096

/-- The enumeration `enum Platform`, in declaration order. -/
inductive Platform
  | PLATFORM_MACOS
  | PLATFORM_FREEBSD
  | PLATFORM_LINUX
  | PLATFORM_WINDOWS
  | PLATFORM_IOS
  | PLATFORM_ANDROID
  deriving DecidableEq

/-- The function `append_str`. `out` holds `output_buf[0 .. output_pos)`, the
bytes that `main` writes to `out.asm`; the string is copied behind them when
`output_pos + len < MAX_OUTPUT` and dropped otherwise. -/
def append_str (out : List Char) (str : List Char) : List Char :=
  if out.length + str.length < MAX_OUTPUT then out ++ str else out

/-- The test `target_platform == PLATFORM_MACOS || target_platform ==
PLATFORM_IOS`. -/
def isApple (t : Platform) : Bool :=
  t = .PLATFORM_MACOS || t = .PLATFORM_IOS

/-- The strings of the calls of `append_str` in lines 314-331: the data
section, the `extern` declarations and, for the main file, the `global`
declaration. -/
def headerCalls (t : Platform) (is_main : Bool) : List String :=
  ["section .data\n", "msg db 'N0roshi running...', 10, 0\n", "input_buf db 0\n",
    "section .text\n"] ++
  (if isApple t then
    ["extern _getchar\n", "extern _printf\n"] ++ (if is_main then ["global _main\n"] else [])
  else if t = .PLATFORM_WINDOWS then
    ["extern getchar\n", "extern printf\n"] ++ (if is_main then ["global main\n"] else [])
  else
    ["extern getchar\n", "extern printf\n"] ++ (if is_main then ["global main\n"] else []))

/-- The strings of the calls of `append_str` in lines 333-369: the subroutine
`kbhit`. -/
def kbhitCalls (t : Platform) : List String :=
  ["kbhit:\n"] ++
  (if isApple t then
    ["  mov rax, 0x2000003\n", "  mov rdi, 0\n", "  syscall\n", "  cmp rax, -1\n"]
  else if t = .PLATFORM_FREEBSD then
    ["  mov rax, 3\n", "  mov rdi, 0\n", "  mov rsi, input_buf\n", "  mov rdx, 1\n",
      "  syscall\n", "  cmp rax, 0\n"]
  else if t = .PLATFORM_LINUX ∨ t = .PLATFORM_ANDROID then
    ["  mov rax, 0\n", "  mov rdi, 0\n", "  mov rsi, input_buf\n", "  mov rdx, 1\n",
      "  syscall\n", "  cmp rax, 0\n"]
  else
    ["  call getchar\n", "  cmp rax, -1\n", "  je .no_key\n", "  mov byte [input_buf], al\n",
      "  mov rax, 1\n", "  ret\n"]) ++
  (if t ≠ .PLATFORM_WINDOWS then
    ["  je .no_key\n", "  mov byte [rel input_buf], al\n", "  mov rax, 1\n", "  ret\n"]
  else []) ++
  [".no_key:\n", "  xor rax, rax\n", "  ret\n"]

/-- The strings of the calls of `append_str` in lines 371-382: the entry label
and the prologue. -/
def entryCalls (t : Platform) (is_main : Bool) : List String :=
  (if is_main then
    (if isApple t then ["_main:\n"] else ["main:\n"])
  else ["module_init:\n"]) ++
  ["  push rbp\n", "  mov rbp, rsp\n", "  sub rsp, 16\n"]

/-- The strings of the calls of `append_str` in one iteration of the loop of
lines 384-416, for the node `n = ast[i]`; `exit_key` is `config.exit_key`. A
node of kind `AST_BLOCK` or `AST_END` makes no call. -/
def nodeCalls (t : Platform) (exit_key : List Char) (n : ASTNode) : List (List Char) :=
  if n.type = .AST_BLOCK then []
  else if n.type = .AST_VARDECL then
    ["  mov qword [rbp-8], 0\n".toList] ++
    (if n.value2 ≠ [] then
      ["  mov rax, ".toList, n.value2, "\n".toList, "  mov [rbp-8], rax\n".toList]
    else [])
  else if n.type = .AST_PRINT then
    (if isApple t then
      ["  lea rdi, [rel msg]\n".toList, "  xor rax, rax\n".toList, "  call _printf\n".toList]
    else
      ["  lea rdi, [msg]\n".toList, "  xor rax, rax\n".toList, "  call printf\n".toList])
  else if n.type = .AST_KBCHK then
    ["  call kbhit\n".toList, "  test rax, rax\n".toList, "  jz .no_input\n".toList,
      "  mov al, byte [rel input_buf]\n".toList, "  cmp al, '".toList, exit_key, "'\n".toList,
      "  je .exit\n".toList, ".no_input:\n".toList]
  else []

/-- The strings of the calls of `append_str` in lines 418-440: the label
`.exit`, the epilogue and the exit sequence or `ret`. -/
def exitCalls (t : Platform) (is_main : Bool) : List String :=
  [".exit:\n", "  mov rsp, rbp\n", "  pop rbp\n"] ++
  (if is_main then
    (if isApple t then ["  mov rax, 0x2000001\n", "  mov rdi, 0\n", "  syscall\n"]
    else if t = .PLATFORM_FREEBSD then ["  mov rax, 1\n", "  xor rdi, rdi\n", "  syscall\n"]
    else if t = .PLATFORM_LINUX ∨ t = .PLATFORM_ANDROID then
      ["  mov rax, 60\n", "  xor rdi, rdi\n", "  syscall\n"]
    else ["  mov rcx, 0\n", "  call ExitProcess\n"])
  else ["  ret\n"])

/-- The strings of all calls of `append_str` that `codegen(is_main)` makes, in
order, for the target `t`, the exit key `exit_key` and the nodes
`ast[0 .. ast_count)`. -/
def codegenCalls (t : Platform) (is_main : Bool) (exit_key : List Char)
    (ast : List ASTNode) : List (List Char) :=
  (headerCalls t is_main ++ kbhitCalls t ++ entryCalls t is_main).map String.toList ++
  (ast.map (nodeCalls t exit_key)).flatten ++
  (exitCalls t is_main).map String.toList

/-- The function `codegen`: its calls of `append_str`, one after the other, on
the output `out`. -/
def codegen (t : Platform) (is_main : Bool) (exit_key : List Char) (ast : List ASTNode)
    (out : List Char) : List Char :=
  (codegenCalls t is_main exit_key ast).foldl append_str out

/-- The text that `codegen` would emit with an unbounded buffer. -/
def codegenText (t : Platform) (is_main : Bool) (exit_key : List Char)
    (ast : List ASTNode) : List Char :=
  (codegenCalls t is_main exit_key ast).flatten

/-! ## The compile driver (`read_file`, `compile_file`, `read_noi`) -/

/-- The function `read_file` on a file that can be opened: at most
`MAX_BUFFER - 1` bytes of its contents. -/
def read_file (contents : List Char) : List Char := contents.take (MAX_BUFFER - 1)

/-- The global arrays `tokens` and `ast` as a compilation finds them: the
slots that earlier compilations have written (none in a fresh process). -/
structure Memory where
  tokens : List Token
  ast : List ASTNode
  deriving DecidableEq

/-- Outcome of `compile_file`: the diagnostic of the `exit(1)` of `lexer` or
`parser`, or the arrays as it leaves them, the nodes `ast[0 .. ast_count)`
and the output `output_buf[0 .. output_pos)`, or `tokenOverflow` when `lexer`
has stored outside the array `tokens`. -/
inductive CompileResult
  | lexError (pos : Nat) (c : Char)
  | parseError (e : ParseError)
  | ok (mem : Memory) (ast : List ASTNode) (output : List Char)
  | tokenOverflow
  deriving DecidableEq

/-- The function `compile_file` on the contents of the file at `path`: the
three counters are set to 0, the arrays keep their contents. -/
def compile_file (t : Platform) (exit_key : List Char) (mem : Memory)
    (contents : List Char) (is_main : Bool) : Option CompileResult :=
  match lexer (read_file contents) with
  | none => none
  | some (.error p c) => some (.lexError p c)
  | some (.overflow _) => some .tokenOverflow
  | some (.ok toks) =>
    match parser (toks ++ mem.tokens.drop toks.length) mem.ast with
    | none => none
    | some (.error e) => some (.parseError e)
    | some (.ok ast) =>
      some (.ok ⟨toks ++ mem.tokens.drop toks.length, ast ++ mem.ast.drop ast.length⟩ ast
        (codegen t is_main exit_key ast []))

/-- The member `exit_key` of the global `config`; the other members are not
read by `codegen`. -/
structure Config where
  exit_key : List Char
  deriving DecidableEq

/-- The initial value of `config`: `.exit_key = "q"`. -/
def config : Config := ⟨['q']⟩

/-- The effect on `config.exit_key` of the body of the `fgets` loop of
`read_noi` for one line, a C string without its newline. The branches for
`kernel:` and `deps:` come first and assign other members; the branch for
`exit_key:` looks for the first `"` from offset 9 on, copies at most 7 bytes
behind it (`strncpy`, into a field whose eighth byte stays NUL) and cuts the
copy at its first `"`. -/
def read_noi_line (cfg : Config) (line : List Char) : Config :=
  if line.take 7 = "kernel:".toList then cfg
  else if line.take 5 = "deps:".toList then cfg
  else if line.take 9 = "exit_key:".toList then
    match (line.drop 9).dropWhile (fun c => c != '"') with
    | [] => cfg
    | _ :: key => { cfg with exit_key := (key.take 7).takeWhile (fun c => c != '"') }
  else cfg

/-- The pieces that successive calls `fgets(line, size, file)` return for the
bytes of a stream: a call reads up to and including the next newline, and at
most `size - 1` bytes; `cur` holds the bytes of the piece read so far. At the
end of the stream the bytes read so far are the last piece, and with none
read `fgets` returns `NULL`. -/
def fgetsFrom (size : Nat) : List Char → List Char → List (List Char)
  | [], cur => if cur = [] then [] else [cur]
  | c :: r, cur =>
    if c = '\n' ∨ cur.length + 1 = size - 1 then (cur ++ [c]) :: fgetsFrom size r []
    else fgetsFrom size r (cur ++ [c])

/-- The C string that the body of the loop of `read_noi` works on for a piece
read by `fgets`: the bytes before the first NUL, cut at the newline by
`line[strcspn(line, "\n")] = '\0'`. -/
def noiLine (piece : List Char) : List Char :=
  (cstr piece).takeWhile (fun c => c != '\n')

/-- The `fgets` loop of `read_noi` over the bytes `file` of the `.noi` file,
read into `char line[256]`. -/
def read_noi (file : List Char) (cfg : Config) : Config :=
  ((fgetsFrom 256 file []).map noiLine).foldl read_noi_line cfg

/-! ## Vocabulary of the code generator's specification -/

/-- The lines of a text: the runs between newlines, and the run after the
last newline when it is not empty; `cur` is the line read so far. -/
def linesFrom : List Char → List Char → List (List Char)
  | [], cur => if cur = [] then [] else [cur]
  | c :: r, cur => if c = '\n' then cur :: linesFrom r [] else linesFrom r (cur ++ [c])

/-- The lines of an assembly text, each without its indentation. -/
def asmLines (out : List Char) : List (List Char) :=
  (linesFrom out []).map (fun l => l.dropWhile (fun c => c = ' '))

/-- The text before the statement body: data section, declarations, `kbhit`,
entry label and prologue. -/
def prologueText (t : Platform) (is_main : Bool) : List Char :=
  ((headerCalls t is_main ++ kbhitCalls t ++ entryCalls t is_main).map String.toList).flatten

/-- The text that one node contributes to the statement body. -/
def nodeText (t : Platform) (exit_key : List Char) (n : ASTNode) : List Char :=
  (nodeCalls t exit_key n).flatten

/-- The statement body: the texts of the nodes, in order. -/
def bodyText (t : Platform) (exit_key : List Char) (ast : List ASTNode) : List Char :=
  (ast.map (nodeText t exit_key)).flatten

/-- The text behind the statement body: the label `.exit`, the epilogue and
the exit sequence or `ret`. -/
def epilogueText (t : Platform) (is_main : Bool) : List Char :=
  ((exitCalls t is_main).map String.toList).flatten

/-- A text that is empty or ends with a newline. -/
def Terminated (s : List Char) : Prop := s = [] ∨ s.getLast? = some '\n'

/-- The node `n` is a `let` whose initializer holds a newline. -/
def NewlineInInit (n : ASTNode) : Prop :=
  n.type = .AST_VARDECL ∧ '\n' ∈ n.value2

/-- The lines, without indentation, that the statement body can hold for the
target `t` besides the two lines that paste a lexeme or the exit key. -/
def statementLines (t : Platform) : List (List Char) :=
  (["mov qword [rbp-8], 0", "mov [rbp-8], rax", "xor rax, rax", "call kbhit", "test rax, rax",
    "jz .no_input", "mov al, byte [rel input_buf]", "je .exit", ".no_input:"] ++
    (if isApple t then ["lea rdi, [rel msg]", "call _printf"]
     else ["lea rdi, [msg]", "call printf"])).map String.toList

/-- A line of the statement body for the target `t`: one of `statementLines`,
or a line that starts with `mov rax, ` or with `cmp al, '`. -/
def isStatementLine (t : Platform) (l : List Char) : Bool :=
  decide (l ∈ statementLines t) || decide (l.take 9 = "mov rax, ".toList) ||
    decide (l.take 9 = "cmp al, '".toList)

/-- The strings, among those of successive calls of `append_str`, that are
copied to an output that holds `pos` bytes: each string that fits is kept and
moves `pos`, each other one is dropped. -/
def keptCalls : Nat → List (List Char) → List (List Char)
  | _, [] => []
  | pos, s :: r =>
    if pos + s.length < MAX_OUTPUT then s :: keptCalls (pos + s.length) r else keptCalls pos r

/-- An AST that fills the output buffer on Linux: fourteen `let` with an
initializer of 213 digits, then `let a = "global x"`. -/
def fullBufferAst : List ASTNode :=
  List.replicate 14 ⟨.AST_VARDECL, ['a'], List.replicate 213 '1'⟩ ++
    [⟨.AST_VARDECL, ['a'], "global x".toList⟩]

/-- The exit sequence of the specification's table for the target `t`, as
lines without indentation. -/
def exitSequence : Platform → List String
  | .PLATFORM_MACOS | .PLATFORM_IOS => ["mov rax, 0x2000001", "mov rdi, 0", "syscall"]
  | .PLATFORM_FREEBSD => ["mov rax, 1", "xor rdi, rdi", "syscall"]
  | .PLATFORM_LINUX | .PLATFORM_ANDROID => ["mov rax, 60", "xor rdi, rdi", "syscall"]
  | .PLATFORM_WINDOWS => ["mov rcx, 0", "call ExitProcess"]

/-- The entry label of the specification: `_main:` for the main file on macOS
and iOS, `main:` for the main file on the other targets, `module_init:` for a
module. -/
def entryLabel (t : Platform) (is_main : Bool) : String :=
  if is_main then
    (if t = .PLATFORM_MACOS ∨ t = .PLATFORM_IOS then "_main:" else "main:")
  else "module_init:"

/-- The lines of a text that start with `global`. -/
def globalLines (out : List Char) : List (List Char) :=
  (asmLines out).filter (fun l => decide (l.take 6 = "global".toList))

/-- An AST that fills the output buffer on Linux like `fullBufferAst`:
fourteen `let` with an initializer of 213 digits, then `let a = "kbhit:"`. -/
def fullBufferLabelAst : List ASTNode :=
  List.replicate 14 ⟨.AST_VARDECL, ['a'], List.replicate 213 '1'⟩ ++
    [⟨.AST_VARDECL, ['a'], "kbhit:".toList⟩]

/-! ## Lexer lemmas -/

/-- The token that one iteration writes when it consumes `n` bytes of `rest`. -/
inductive Emitted : List Char → Nat → Token → Prop
  | blockStart (r : List Char) :
      Emitted ('/' :: '+' :: '[' :: r) 3 ⟨.TOKEN_OP_BLOCK_START, ['/', '+', '[']⟩
  | blockEnd (r : List Char) :
      Emitted ('/' :: '=' :: ']' :: r) 3 ⟨.TOKEN_OP_BLOCK_END, ['/', '=', ']']⟩
  | stringClosed (r r2 : List Char) :
      r.drop ((r.take 255).takeWhile (fun x => x != '"')).length = '"' :: r2 →
      Emitted ('"' :: r) (1 + ((r.take 255).takeWhile (fun x => x != '"')).length + 1)
        ⟨.TOKEN_STRING, (r.take 255).takeWhile (fun x => x != '"')⟩
  | stringOpen (r : List Char) :
      (∀ r2, r.drop ((r.take 255).takeWhile (fun x => x != '"')).length ≠ '"' :: r2) →
      Emitted ('"' :: r) (1 + ((r.take 255).takeWhile (fun x => x != '"')).length)
        ⟨.TOKEN_STRING, (r.take 255).takeWhile (fun x => x != '"')⟩
  | number (c : Char) (r : List Char) : isdigit c = true →
      Emitted (c :: r) (((c :: r).take 255).takeWhile isdigit).length
        ⟨.TOKEN_NUMBER, ((c :: r).take 255).takeWhile isdigit⟩
  | keyword (c : Char) (r : List Char) : isalpha c = true →
      Emitted (c :: r) (((c :: r).take 255).takeWhile isalpha).length
        ⟨.TOKEN_KEYWORD, ((c :: r).take 255).takeWhile isalpha⟩
  | symbol (r : List Char) : Emitted ('=' :: r) 1 ⟨.TOKEN_SYMBOL, ['=']⟩

/-- A run scanned by one of the inner loops is an initial part of the input. -/
theorem run_isPrefix (p : Char → Bool) (l : List Char) :
    List.IsPrefix ((l.take 255).takeWhile p) l :=
  (List.takeWhile_prefix p).trans (List.take_prefix 255 l)

theorem run_length_le (p : Char → Bool) (l : List Char) :
    ((l.take 255).takeWhile p).length ≤ l.length :=
  (run_isPrefix p l).length_le

theorem take_two_eq {r : List Char} {a b : Char} (h : r.take 2 = [a, b]) :
    ∃ r2, r = a :: b :: r2 := by
  match r, h with
  | x :: y :: r2, h =>
    simp only [List.take_succ_cons, List.take_zero, List.cons.injEq, and_true] at h
    exact ⟨r2, by rw [h.1, h.2]⟩

/-- Shape of an iteration that continues: it consumes `n ≥ 1` bytes and writes
at most one token. -/
theorem lexStep_next {s s1 : LexState} (h : lexStep s = .next s1) :
    s.tokens.length < MAX_TOKENS ∧
    ∃ n ts, 0 < n ∧ n ≤ s.rest.length ∧
      s1 = ⟨s.pos + n, s.rest.drop n, s.tokens ++ ts⟩ ∧
      ((ts = [] ∧ n = 1 ∧ ∃ c r, s.rest = c :: r ∧ isspace c = true) ∨
        ∃ t, ts = [t] ∧ Emitted s.rest n t) := by
  obtain ⟨pos, rest, toks⟩ := s
  unfold lexStep at h
  simp only at h
  match rest, h with
  | c :: r, h =>
    simp only at h
    split_ifs at h with h1 h2 h3 h4 h5 h6 h7 h8
    · refine ⟨by simpa using h1, 1, [], by simp, by simp, ?_, Or.inl ⟨rfl, rfl, c, r, rfl, h2⟩⟩
      simpa using (LexStep.next.inj h).symm
    · obtain ⟨r2, rfl⟩ := take_two_eq h3.2
      obtain ⟨rfl⟩ := h3.1
      refine ⟨by simpa using h1, 3, _, by simp, by simp, ?_, Or.inr ⟨_, rfl, Emitted.blockStart r2⟩⟩
      simpa using (LexStep.next.inj h).symm
    · obtain ⟨r2, rfl⟩ := take_two_eq h4.2
      obtain ⟨rfl⟩ := h4.1
      refine ⟨by simpa using h1, 3, _, by simp, by simp, ?_, Or.inr ⟨_, rfl, Emitted.blockEnd r2⟩⟩
      simpa using (LexStep.next.inj h).symm
    · subst h5
      have hlen : ((r.take 255).takeWhile (fun x => x != '"')).length ≤ r.length :=
        run_length_le _ _
      split at h
      · next r2 hd =>
        have hr : 1 ≤ (r.drop ((r.take 255).takeWhile (fun x => x != '"')).length).length := by
          rw [hd]; simp
        rw [List.length_drop] at hr
        refine ⟨by simpa using h1, _, _, ?_, ?_, ?_, Or.inr ⟨_, rfl, Emitted.stringClosed r r2 hd⟩⟩
        · omega
        · simp only [List.length_cons]; omega
        · rw [← LexStep.next.inj h]
          simp only [LexState.mk.injEq, true_and, and_true]
          rw [show 1 + ((r.take 255).takeWhile (fun x => x != '"')).length + 1
              = (((r.take 255).takeWhile (fun x => x != '"')).length + 1) + 1 by omega,
            List.drop_succ_cons, ← List.drop_drop, hd]
          simp only [List.drop_succ_cons, List.drop_zero, and_true]
          omega
      · next hd =>
        refine ⟨by simpa using h1, _, _, ?_, ?_, ?_,
          Or.inr ⟨_, rfl, Emitted.stringOpen r (fun r2 h2 => hd r2 h2)⟩⟩
        · omega
        · simp only [List.length_cons]; omega
        · rw [← LexStep.next.inj h]
          simp only [LexState.mk.injEq, true_and, and_true]
          rw [show 1 + ((r.take 255).takeWhile (fun x => x != '"')).length
              = ((r.take 255).takeWhile (fun x => x != '"')).length + 1 by omega,
            List.drop_succ_cons]
          exact ⟨by omega, rfl⟩
    · refine ⟨by simpa using h1, _, _, ?_, ?_, ?_, Or.inr ⟨_, rfl, Emitted.number c r h6⟩⟩
      · simp [h6]
      · exact run_length_le _ _
      · exact (LexStep.next.inj h).symm
    · refine ⟨by simpa using h1, _, _, ?_, ?_, ?_, Or.inr ⟨_, rfl, Emitted.keyword c r h7⟩⟩
      · simp [h7]
      · exact run_length_le _ _
      · exact (LexStep.next.inj h).symm
    · subst h8
      refine ⟨by simpa using h1, 1, _, by simp, by simp, ?_, Or.inr ⟨_, rfl, Emitted.symbol r⟩⟩
      simpa using (LexStep.next.inj h).symm

theorem lexStep_rest_lt {s s1 : LexState} (h : lexStep s = .next s1) :
    s1.rest.length < s.rest.length := by
  obtain ⟨-, n, ts, hn, hle, rfl, -⟩ := lexStep_next h
  simp only [List.length_drop]
  omega

/-- With more fuel than bytes left, the loop of `lexer` ends. -/
theorem lexLoop_returns : ∀ (fuel : Nat) (s : LexState), s.rest.length < fuel →
    ∃ r, lexLoop fuel s = some r := by
  intro fuel
  induction fuel with
  | zero => intro s h; omega
  | succ k ih =>
    intro s h
    unfold lexLoop
    cases hs : lexStep s with
    | done => exact ⟨_, rfl⟩
    | fail p c => exact ⟨_, rfl⟩
    | next s1 =>
      have := lexStep_rest_lt hs
      exact ih s1 (by omega)

/-- The function `lexer` returns on every input. -/
theorem lexer_returns (input : List Char) : ∃ r, lexer input = some r :=
  lexLoop_returns _ _ (Nat.lt_succ_self _)

theorem lexDone_ok {s : LexState} {toks : List Token} (h : lexDone s = .ok toks) :
    s.tokens.length < MAX_TOKENS ∧ toks = s.tokens ++ [eofToken] := by
  unfold lexDone at h
  split_ifs at h with hlt
  · exact ⟨hlt, (LexResult.ok.inj h).symm⟩

theorem lexDone_overflow {s : LexState} {toks : List Token} (h : lexDone s = .overflow toks) :
    ¬ s.tokens.length < MAX_TOKENS ∧ toks = s.tokens := by
  unfold lexDone at h
  split_ifs at h with hlt
  · exact ⟨hlt, (LexResult.overflow.inj h).symm⟩

theorem lexDone_ne_error (s : LexState) (p : Nat) (c : Char) : lexDone s ≠ .error p c := by
  unfold lexDone
  split_ifs <;> simp

/-- A successful run ends in a reachable state whose loop condition is false. -/
theorem lexLoop_ok : ∀ (fuel : Nat) (s : LexState) (toks : List Token),
    lexLoop fuel s = some (.ok toks) →
    ∃ n s1, lexIter n s = some s1 ∧ lexStep s1 = .done ∧ toks = s1.tokens ++ [eofToken] := by
  intro fuel
  induction fuel with
  | zero => intro s toks h; simp [lexLoop] at h
  | succ k ih =>
    intro s toks h
    unfold lexLoop at h
    cases hs : lexStep s with
    | done =>
      rw [hs] at h
      simp only [Option.some.injEq] at h
      exact ⟨0, s, rfl, hs, (lexDone_ok h).2⟩
    | fail p c => rw [hs] at h; simp at h
    | next s1 =>
      rw [hs] at h
      obtain ⟨n, s2, h1, h2, h3⟩ := ih s1 toks h
      exact ⟨n + 1, s2, by simp [lexIter, hs, h1], h2, h3⟩

/-- A failed run ends in a reachable state at which the body fails. -/
theorem lexLoop_error : ∀ (fuel : Nat) (s : LexState) (p : Nat) (c : Char),
    lexLoop fuel s = some (.error p c) →
    ∃ n s1, lexIter n s = some s1 ∧ lexStep s1 = .fail p c := by
  intro fuel
  induction fuel with
  | zero => intro s p c h; simp [lexLoop] at h
  | succ k ih =>
    intro s p c h
    unfold lexLoop at h
    cases hs : lexStep s with
    | done =>
      rw [hs] at h
      simp only [Option.some.injEq] at h
      exact absurd h (lexDone_ne_error s p c)
    | fail q d =>
      rw [hs] at h
      simp only [Option.some.injEq, LexResult.error.injEq] at h
      exact ⟨0, s, rfl, by rw [hs, h.1, h.2]⟩
    | next s1 =>
      rw [hs] at h
      obtain ⟨n, s2, h1, h2⟩ := ih s1 p c h
      exact ⟨n + 1, s2, by simp [lexIter, hs, h1], h2⟩

/-- A reachable failing state makes the run fail, given the fuel of `lexer`. -/
theorem lexLoop_of_fail : ∀ (n fuel : Nat) (s s1 : LexState) (p : Nat) (c : Char),
    lexIter n s = some s1 → lexStep s1 = .fail p c → s.rest.length < fuel →
    lexLoop fuel s = some (.error p c) := by
  intro n
  induction n with
  | zero =>
    intro fuel s s1 p c h1 h2 hf
    simp only [lexIter, Option.some.injEq] at h1
    subst h1
    match fuel, hf with
    | k + 1, _ => simp [lexLoop, h2]
  | succ m ih =>
    intro fuel s s1 p c h1 h2 hf
    unfold lexIter at h1
    cases hs : lexStep s with
    | done => rw [hs] at h1; simp at h1
    | fail q d => rw [hs] at h1; simp at h1
    | next s2 =>
      rw [hs] at h1
      have := lexStep_rest_lt hs
      match fuel, hf with
      | k + 1, hf =>
        unfold lexLoop
        rw [hs]
        exact ih k s2 s1 p c h1 h2 (by omega)

/-- A property kept by every iteration holds in every reachable state. -/
theorem lexIter_invariant (P : LexState → Prop)
    (hstep : ∀ s s1, P s → lexStep s = .next s1 → P s1) :
    ∀ (n : Nat) (s s1 : LexState), P s → lexIter n s = some s1 → P s1 := by
  intro n
  induction n with
  | zero =>
    intro s s1 hP h
    simp only [lexIter, Option.some.injEq] at h
    exact h ▸ hP
  | succ m ih =>
    intro s s1 hP h
    unfold lexIter at h
    cases hs : lexStep s with
    | done => rw [hs] at h; simp at h
    | fail q d => rw [hs] at h; simp at h
    | next s2 =>
      rw [hs] at h
      exact ih s2 s1 (hstep s s2 hP hs) h

theorem Emitted.type_ne_eof {rest : List Char} {n : Nat} {t : Token} (h : Emitted rest n t) :
    t.type ≠ .TOKEN_EOF := by
  cases h <;> simp

/-- No token written inside the loop is `TOKEN_EOF`. -/
theorem lexIter_no_eof (input : List Char) (n : Nat) (s : LexState)
    (h : lexIter n (lexInit input) = some s) : ∀ t ∈ s.tokens, t.type ≠ .TOKEN_EOF := by
  refine lexIter_invariant (fun s => ∀ t ∈ s.tokens, t.type ≠ .TOKEN_EOF) ?_ n _ s ?_ h
  · intro s s1 hP hs t ht
    obtain ⟨-, n, ts, -, -, rfl, hts⟩ := lexStep_next hs
    simp only [List.mem_append] at ht
    rcases ht with ht | ht
    · exact hP t ht
    · rcases hts with ⟨rfl, -⟩ | ⟨t1, rfl, he⟩
      · simp at ht
      · simp only [List.mem_singleton] at ht
        exact ht ▸ he.type_ne_eof
  · intro t ht
    simp [lexInit] at ht

/-- The body of the loop fails exactly on a byte that is neither skipped nor
able to start a token. -/
theorem lexStep_fail_iff (s : LexState) (p : Nat) (c : Char) :
    lexStep s = .fail p c ↔
      ∃ r, s.pos = p ∧ s.rest = c :: r ∧ s.tokens.length < MAX_TOKENS ∧
        isspace c = false ∧ canStartToken c r = false := by
  obtain ⟨pos, rest, toks⟩ := s
  unfold lexStep canStartToken
  simp only
  match rest with
  | [] => simp
  | d :: r =>
    simp only [List.cons.injEq]
    constructor
    · intro h
      split_ifs at h with h1 h2 h3 h4 h5 h6 h7 h8
      · split at h <;> simp at h
      · simp only [LexStep.fail.injEq] at h
        obtain ⟨rfl, rfl⟩ := h
        refine ⟨r, rfl, ⟨rfl, rfl⟩, by simpa using h1, by simpa using h2, ?_⟩
        simp only [not_and] at h3 h4
        simp only [Bool.not_eq_true] at h6 h7
        simp only [h6, h7, Bool.or_false, Bool.or_eq_false_iff, beq_eq_false_iff_ne, ne_eq,
          Bool.and_eq_false_imp, beq_iff_eq]
        exact ⟨⟨h5, h8⟩, fun hd => ⟨h3 hd, h4 hd⟩⟩
    · rintro ⟨r1, rfl, ⟨rfl, rfl⟩, hlt, hws, hcan⟩
      simp only [Bool.or_eq_false_iff, beq_eq_false_iff_ne, ne_eq, Bool.and_eq_false_imp,
        beq_iff_eq] at hcan
      obtain ⟨⟨⟨⟨hq, hdg⟩, hal⟩, heq⟩, hsl⟩ := hcan
      have h3 : ¬ (d = '/' ∧ r.take 2 = ['+', '[']) := fun h => (hsl h.1).1 h.2
      have h4 : ¬ (d = '/' ∧ r.take 2 = ['=', ']']) := fun h => (hsl h.1).2 h.2
      simp [hlt, hws, h3, h4, hq, hdg, hal, heq]

/-- In every reachable state `pos` is the offset of `rest` in the source. -/
theorem lexIter_pos (input : List Char) (n : Nat) (s : LexState)
    (h : lexIter n (lexInit input) = some s) : s.rest = (cstr input).drop s.pos := by
  refine lexIter_invariant (fun s => s.rest = (cstr input).drop s.pos) ?_ n _ s ?_ h
  · intro s s1 hP hs
    obtain ⟨-, n, ts, -, -, rfl, -⟩ := lexStep_next hs
    simp only [hP, List.drop_drop]
  · simp [lexInit]

theorem cstr_isPrefix (buf : List Char) : List.IsPrefix (cstr buf) buf :=
  List.takeWhile_prefix _

/-- A property of every token that an iteration can write, and of the final
`TOKEN_EOF`, holds for every token of a successful run. -/
theorem lexer_tokens_forall (Q : Token → Prop)
    (hQ : ∀ rest n t, Emitted rest n t → Q t) (hEof : Q eofToken)
    (input : List Char) (toks : List Token) (h : lexer input = some (.ok toks)) :
    ∀ t ∈ toks, Q t := by
  obtain ⟨n, s1, h1, -, rfl⟩ := lexLoop_ok _ _ _ h
  have hinv : ∀ t ∈ s1.tokens, Q t := by
    refine lexIter_invariant (fun s => ∀ t ∈ s.tokens, Q t) ?_ n _ s1 ?_ h1
    · intro s s2 hP hs t ht
      obtain ⟨-, n, ts, -, -, rfl, hts⟩ := lexStep_next hs
      simp only [List.mem_append] at ht
      rcases ht with ht | ht
      · exact hP t ht
      · rcases hts with ⟨rfl, -⟩ | ⟨t1, rfl, he⟩
        · simp at ht
        · simp only [List.mem_singleton] at ht
          exact ht ▸ hQ _ _ _ he
    · intro t ht
      simp at ht
  intro t ht
  simp only [List.mem_append, List.mem_singleton] at ht
  rcases ht with ht | rfl
  · exact hinv t ht
  · exact hEof

/-- A run started on a byte that satisfies `p` is not empty. -/
theorem run_ne_nil (p : Char → Bool) (c : Char) (r : List Char) (h : p c = true) :
    ((c :: r).take 255).takeWhile p ≠ [] := by
  simp [List.take_succ_cons, List.takeWhile_cons, h]

theorem run_forall (p : Char → Bool) (l : List Char) :
    ∀ c ∈ (l.take 255).takeWhile p, p c = true :=
  fun _ hc => List.mem_takeWhile_imp hc

/-- A run that is short enough and satisfies `p` throughout is scanned whole. -/
theorem run_eq_self (p : Char → Bool) (l : List Char) (hlen : l.length ≤ 255)
    (hp : ∀ c ∈ l, p c = true) : (l.take 255).takeWhile p = l := by
  rw [List.take_of_length_le hlen]
  exact List.takeWhile_eq_self_iff.2 hp

theorem Emitted.lexemeOk {rest : List Char} {n : Nat} {t : Token} (h : Emitted rest n t) :
    LexemeOk t := by
  cases h with
  | number c r hc =>
    exact ⟨fun _ => ⟨run_ne_nil _ c r hc, run_forall _ _⟩, fun h => by simp at h⟩
  | keyword c r hc =>
    exact ⟨fun h => by simp at h, fun _ => ⟨run_ne_nil _ c r hc, run_forall _ _⟩⟩
  | _ => exact ⟨fun h => by simp at h, fun h => by simp at h⟩

theorem lexer_lexemeOk (input : List Char) (toks : List Token)
    (h : lexer input = some (.ok toks)) : ∀ t ∈ toks, LexemeOk t :=
  lexer_tokens_forall LexemeOk (fun _ _ _ he => he.lexemeOk)
    ⟨fun h => by simp [eofToken] at h, fun h => by simp [eofToken] at h⟩ input toks h

/-- A buffer without a NUL byte is its own C string. -/
theorem cstr_eq_self (buf : List Char) (h : ∀ c ∈ buf, c ≠ Char.ofNat 0) : cstr buf = buf :=
  List.takeWhile_eq_self_iff.2 (fun c hc => by simpa using h c hc)

/-- A source that is one run of at most 255 bytes of a token class lexes to
that one token. -/
theorem lexer_single_run (p : Char → Bool) (ty : TokenType) (l : List Char)
    (hne : l ≠ []) (hlen : l.length ≤ 255) (hp : ∀ c ∈ l, p c = true)
    (hnul : ∀ c ∈ l, c ≠ Char.ofNat 0)
    (hstep : ∀ c r, c :: r = l → lexStep ⟨0, l, []⟩ =
      .next ⟨0 + (((c :: r).take 255).takeWhile p).length,
        (c :: r).drop (((c :: r).take 255).takeWhile p).length,
        [] ++ [⟨ty, ((c :: r).take 255).takeWhile p⟩]⟩) :
    lexer l = some (.ok [⟨ty, l⟩, eofToken]) := by
  unfold lexer
  rw [cstr_eq_self l hnul]
  match l, hne with
  | c :: r, _ =>
    have h1 := hstep c r rfl
    rw [run_eq_self p (c :: r) hlen hp] at h1
    simp only [List.length_cons, lexLoop, h1, List.drop_length, List.nil_append, zero_add]
    simp [lexLoop, lexStep, lexDone, MAX_TOKENS]

theorem isdigit_props {c : Char} (h : isdigit c = true) :
    isspace c = false ∧ c ≠ '/' ∧ c ≠ '"' ∧ c ≠ Char.ofNat 0 := by
  simp only [isdigit, Bool.and_eq_true, decide_eq_true_eq] at h
  refine ⟨?_, ?_, ?_, ?_⟩
  · simp only [isspace, Bool.or_eq_false_iff, beq_eq_false_iff_ne, ne_eq, Bool.and_eq_false_imp,
      decide_eq_true_eq, decide_eq_false_iff_not]
    omega
  all_goals
    rintro rfl
    revert h
    decide

theorem isalpha_props {c : Char} (h : isalpha c = true) :
    isspace c = false ∧ c ≠ '/' ∧ c ≠ '"' ∧ isdigit c = false ∧ c ≠ '_' ∧
      c ≠ Char.ofNat 0 := by
  simp only [isalpha, Bool.or_eq_true, Bool.and_eq_true, decide_eq_true_eq] at h
  refine ⟨?_, ?_, ?_, ?_, ?_, ?_⟩
  · simp only [isspace, Bool.or_eq_false_iff, beq_eq_false_iff_ne, ne_eq, Bool.and_eq_false_imp,
      decide_eq_true_eq, decide_eq_false_iff_not]
    omega
  · rintro rfl; revert h; decide
  · rintro rfl; revert h; decide
  · simp only [isdigit, Bool.and_eq_false_imp, decide_eq_true_eq, decide_eq_false_iff_not]
    omega
  · rintro rfl; revert h; decide
  · rintro rfl; revert h; decide

theorem cur_cons (t : Token) (r : List Token) : cur (t :: r) = t := rfl

/-- A derivable statement list, followed by a token that is not `=`, does not
start with `=`. -/
theorem Stmts.cur_not_eq {nm op : Token → Prop} {toks : List Token} {ns : List Node}
    (h : Stmts nm op toks ns) (after : List Token) (ha : ¬ IsEq (cur after)) :
    ¬ IsEq (cur (toks ++ after)) := by
  cases h with
  | nil => simpa using ha
  | letDecl k n rest ns hk _ _ => simp [cur, IsEq, hk.1]
  | letInit k n e v rest ns hk _ _ _ _ => simp [cur, IsEq, hk.1]
  | pnt k v rest ns hk _ _ => simp [cur, IsEq, hk.1]
  | kbchk k rest ns hk _ => simp [cur, IsEq, hk.1]

/-- The statement loop runs through a derivable statement list, one iteration
for each statement, and goes on with what follows it. -/
theorem parseStmts_stmts (old : List ASTNode) {nm op : Token → Prop} {toks : List Token}
    {ns : List Node} (h : Stmts nm op toks ns) :
    ∀ (fuel token_pos : Nat) (after : List Token) (ast : List ASTNode),
      ¬ IsEq (cur after) →
      ∃ ast1, parseStmts old (fuel + ns.length) token_pos (toks ++ after) ast =
          parseStmts old fuel (token_pos + toks.length) after ast1 ∧
        ast1.map ASTNode.view = ast.map ASTNode.view ++ ns ∧
        ast1.length = ast.length + ns.length := by
  induction h with
  | nil => intro fuel pos after ast _; exact ⟨ast, by simp, by simp, by simp⟩
  | letDecl k n rest ns hk hn hrest ih =>
    intro fuel pos after ast ha
    obtain ⟨ast1, h1, h2, h3⟩ := ih fuel (pos + 2) after
      (ast ++ [⟨.AST_VARDECL, n.value, []⟩]) ha
    refine ⟨ast1, ?_, ?_, ?_⟩
    · have hne : ¬ ((cur (rest ++ after)).type = .TOKEN_SYMBOL ∧
          (cur (rest ++ after)).value.head? = some '=') := hrest.cur_not_eq after ha
      rw [List.length_cons, ← Nat.add_assoc, parseStmts]
      simp only [List.cons_append, cur_cons, hk.1, hk.2, List.tail_cons, if_true]
      rw [if_neg (by simp), if_neg hne, h1]
      congr 1
      simp only [List.length_cons]; omega
    · rw [h2]; simp [ASTNode.view]
    · rw [h3]; simp; omega
  | letInit k n e v rest ns hk hn he hv hrest ih =>
    intro fuel pos after ast ha
    obtain ⟨ast1, h1, h2, h3⟩ := ih fuel (pos + 4) after
      (ast ++ [⟨.AST_VARDECL, n.value, v.value⟩]) ha
    refine ⟨ast1, ?_, ?_, ?_⟩
    · have he1 : e.type = .TOKEN_SYMBOL ∧ e.value.head? = some '=' := he
      rw [List.length_cons, ← Nat.add_assoc, parseStmts]
      simp only [List.cons_append, cur_cons, hk.1, hk.2, List.tail_cons, if_true]
      rw [if_neg (by simp), if_pos he1, h1]
      congr 1
      simp only [List.length_cons]; omega
    · rw [h2]; simp [ASTNode.view]
    · rw [h3]; simp; omega
  | pnt k v rest ns hk hv hrest ih =>
    intro fuel pos after ast ha
    obtain ⟨ast1, h1, h2, h3⟩ := ih fuel (pos + 2) after
      (ast ++ [{ slot old ast.length with type := .AST_PRINT, value := v.value }]) ha
    refine ⟨ast1, ?_, ?_, ?_⟩
    · rw [List.length_cons, ← Nat.add_assoc, parseStmts]
      simp only [List.cons_append, cur_cons, hk.1, hk.2, List.tail_cons, if_true]
      rw [if_neg (by simp), if_neg (by decide), h1]
      congr 1
      simp only [List.length_cons]; omega
    · rw [h2]; simp [ASTNode.view]
    · rw [h3]; simp; omega
  | kbchk k rest ns hk hrest ih =>
    intro fuel pos after ast ha
    obtain ⟨ast1, h1, h2, h3⟩ := ih fuel (pos + 1) after
      (ast ++ [{ slot old ast.length with type := .AST_KBCHK }]) ha
    refine ⟨ast1, ?_, ?_, ?_⟩
    · rw [List.length_cons, ← Nat.add_assoc, parseStmts]
      simp only [List.cons_append, cur_cons, hk.1, hk.2, List.tail_cons, if_true]
      rw [if_neg (by simp), if_neg (by decide), if_neg (by decide), h1]
      congr 1
      simp only [List.length_cons]; omega
    · rw [h2]; simp [ASTNode.view]
    · rw [h3]; simp; omega

theorem Stmts.length_le {nm op : Token → Prop} {toks : List Token} {ns : List Node}
    (h : Stmts nm op toks ns) : ns.length ≤ toks.length := by
  induction h with
  | nil => simp
  | letDecl => simp only [List.length_cons]; omega
  | letInit => simp only [List.length_cons]; omega
  | pnt => simp only [List.length_cons]; omega
  | kbchk => simp only [List.length_cons]; omega

/-- The statement loop stops at `TOKEN_OP_BLOCK_END` without consuming it. -/
theorem parseStmts_block_end (old : List ASTNode) (fuel token_pos : Nat) (toks : List Token)
    (ast : List ASTNode) (h : (cur toks).type = .TOKEN_OP_BLOCK_END) :
    parseStmts old (fuel + 1) token_pos toks ast = some (.closed token_pos toks ast) := by
  rw [parseStmts, if_pos h]

/-- A token whose kind is not `TOKEN_SYMBOL` is not the terminal `=`. -/
theorem not_isEq_of_type {t : Token} (h : t.type ≠ .TOKEN_SYMBOL) : ¬ IsEq t :=
  fun he => h he.1

/-- The outer loop runs through derivable blocks, one iteration for each
block, and goes on with what follows them. -/
theorem parseLoop_blocks (old : List ASTNode) {nm op : Token → Prop} {toks : List Token}
    {ns : List Node} (h : Blocks nm op toks ns) :
    ∃ nb, nb + ns.length ≤ toks.length ∧
      ∀ (fuel token_pos : Nat) (after : List Token) (ast : List ASTNode),
        ns.length ≤ fuel → ast.length + ns.length ≤ MAX_AST →
        ∃ ast1, parseLoop old (fuel + nb) token_pos (toks ++ after) ast =
            parseLoop old fuel (token_pos + toks.length) after ast1 ∧
          ast1.map ASTNode.view = ast.map ASTNode.view ++ ns ∧
          ast1.length = ast.length + ns.length := by
  induction h with
  | nil =>
    exact ⟨0, by simp, fun fuel pos after ast _ _ => ⟨ast, by simp, by simp, by simp⟩⟩
  | cons bs be body rest ns ms hbs hbody hbe hrest ih =>
    obtain ⟨nb, hnb, ih⟩ := ih
    have hlen := hbody.length_le
    refine ⟨nb + 1, ?_, ?_⟩
    · simp only [List.length_cons, List.length_append]; omega
    intro fuel pos after ast hfuel hcap
    simp only [List.length_cons, List.length_append] at hfuel hcap
    obtain ⟨f0, hf0⟩ : ∃ f0, fuel + nb = (f0 + 1) + ns.length := ⟨fuel + nb - ns.length - 1, by omega⟩
    obtain ⟨ast0, h1, h2, h3⟩ := parseStmts_stmts old hbody (f0 + 1) (pos + 1)
      (be :: (rest ++ after))
      (ast ++ [⟨.AST_BLOCK, (slot old ast.length).value, (slot old ast.length).value2⟩])
      (not_isEq_of_type (by rw [cur_cons, hbe]; decide))
    rw [parseStmts_block_end old f0 _ _ _ (by rw [cur_cons]; exact hbe)] at h1
    simp only [List.length_append, List.length_singleton] at h3
    obtain ⟨ast1, h4, h5, h6⟩ := ih fuel (pos + 1 + body.length + 1) after ast0
      (by omega) (by omega)
    refine ⟨ast1, ?_, ?_, ?_⟩
    · rw [← Nat.add_assoc, parseLoop]
      simp only [List.cons_append, cur_cons, hbs, List.tail_cons, List.append_assoc]
      rw [if_neg (by omega), if_neg (by decide), if_pos trivial, hf0, h1]
      simp only [List.tail_cons]
      rw [← hf0, h4]
      congr 1
      simp only [List.length_cons, List.length_append]; omega
    · rw [h5, h2]; simp [ASTNode.view]
    · rw [h6, h3]; simp only [List.length_cons, List.length_append]; omega

theorem eq_cur_cons_tail {l : List Token} (h : l ≠ []) : l = cur l :: l.tail := by
  cases l with
  | nil => exact absurd rfl h
  | cons a r => rfl

theorem ne_nil_of_tail_ne_nil {l : List Token} (h : l.tail ≠ []) : l ≠ [] := by
  rintro rfl
  exact h rfl

/-- A token list whose current token is not of kind `TOKEN_OP_BLOCK_START` is
not empty: slots that were never written read as that kind. -/
theorem ne_nil_of_cur_type {l : List Token} (h : (cur l).type ≠ .TOKEN_OP_BLOCK_START) :
    l ≠ [] := by
  rintro rfl
  exact h rfl

theorem append_ne_nil_right {a b : List Token} (h : b ≠ []) : a ++ b ≠ [] := by
  cases a <;> simp [h]

/-- Whenever the statement loop finds the end of the block, the tokens it has
consumed are a statement list of the grammar without constraint on operand
kinds, and it has written the nodes of that list. -/
theorem stmts_of_parseStmts (old : List ASTNode) :
    ∀ (fuel token_pos : Nat) (toks : List Token) (ast : List ASTNode) (pos1 : Nat)
      (toks1 : List Token) (ast1 : List ASTNode),
      parseStmts old fuel token_pos toks ast = some (.closed pos1 toks1 ast1) →
      ∃ body ns, toks = body ++ toks1 ∧ Stmts AnyToken AnyToken body ns ∧
        (cur toks1).type = .TOKEN_OP_BLOCK_END ∧ pos1 = token_pos + body.length ∧
        ast1.map ASTNode.view = ast.map ASTNode.view ++ ns ∧
        ast1.length = ast.length + ns.length := by
  intro fuel
  induction fuel with
  | zero => intro pos toks ast pos1 toks1 ast1 h; simp [parseStmts] at h
  | succ f ih =>
    intro pos toks ast pos1 toks1 ast1 h
    rw [parseStmts] at h
    simp only at h
    split_ifs at h with h1 h2 h3 h4 h5 h6
    · simp only [Option.some.injEq, StmtsResult.closed.injEq] at h
      obtain ⟨rfl, rfl, rfl⟩ := h
      exact ⟨[], [], rfl, Stmts.nil, h1, rfl, by simp, by simp⟩
    · obtain ⟨body, ns, hb, hs, hc, hp, hv, hl⟩ := ih _ _ _ _ _ _ h
      have hne1 : toks1 ≠ [] := ne_nil_of_cur_type (by rw [hc]; decide)
      have hne : toks.tail.tail.tail.tail ≠ [] := hb ▸ append_ne_nil_right hne1
      have e4 := eq_cur_cons_tail (ne_nil_of_tail_ne_nil hne)
      have e3 := eq_cur_cons_tail (ne_nil_of_tail_ne_nil (ne_nil_of_tail_ne_nil hne))
      have e2 := eq_cur_cons_tail
        (ne_nil_of_tail_ne_nil (ne_nil_of_tail_ne_nil (ne_nil_of_tail_ne_nil hne)))
      have e1 := eq_cur_cons_tail (ne_nil_of_tail_ne_nil
        (ne_nil_of_tail_ne_nil (ne_nil_of_tail_ne_nil (ne_nil_of_tail_ne_nil hne))))
      refine ⟨cur toks :: cur toks.tail :: cur toks.tail.tail :: cur toks.tail.tail.tail :: body,
        _, ?_, Stmts.letInit _ _ _ _ body ns ⟨h2, h3⟩ trivial h4 trivial hs, hc, ?_, ?_, ?_⟩
      · simp only [List.cons_append, ← hb]
        rw [← e4, ← e3, ← e2, ← e1]
      · rw [hp]; simp only [List.length_cons]; omega
      · rw [hv]; simp [ASTNode.view]
      · rw [hl]; simp only [List.length_cons, List.length_append, List.length_nil]; omega
    · obtain ⟨body, ns, hb, hs, hc, hp, hv, hl⟩ := ih _ _ _ _ _ _ h
      have hne1 : toks1 ≠ [] := ne_nil_of_cur_type (by rw [hc]; decide)
      have hne : toks.tail.tail ≠ [] := hb ▸ append_ne_nil_right hne1
      have e2 := eq_cur_cons_tail (ne_nil_of_tail_ne_nil hne)
      have e1 := eq_cur_cons_tail (ne_nil_of_tail_ne_nil (ne_nil_of_tail_ne_nil hne))
      refine ⟨cur toks :: cur toks.tail :: body,
        _, ?_, Stmts.letDecl _ _ body ns ⟨h2, h3⟩ trivial hs, hc, ?_, ?_, ?_⟩
      · simp only [List.cons_append, ← hb]
        rw [← e2, ← e1]
      · rw [hp]; simp only [List.length_cons]; omega
      · rw [hv]; simp [ASTNode.view]
      · rw [hl]; simp only [List.length_cons, List.length_append, List.length_nil]; omega
    · obtain ⟨body, ns, hb, hs, hc, hp, hv, hl⟩ := ih _ _ _ _ _ _ h
      have hne1 : toks1 ≠ [] := ne_nil_of_cur_type (by rw [hc]; decide)
      have hne : toks.tail.tail ≠ [] := hb ▸ append_ne_nil_right hne1
      have e2 := eq_cur_cons_tail (ne_nil_of_tail_ne_nil hne)
      have e1 := eq_cur_cons_tail (ne_nil_of_tail_ne_nil (ne_nil_of_tail_ne_nil hne))
      refine ⟨cur toks :: cur toks.tail :: body,
        _, ?_, Stmts.pnt _ _ body ns ⟨h2, h5⟩ trivial hs, hc, ?_, ?_, ?_⟩
      · simp only [List.cons_append, ← hb]
        rw [← e2, ← e1]
      · rw [hp]; simp only [List.length_cons]; omega
      · rw [hv]; simp [ASTNode.view]
      · rw [hl]; simp only [List.length_cons, List.length_append, List.length_nil]; omega
    · obtain ⟨body, ns, hb, hs, hc, hp, hv, hl⟩ := ih _ _ _ _ _ _ h
      have hne1 : toks1 ≠ [] := ne_nil_of_cur_type (by rw [hc]; decide)
      have hne : toks.tail ≠ [] := hb ▸ append_ne_nil_right hne1
      have e1 := eq_cur_cons_tail (ne_nil_of_tail_ne_nil hne)
      refine ⟨cur toks :: body,
        _, ?_, Stmts.kbchk _ body ns ⟨h2, h6⟩ hs, hc, ?_, ?_, ?_⟩
      · simp only [List.cons_append, ← hb]
        rw [← e1]
      · rw [hp]; simp only [List.length_cons]; omega
      · rw [hv]; simp [ASTNode.view]
      · rw [hl]; simp only [List.length_cons, List.length_append, List.length_nil]; omega
    · simp at h
    · simp at h

/-- With more fuel than token slots left, the statement loop ends. -/
theorem parseStmts_returns (old : List ASTNode) :
    ∀ (fuel token_pos : Nat) (toks : List Token) (ast : List ASTNode),
      toks.length < fuel → ∃ r, parseStmts old fuel token_pos toks ast = some r := by
  intro fuel
  induction fuel with
  | zero => intro pos toks ast h; omega
  | succ f ih =>
    intro pos toks ast h
    rw [parseStmts]
    simp only
    have ht : toks.tail.length ≤ toks.length := by simp
    have htt : toks.tail.tail.length ≤ toks.tail.length := by simp
    have httt : toks.tail.tail.tail.tail.length ≤ toks.tail.tail.length :=
      le_trans (by simp) (by simp : toks.tail.tail.tail.length ≤ toks.tail.tail.length)
    split_ifs with h1 h2 h3 h4 h5 h6
    · exact ⟨_, rfl⟩
    all_goals first
      | exact ⟨_, rfl⟩
      | (have hne : toks ≠ [] := ne_nil_of_cur_type (by rw [h2]; decide)
         have hlt : toks.tail.length < toks.length := by
           cases toks with
           | nil => exact absurd rfl hne
           | cons a r => simp
         exact ih _ _ _ (by omega))

/-- The four ways through one iteration of the outer loop. -/
theorem parseLoop_succ (old : List ASTNode) (f token_pos : Nat) (toks : List Token)
    (ast : List ASTNode) :
    (¬ ast.length < MAX_AST ∧ parseLoop old (f + 1) token_pos toks ast = some (.ok ast)) ∨
    (ast.length < MAX_AST ∧ (cur toks).type = .TOKEN_EOF ∧
      parseLoop old (f + 1) token_pos toks ast =
        some (.ok (ast ++ [{ slot old ast.length with type := .AST_END }]))) ∨
    (ast.length < MAX_AST ∧ (cur toks).type = .TOKEN_OP_BLOCK_START ∧
      parseLoop old (f + 1) token_pos toks ast =
        match parseStmts old f (token_pos + 1) toks.tail
          (ast ++ [{ slot old ast.length with type := .AST_BLOCK }]) with
        | none => none
        | some (.error e) => some (.error e)
        | some (.closed token_pos1 toks1 ast1) =>
          parseLoop old f (token_pos1 + 1) toks1.tail ast1) ∨
    (ast.length < MAX_AST ∧ (cur toks).type ≠ .TOKEN_EOF ∧
      (cur toks).type ≠ .TOKEN_OP_BLOCK_START ∧
      parseLoop old (f + 1) token_pos toks ast = some (.error .expectedBlockStart)) := by
  rw [parseLoop]
  by_cases h1 : ast.length < MAX_AST
  · by_cases h2 : (cur toks).type = .TOKEN_EOF
    · exact Or.inr (Or.inl ⟨h1, h2, by rw [if_neg (not_not.2 h1), if_pos h2]⟩)
    · by_cases h3 : (cur toks).type = .TOKEN_OP_BLOCK_START
      · exact Or.inr (Or.inr (Or.inl ⟨h1, h3, by
          rw [if_neg (not_not.2 h1), if_neg h2, if_pos h3]⟩))
      · exact Or.inr (Or.inr (Or.inr ⟨h1, h2, h3, by
          rw [if_neg (not_not.2 h1), if_neg h2, if_neg h3]⟩))
  · exact Or.inl ⟨h1, by rw [if_pos h1]⟩

/-- With enough fuel the outer loop ends. -/
theorem parseLoop_returns (old : List ASTNode) :
    ∀ (fuel token_pos : Nat) (toks : List Token) (ast : List ASTNode),
      toks.length + 1 < fuel → ∃ r, parseLoop old fuel token_pos toks ast = some r := by
  intro fuel
  induction fuel with
  | zero => intro pos toks ast h; omega
  | succ f ih =>
    intro pos toks ast h
    have ht : toks.tail.length ≤ toks.length := by simp
    rcases parseLoop_succ old f pos toks ast with ⟨-, h1⟩ | ⟨-, -, h1⟩ | ⟨-, -, h1⟩ | ⟨-, -, -, h1⟩
    · exact ⟨_, h1⟩
    · exact ⟨_, h1⟩
    · rw [h1]
      obtain ⟨r, hr⟩ := parseStmts_returns old f (pos + 1) toks.tail
        (ast ++ [{ slot old ast.length with type := .AST_BLOCK }]) (by omega)
      rw [hr]
      cases r with
      | error e => exact ⟨_, rfl⟩
      | closed pos1 toks1 ast1 =>
        obtain ⟨body, ns, hb, -, hc, -⟩ := stmts_of_parseStmts old _ _ _ _ _ _ _ hr
        have hne1 : toks1 ≠ [] := ne_nil_of_cur_type (by rw [hc]; decide)
        have hl := congrArg List.length hb
        simp only [List.length_append] at hl
        have : toks1.tail.length + 1 = toks1.length := by
          cases toks1 with
          | nil => exact absurd rfl hne1
          | cons a r => simp
        exact ih _ _ _ (by omega)
    · exact ⟨_, h1⟩

/-- The function `parser` returns on every token memory. -/
theorem parser_returns (tokens : List Token) (old : List ASTNode) :
    ∃ r, parser tokens old = some r :=
  parseLoop_returns old _ 0 tokens [] (by omega)

/-- Whenever the outer loop succeeds with room left in `ast`, the tokens it
has consumed are blocks of the grammar without constraint on operand kinds
followed by `TOKEN_EOF`, and it has written their nodes and `AST_END`. -/
theorem blocks_of_parseLoop (old : List ASTNode) :
    ∀ (fuel token_pos : Nat) (toks : List Token) (ast ast1 : List ASTNode),
      parseLoop old fuel token_pos toks ast = some (.ok ast1) →
      ast.length + toks.length < MAX_AST →
      ∃ body e tail ns, toks = body ++ e :: tail ∧ e.type = .TOKEN_EOF ∧
        Blocks AnyToken AnyToken body ns ∧
        ast1.map ASTNode.view = ast.map ASTNode.view ++ ns ++ [.END] := by
  intro fuel
  induction fuel with
  | zero => intro pos toks ast ast1 h; simp [parseLoop] at h
  | succ f ih =>
    intro pos toks ast ast1 h hcap
    rcases parseLoop_succ old f pos toks ast with
      ⟨h1, -⟩ | ⟨-, h2, h1⟩ | ⟨-, h3, h1⟩ | ⟨-, -, -, h1⟩
    · omega
    · have hne : toks ≠ [] := ne_nil_of_cur_type (by rw [h2]; decide)
      rw [h1] at h
      simp only [Option.some.injEq, ParseResult.ok.injEq] at h
      refine ⟨[], cur toks, toks.tail, [], by simpa using eq_cur_cons_tail hne, h2,
        Blocks.nil, ?_⟩
      rw [← h]
      simp [ASTNode.view]
    · rw [h1] at h
      cases hr : parseStmts old f (pos + 1) toks.tail
          (ast ++ [{ slot old ast.length with type := .AST_BLOCK }]) with
      | none => rw [hr] at h; simp at h
      | some r =>
        rw [hr] at h
        cases r with
        | error e => simp at h
        | closed pos1 toks1 ast0 =>
          simp only at h
          obtain ⟨body, ns, hb, hs, hc, -, hv, hl⟩ := stmts_of_parseStmts old _ _ _ _ _ _ _ hr
          have hne1 : toks1 ≠ [] := ne_nil_of_cur_type (by rw [hc]; decide)
          have hne : toks ≠ [] := ne_nil_of_tail_ne_nil (hb ▸ append_ne_nil_right hne1)
          have e1 := eq_cur_cons_tail hne
          have e2 := eq_cur_cons_tail hne1
          have hlen := hs.length_le
          have hl1 := congrArg List.length e1
          have hl2 := congrArg List.length e2
          have hl3 := congrArg List.length hb
          simp only [List.length_cons, List.length_append, List.length_nil] at hl hl1 hl2 hl3
          obtain ⟨body2, e, tail, ms, hb2, he, hbl, hv2⟩ := ih _ _ _ _ h (by omega)
          refine ⟨cur toks :: (body ++ cur toks1 :: body2), e, tail, .BLOCK :: (ns ++ ms), ?_, he,
            Blocks.cons _ _ body body2 ns ms h3 hs hc hbl, ?_⟩
          · rw [List.cons_append, List.append_assoc, List.cons_append, ← hb2, ← e2, ← hb, ← e1]
          · rw [hv2, hv]
            simp [ASTNode.view]
    · rw [h1] at h
      simp at h

/-- A successful run of `lexer` writes at most `MAX_TOKENS` tokens and the
final `TOKEN_EOF`, which is its only token of that kind. -/
theorem lexer_ok_shape (input : List Char) (toks : List Token)
    (h : lexer input = some (.ok toks)) :
    ∃ pre, toks = pre ++ [eofToken] ∧ pre.length ≤ MAX_TOKENS ∧
      ∀ t ∈ pre, t.type ≠ .TOKEN_EOF := by
  obtain ⟨n, s1, h1, -, rfl⟩ := lexLoop_ok _ _ _ h
  refine ⟨s1.tokens, rfl, ?_, lexIter_no_eof input n s1 h1⟩
  refine lexIter_invariant (fun s => s.tokens.length ≤ MAX_TOKENS) ?_ n _ s1 ?_ h1
  · intro s s2 hP hs
    obtain ⟨hlt, n, ts, -, -, rfl, hts⟩ := lexStep_next hs
    rcases hts with ⟨rfl, -⟩ | ⟨t1, rfl, -⟩
    · simpa using hP
    · simp only [List.length_append, List.length_singleton]
      omega
  · simp [lexInit, MAX_TOKENS]

/-- The parser accepts every derivable program that fits the token array and
writes its nodes, whatever lies behind the `TOKEN_EOF` and in the old `ast`. -/
theorem parser_program {nm op : Token → Prop} {toks : List Token} {nodes : List Node}
    (h : Program nm op toks nodes) (hlen : toks.length ≤ MAX_TOKENS + 1)
    (tail : List Token) (old : List ASTNode) :
    ∃ ast, parser (toks ++ tail) old = some (.ok ast) ∧ ast.map ASTNode.view = nodes := by
  obtain ⟨body, e, ns, rfl, he, hb, rfl⟩ := h
  obtain ⟨nb, hnb, hrun⟩ := parseLoop_blocks old hb
  simp only [List.length_append, List.length_singleton, MAX_TOKENS] at hlen
  obtain ⟨f, hf⟩ : ∃ f, (body ++ [e] ++ tail).length + 2 = (f + 1) + nb :=
    ⟨(body ++ [e] ++ tail).length + 1 - nb, by
      simp only [List.length_append, List.length_singleton]; omega⟩
  have hfl : ns.length ≤ f + 1 := by
    simp only [List.length_append, List.length_singleton] at hf; omega
  obtain ⟨ast1, h1, h2, h3⟩ := hrun (f + 1) 0 (e :: tail) [] hfl
    (by simp only [List.length_nil, MAX_AST]; omega)
  unfold parser
  rw [hf, List.append_assoc, List.singleton_append, h1]
  rcases parseLoop_succ old f (0 + body.length) (e :: tail) ast1 with
    ⟨hc, -⟩ | ⟨-, -, hr⟩ | ⟨-, h4, -⟩ | ⟨-, h4, -⟩
  · simp only [List.length_nil, MAX_AST] at h3 hc; omega
  · refine ⟨_, hr, ?_⟩
    rw [List.map_append, h2]
    simp [ASTNode.view]
  · rw [cur_cons, he] at h4; exact absurd h4 (by decide)
  · exact absurd he h4

theorem view_kind (n : ASTNode) : n.view.kind = n.type := by
  cases h : n.type <;> simp [ASTNode.view, Node.kind, h]

theorem Stmts.stmt_kinds {nm op : Token → Prop} {toks : List Token} {ns : List Node}
    (h : Stmts nm op toks ns) :
    ∀ n ∈ ns, n.kind = .AST_VARDECL ∨ n.kind = .AST_PRINT ∨ n.kind = .AST_KBCHK := by
  induction h with
  | nil => simp
  | letDecl k n rest ns _ _ _ ih => simpa [Node.kind] using ih
  | letInit k n e v rest ns _ _ _ _ _ ih => simpa [Node.kind] using ih
  | pnt k v rest ns _ _ _ ih => simpa [Node.kind] using ih
  | kbchk k rest ns _ _ ih => simpa [Node.kind] using ih

/-- The kinds of the nodes of derivable blocks: for each block `AST_BLOCK`,
then statement kinds. -/
theorem Blocks.block_kinds {nm op : Token → Prop} {toks : List Token} {ns : List Node}
    (h : Blocks nm op toks ns) :
    ∃ blocks : List (List ASTType),
      ns.map Node.kind = (blocks.map (fun b => ASTType.AST_BLOCK :: b)).flatten ∧
      ∀ b ∈ blocks, ∀ ty ∈ b,
        ty = .AST_VARDECL ∨ ty = .AST_PRINT ∨ ty = .AST_KBCHK := by
  induction h with
  | nil => exact ⟨[], rfl, by simp⟩
  | cons bs be body rest ns ms _ hbody _ _ ih =>
    obtain ⟨blocks, h1, h2⟩ := ih
    refine ⟨ns.map Node.kind :: blocks, ?_, ?_⟩
    · simp [Node.kind, h1]
    · intro b hb ty hty
      rcases List.mem_cons.1 hb with rfl | hb
      · obtain ⟨n, hn, rfl⟩ := List.mem_map.1 hty
        exact hbody.stmt_kinds n hn
      · exact h2 b hb ty hty

/-- The token memory that `parser` reads after `lexer` has succeeded fits the
token array when the stale slots do. -/
theorem tokens_length_le (toks stale : List Token) (h1 : toks.length ≤ MAX_TOKENS + 1)
    (h2 : stale.length ≤ MAX_TOKENS + 1) :
    (toks ++ stale.drop toks.length).length ≤ MAX_TOKENS + 1 := by
  simp only [List.length_append, List.length_drop]
  omega

theorem parseSource_ok {input : List Char} {stale : List Token} {old ast : List ASTNode}
    (h : parseSource input stale old = some (.ok ast)) :
    ∃ toks, lexer input = some (.ok toks) ∧
      parser (toks ++ stale.drop toks.length) old = some (.ok ast) := by
  unfold parseSource at h
  cases hl : lexer input with
  | none => rw [hl] at h; simp at h
  | some r =>
    rw [hl] at h
    cases r with
    | error p c => simp at h
    | overflow toks => simp at h
    | ok toks =>
      simp only at h
      cases hp : parser (toks ++ stale.drop toks.length) old with
      | none => rw [hp] at h; simp at h
      | some r2 =>
        rw [hp] at h
        cases r2 with
        | error e => simp at h
        | ok ast2 =>
          simp only [Option.some.injEq, FrontResult.ok.injEq] at h
          exact ⟨toks, rfl, h ▸ hp⟩

/-- In derivable blocks, the token after a `let` that opens the first block is
a name. -/
theorem Blocks.let_name {nm op : Token → Prop} {bs k n : Token} {r : List Token}
    {ns : List Node} (h : Blocks nm op (bs :: k :: n :: r) ns)
    (hk : IsKw ['l', 'e', 't'] k) : nm n := by
  generalize hl : bs :: k :: n :: r = l at h
  cases h with
  | nil => simp at hl
  | cons bs1 be body rest ns1 ms hbs hbody hbe hrest =>
    simp only [List.cons.injEq] at hl
    obtain ⟨-, hl⟩ := hl
    cases hbody with
    | nil =>
      simp only [List.nil_append, List.cons.injEq] at hl
      rw [← hl.1, hk.1] at hbe
      exact absurd hbe (by decide)
    | letDecl k1 n1 rest1 ns2 _ hn _ =>
      simp only [List.cons_append, List.cons.injEq] at hl
      exact hl.2.1 ▸ hn
    | letInit k1 n1 e1 v1 rest1 ns2 _ hn _ _ _ =>
      simp only [List.cons_append, List.cons.injEq] at hl
      exact hl.2.1 ▸ hn
    | pnt k1 v1 rest1 ns2 hk1 _ _ =>
      simp only [List.cons_append, List.cons.injEq] at hl
      rw [← hl.1, IsKw, hk.2] at hk1
      exact absurd hk1.2 (by decide)
    | kbchk k1 rest1 ns2 hk1 _ =>
      simp only [List.cons_append, List.cons.injEq] at hl
      rw [← hl.1, IsKw, hk.2] at hk1
      exact absurd hk1.2 (by decide)

/-- A token sequence with a single `TOKEN_EOF`, at its end, that starts with
blocks and a `TOKEN_EOF` is those blocks and that `TOKEN_EOF`. -/
theorem eof_at_end {pre body tail : List Token} {e : Token}
    (h : body ++ e :: tail = pre ++ [eofToken]) (he : e.type = .TOKEN_EOF)
    (hpre : ∀ t ∈ pre, t.type ≠ .TOKEN_EOF) : body = pre ∧ e = eofToken ∧ tail = [] := by
  rcases List.eq_nil_or_concat tail with rfl | ⟨tail1, x, rfl⟩
  · have := List.append_inj' h (by simp)
    exact ⟨this.1, by simpa using this.2, rfl⟩
  · rw [List.concat_eq_append,
      show body ++ e :: (tail1 ++ [x]) = (body ++ e :: tail1) ++ [x] by simp] at h
    have := (List.append_inj' h (by simp)).1
    exact absurd he (hpre e (by rw [← this]; simp))

/-- A successful run has stored every token, the `TOKEN_EOF` included, inside
the array `tokens`. -/
theorem lexLoop_ok_length : ∀ (fuel : Nat) (s : LexState) (toks : List Token),
    lexLoop fuel s = some (.ok toks) → toks.length ≤ MAX_TOKENS := by
  intro fuel
  induction fuel with
  | zero => intro s toks h; simp [lexLoop] at h
  | succ k ih =>
    intro s toks h
    unfold lexLoop at h
    cases hs : lexStep s with
    | done =>
      rw [hs] at h
      simp only [Option.some.injEq] at h
      obtain ⟨h1, rfl⟩ := lexDone_ok h
      simp only [List.length_append, List.length_singleton]
      omega
    | fail p c => rw [hs] at h; simp at h
    | next s1 =>
      rw [hs] at h
      exact ih s1 toks h

theorem lexer_ok_length (input : List Char) (toks : List Token)
    (h : lexer input = some (.ok toks)) : toks.length ≤ MAX_TOKENS :=
  lexLoop_ok_length _ _ toks h

/-- A run that stores outside the array ends in a reachable state with
`token_count = MAX_TOKENS` or more. -/
theorem lexLoop_overflow : ∀ (fuel : Nat) (s : LexState) (toks : List Token),
    lexLoop fuel s = some (.overflow toks) →
    ∃ n s1, lexIter n s = some s1 ∧ ¬ s1.tokens.length < MAX_TOKENS ∧ toks = s1.tokens := by
  intro fuel
  induction fuel with
  | zero => intro s toks h; simp [lexLoop] at h
  | succ k ih =>
    intro s toks h
    unfold lexLoop at h
    cases hs : lexStep s with
    | done =>
      rw [hs] at h
      simp only [Option.some.injEq] at h
      obtain ⟨h1, h2⟩ := lexDone_overflow h
      exact ⟨0, s, rfl, h1, h2⟩
    | fail p c => rw [hs] at h; simp at h
    | next s1 =>
      rw [hs] at h
      obtain ⟨n, s2, h1, h2, h3⟩ := ih s1 toks h
      exact ⟨n + 1, s2, by simp [lexIter, hs, h1], h2, h3⟩

/-- When `lexer` stores outside the array, the array holds `MAX_TOKENS`
tokens, none of them `TOKEN_EOF`. -/
theorem lexer_overflow_shape (input : List Char) (toks : List Token)
    (h : lexer input = some (.overflow toks)) :
    toks.length = MAX_TOKENS ∧ ∀ t ∈ toks, t.type ≠ .TOKEN_EOF := by
  obtain ⟨n, s1, h1, h2, rfl⟩ := lexLoop_overflow _ _ _ h
  refine ⟨?_, lexIter_no_eof input n s1 h1⟩
  have hle : s1.tokens.length ≤ MAX_TOKENS := by
    refine lexIter_invariant (fun s => s.tokens.length ≤ MAX_TOKENS) ?_ n _ s1 ?_ h1
    · intro s s2 hP hs
      obtain ⟨hlt, n, ts, -, -, rfl, hts⟩ := lexStep_next hs
      rcases hts with ⟨rfl, -⟩ | ⟨t1, rfl, -⟩
      · simpa using hP
      · simp only [List.length_append, List.length_singleton]
        omega
    · simp [lexInit, MAX_TOKENS]
  omega

/-- The loop of `lexer` on `k` empty blocks that fill the array exactly. -/
theorem lexLoop_blocks : ∀ (k fuel pos : Nat) (toks : List Token),
    toks.length + 2 * k = MAX_TOKENS → 2 * k < fuel →
    lexLoop fuel ⟨pos, (List.replicate k "/+[/=]".toList).flatten, toks⟩ =
      some (.overflow (toks ++ (List.replicate k
        [(⟨.TOKEN_OP_BLOCK_START, ['/', '+', '[']⟩ : Token),
          ⟨.TOKEN_OP_BLOCK_END, ['/', '=', ']']⟩]).flatten)) := by
  intro k
  induction k with
  | zero =>
    intro fuel pos toks h hf
    match fuel, hf with
    | f + 1, _ =>
      have hge : ¬ toks.length < MAX_TOKENS := by omega
      simp [lexLoop, lexStep, lexDone, hge]
  | succ k ih =>
    intro fuel pos toks h hf
    match fuel, hf with
    | f + 2, hf =>
      have e : (List.replicate (k + 1) "/+[/=]".toList).flatten =
          '/' :: '+' :: '[' :: '/' :: '=' :: ']' ::
            (List.replicate k "/+[/=]".toList).flatten := by
        rw [List.replicate_succ, List.flatten_cons]
        rfl
      have hlt : toks.length < MAX_TOKENS := by omega
      have hlt2 : toks.length + 1 < MAX_TOKENS := by omega
      have hsp : isspace '/' = false := by decide
      have h1 : lexStep ⟨pos, '/' :: '+' :: '[' :: '/' :: '=' :: ']' ::
          (List.replicate k "/+[/=]".toList).flatten, toks⟩ =
          .next ⟨pos + 3, '/' :: '=' :: ']' :: (List.replicate k "/+[/=]".toList).flatten,
            toks ++ [⟨.TOKEN_OP_BLOCK_START, ['/', '+', '[']⟩]⟩ := by
        simp [lexStep, hlt, hsp]
      have h2 : lexStep ⟨pos + 3, '/' :: '=' :: ']' ::
          (List.replicate k "/+[/=]".toList).flatten,
          toks ++ [⟨.TOKEN_OP_BLOCK_START, ['/', '+', '[']⟩]⟩ =
          .next ⟨pos + 3 + 3, (List.replicate k "/+[/=]".toList).flatten,
            toks ++ [⟨.TOKEN_OP_BLOCK_START, ['/', '+', '[']⟩] ++
              [⟨.TOKEN_OP_BLOCK_END, ['/', '=', ']']⟩]⟩ := by
        simp [lexStep, hlt2, hsp]
      rw [e]
      unfold lexLoop
      rw [h1]
      unfold lexLoop
      rw [h2]
      simp only []
      rw [ih f (pos + 3 + 3) _ (by simp only [List.length_append, List.length_singleton]; omega)
        (by omega), List.replicate_succ, List.flatten_cons]
      simp

theorem length_flatten_replicate {α : Type} (l : List α) : ∀ k : Nat,
    (List.replicate k l).flatten.length = k * l.length := by
  intro k
  induction k with
  | zero => simp
  | succ k ih =>
    rw [List.replicate_succ, List.flatten_cons, List.length_append, ih]
    ring

theorem fullTokenSource_length : fullTokenSource.length = 3072 := by
  unfold fullTokenSource
  rw [length_flatten_replicate]
  rfl

theorem fullTokenArray_length : fullTokenArray.length = MAX_TOKENS := by
  unfold fullTokenArray
  rw [length_flatten_replicate]
  rfl

theorem fullTokenArray_no_eof : ∀ t ∈ fullTokenArray, t.type ≠ .TOKEN_EOF := by
  intro t ht
  obtain ⟨l, hl, htl⟩ := List.mem_flatten.1 ht
  rw [List.eq_of_mem_replicate hl] at htl
  exact (by decide : ∀ t ∈ [(⟨.TOKEN_OP_BLOCK_START, ['/', '+', '[']⟩ : Token),
    ⟨.TOKEN_OP_BLOCK_END, ['/', '=', ']']⟩], t.type ≠ .TOKEN_EOF) t htl

/-- On `fullTokenSource` the loop of `lexer` fills the array `tokens`, and the
store of `TOKEN_EOF` goes outside it. -/
theorem lexer_fullTokenSource : lexer fullTokenSource = some (.overflow fullTokenArray) := by
  have hnul : ∀ c ∈ fullTokenSource, c ≠ Char.ofNat 0 := by
    intro c hc
    obtain ⟨l, hl, hcl⟩ := List.mem_flatten.1 hc
    rw [List.eq_of_mem_replicate hl] at hcl
    exact (by decide : ∀ c ∈ "/+[/=]".toList, c ≠ Char.ofNat 0) c hcl
  have h := lexLoop_blocks 512 (fullTokenSource.length + 1) 0 [] (by decide)
    (by rw [fullTokenSource_length]; decide)
  rw [List.nil_append] at h
  unfold lexer
  rw [cstr_eq_self fullTokenSource hnul]
  unfold fullTokenArray
  rw [← h]
  rfl

/-- The 1024 tokens of `fullTokenArray` followed by a `TOKEN_EOF` are
derivable from the grammar: 512 empty blocks. -/
theorem blocks_replicate (nm op : Token → Prop) : ∀ k : Nat,
    Blocks nm op (List.replicate k [(⟨.TOKEN_OP_BLOCK_START, ['/', '+', '[']⟩ : Token),
      ⟨.TOKEN_OP_BLOCK_END, ['/', '=', ']']⟩]).flatten (List.replicate k .BLOCK) := by
  intro k
  induction k with
  | zero => exact Blocks.nil
  | succ k ih =>
    rw [List.replicate_succ, List.flatten_cons, List.replicate_succ]
    exact Blocks.cons ⟨.TOKEN_OP_BLOCK_START, ['/', '+', '[']⟩
      ⟨.TOKEN_OP_BLOCK_END, ['/', '=', ']']⟩ [] _ [] _ rfl Stmts.nil rfl ih

/-! ## Claims -/

/-- C1 fails on the code. On every source text `lexer` returns, and when it
neither fails nor fills the token array the token sequence it has produced is
non-empty and lies inside the array, its last token is `TOKEN_EOF` with an
empty lexeme, and no earlier token is `TOKEN_EOF`. But when the loop ends with
`token_count = MAX_TOKENS`, the array holds `MAX_TOKENS` tokens, none of them
`TOKEN_EOF`, and the `TOKEN_EOF` is stored outside the array; the source
`fullTokenSource`, 512 times `/+[/=]`, is such a source. -/
theorem lexer_stores_eof_outside_array :
    (∀ input : List Char,
      (∃ p c, lexer input = some (.error p c)) ∨
      (∃ toks, lexer input = some (.ok toks) ∧ toks.length ≤ MAX_TOKENS ∧ toks ≠ [] ∧
        toks.getLast? = some ⟨.TOKEN_EOF, []⟩ ∧
        ∀ t ∈ toks.dropLast, t.type ≠ .TOKEN_EOF) ∨
      (∃ toks, lexer input = some (.overflow toks) ∧ toks.length = MAX_TOKENS ∧
        ∀ t ∈ toks, t.type ≠ .TOKEN_EOF)) ∧
    fullTokenSource.length = 3072 ∧
    lexer fullTokenSource = some (.overflow fullTokenArray) ∧
    fullTokenArray.length = MAX_TOKENS ∧
    (∀ t ∈ fullTokenArray, t.type ≠ .TOKEN_EOF) := by
  refine ⟨?_, fullTokenSource_length, lexer_fullTokenSource, fullTokenArray_length,
    fullTokenArray_no_eof⟩
  · intro input
    obtain ⟨r, hr⟩ := lexer_returns input
    cases r with
    | error p c => exact Or.inl ⟨p, c, hr⟩
    | ok toks =>
      refine Or.inr (Or.inl ⟨toks, hr, lexer_ok_length input toks hr, ?_⟩)
      obtain ⟨n, s1, h1, -, rfl⟩ := lexLoop_ok _ _ _ hr
      refine ⟨by simp, by simp [eofToken], ?_⟩
      rw [List.dropLast_concat]
      exact lexIter_no_eof input n s1 h1
    | overflow toks =>
      exact Or.inr (Or.inr ⟨toks, hr, lexer_overflow_shape input toks hr⟩)

/-- C2, as stated, fails: scanning the one-byte source `\v` reaches position 0,
whose byte is none of space, tab, newline, CR and cannot start a token, yet
`lexer` skips it and succeeds. -/
theorem lexer_skips_vertical_tab :
    LexFailsAt listedWhitespace ['\x0b'] 0 '\x0b' ∧
      lexer ['\x0b'] = some (.ok [⟨.TOKEN_EOF, []⟩]) :=
  ⟨⟨0, ⟨0, ['\x0b'], []⟩, [], by decide, rfl, rfl, by decide, by decide, by decide⟩, by decide⟩

/-- C2 (amended): `lexer` fails if and only if scanning reaches a token-start
position whose byte is not whitespace in the sense of `isspace` (space, tab,
newline, vertical tab, form feed, CR) and cannot start a token; the reported
position is the byte offset of that character; and a `/` that is reached and
is not followed by `+[` or `=]` makes the lexer fail at its position. -/
theorem lexer_fails_iff (input : List Char) :
    (∀ p c, lexer input = some (.error p c) ↔ LexFailsAt isspace input p c) ∧
    (∀ p c, lexer input = some (.error p c) → input[p]? = some c) ∧
    (∀ n s r, lexIter n (lexInit input) = some s → s.rest = '/' :: r →
      s.tokens.length < MAX_TOKENS → r.take 2 ≠ ['+', '['] → r.take 2 ≠ ['=', ']'] →
      lexer input = some (.error s.pos '/') ∧ input[s.pos]? = some '/') := by
  have key : ∀ p c, LexFailsAt isspace input p c →
      lexer input = some (.error p c) ∧ input[p]? = some c := by
    rintro p c ⟨n, s, r, hn, hp, hr, hlt, hws, hcan⟩
    refine ⟨lexLoop_of_fail n _ _ s p c hn
      ((lexStep_fail_iff s p c).2 ⟨r, hp, hr, hlt, hws, hcan⟩) (Nat.lt_succ_self _), ?_⟩
    have hpos := lexIter_pos input n s hn
    rw [hr, hp] at hpos
    have h1 : (cstr input)[p]? = some c := by
      have := congrArg List.head? hpos
      simpa [List.head?_drop] using this.symm
    obtain ⟨t, ht⟩ := cstr_isPrefix input
    rw [← ht]
    rw [List.getElem?_append_left (by
      by_contra hge
      rw [List.getElem?_eq_none (by omega)] at h1
      simp at h1)]
    exact h1
  have fwd : ∀ p c, lexer input = some (.error p c) → LexFailsAt isspace input p c := by
    intro p c h
    obtain ⟨n, s, hn, hs⟩ := lexLoop_error _ _ p c h
    obtain ⟨r, hp, hr, hlt, hws, hcan⟩ := (lexStep_fail_iff s p c).1 hs
    exact ⟨n, s, r, hn, hp, hr, hlt, hws, hcan⟩
  refine ⟨fun p c => ⟨fwd p c, fun h => (key p c h).1⟩, fun p c h => (key p c (fwd p c h)).2, ?_⟩
  intro n s r hn hr hlt h1 h2
  exact key s.pos '/' ⟨n, s, r, hn, rfl, hr, hlt, by decide, by
    simp only [canStartToken, Bool.or_eq_false_iff, beq_eq_false_iff_ne, ne_eq,
      Bool.and_eq_false_imp, beq_iff_eq]
    exact ⟨⟨⟨⟨by decide, by decide⟩, by decide⟩, by decide⟩, fun _ => ⟨h1, h2⟩⟩⟩

/-- Instance of C2 (amended) at the source `a /`, whose `/` at offset 2 ends
the source. -/
theorem lexer_fails_iff_witness :
    LexFailsAt isspace ['a', ' ', '/'] 2 '/' ∧ ['a', ' ', '/'][2]? = some '/' ∧
      lexer ['a', ' ', '/'] = some (.error 2 '/') :=
  ⟨((lexer_fails_iff ['a', ' ', '/']).1 2 '/').1 (by decide),
    (lexer_fails_iff ['a', ' ', '/']).2.1 2 '/' (by decide),
    ((lexer_fails_iff ['a', ' ', '/']).2.2 2 ⟨2, ['/'], [⟨.TOKEN_KEYWORD, ['a']⟩]⟩ []
      (by decide) rfl (by decide) (by decide) (by decide)).1⟩

set_option maxRecDepth 100000 in
/-- C3, as stated, fails: a source of 256 digits `1` is a non-empty string of
decimal digits, but `lexer` splits it into a `NUMBER` of 255 digits and a
`NUMBER` of one digit, since a lexeme holds at most 255 bytes. -/
theorem lexer_splits_long_number :
    List.replicate 256 '1' ≠ [] ∧ (∀ c ∈ List.replicate 256 '1', isdigit c = true) ∧
    lexer (List.replicate 256 '1') = some (.ok [⟨.TOKEN_NUMBER, List.replicate 255 '1'⟩,
      ⟨.TOKEN_NUMBER, ['1']⟩, ⟨.TOKEN_EOF, []⟩]) ∧
    lexer (List.replicate 256 '1') ≠
      some (.ok [⟨.TOKEN_NUMBER, List.replicate 256 '1'⟩, ⟨.TOKEN_EOF, []⟩]) := by
  refine ⟨by decide, ?_, by decide, by decide⟩
  intro c hc
  rw [List.eq_of_mem_replicate hc]
  decide

/-- C3 (amended): a `NUMBER` token consumes the maximal run of decimal digits
at its start position and a `KEYWORD` token the maximal run of ASCII letters,
up to 255 bytes: for every non-empty string `d` of at most 255 decimal digits
`lexer d` is exactly `[NUMBER d, EOF]`, for every non-empty string `w` of at
most 255 ASCII letters `lexer w` is exactly `[KEYWORD w, EOF]`, and a digit or
underscore never becomes part of a `KEYWORD` lexeme. -/
theorem lexer_number_keyword_runs :
    (∀ d : List Char, d ≠ [] → (∀ c ∈ d, isdigit c = true) → d.length ≤ 255 →
      lexer d = some (.ok [⟨.TOKEN_NUMBER, d⟩, ⟨.TOKEN_EOF, []⟩])) ∧
    (∀ w : List Char, w ≠ [] → (∀ c ∈ w, isalpha c = true) → w.length ≤ 255 →
      lexer w = some (.ok [⟨.TOKEN_KEYWORD, w⟩, ⟨.TOKEN_EOF, []⟩])) ∧
    (∀ (input : List Char) (toks : List Token), lexer input = some (.ok toks) →
      ∀ t ∈ toks, t.type = .TOKEN_KEYWORD → ∀ c ∈ t.value, isdigit c = false ∧ c ≠ '_') := by
  refine ⟨?_, ?_, ?_⟩
  · intro d hne hd hlen
    refine lexer_single_run isdigit .TOKEN_NUMBER d hne hlen hd
      (fun c hc => (isdigit_props (hd c hc)).2.2.2) ?_
    rintro c r rfl
    obtain ⟨h1, h2, h3, -⟩ := isdigit_props (hd c (List.mem_cons_self c r))
    simp [lexStep, MAX_TOKENS, h1, h2, h3, hd c (List.mem_cons_self c r)]
  · intro w hne hw hlen
    refine lexer_single_run isalpha .TOKEN_KEYWORD w hne hlen hw
      (fun c hc => (isalpha_props (hw c hc)).2.2.2.2.2) ?_
    rintro c r rfl
    obtain ⟨h1, h2, h3, h4, -, -⟩ := isalpha_props (hw c (List.mem_cons_self c r))
    simp [lexStep, MAX_TOKENS, h1, h2, h3, h4, hw c (List.mem_cons_self c r)]
  · intro input toks h t ht hty c hc
    have := ((lexer_lexemeOk input toks h t ht).2 hty).2 c hc
    exact ⟨(isalpha_props this).2.2.2.1, (isalpha_props this).2.2.2.2.1⟩

/-- Instance of C3 (amended) at the sources `42` and `let`, and at the tokens
of the source `ab1`. -/
theorem lexer_number_keyword_runs_witness :
    lexer ['4', '2'] = some (.ok [⟨.TOKEN_NUMBER, ['4', '2']⟩, ⟨.TOKEN_EOF, []⟩]) ∧
    lexer ['l', 'e', 't'] = some (.ok [⟨.TOKEN_KEYWORD, ['l', 'e', 't']⟩, ⟨.TOKEN_EOF, []⟩]) ∧
    (∀ c ∈ ['a', 'b'], isdigit c = false ∧ c ≠ '_') :=
  ⟨lexer_number_keyword_runs.1 ['4', '2'] (by decide) (by decide) (by decide),
    lexer_number_keyword_runs.2.1 ['l', 'e', 't'] (by decide) (by decide) (by decide),
    lexer_number_keyword_runs.2.2 ['a', 'b', '1']
      [⟨.TOKEN_KEYWORD, ['a', 'b']⟩, ⟨.TOKEN_NUMBER, ['1']⟩, ⟨.TOKEN_EOF, []⟩] (by decide)
      ⟨.TOKEN_KEYWORD, ['a', 'b']⟩ (by decide) rfl⟩

/-- C9: for every source the lexer accepts, the lexeme of every `NUMBER` token
is a non-empty string of decimal digits and the lexeme of every `KEYWORD`
token is a non-empty string of ASCII letters. -/
theorem lexer_lexemes_well_formed (input : List Char) (toks : List Token)
    (h : lexer input = some (.ok toks)) :
    ∀ t ∈ toks,
      (t.type = .TOKEN_NUMBER → t.value ≠ [] ∧ ∀ c ∈ t.value, isdigit c = true) ∧
      (t.type = .TOKEN_KEYWORD → t.value ≠ [] ∧ ∀ c ∈ t.value, isalpha c = true) :=
  lexer_lexemeOk input toks h

/-- Instance of C9 at the source `let a = 7`. -/
theorem lexer_lexemes_well_formed_witness :
    lexer "let a = 7".toList = some (.ok [⟨.TOKEN_KEYWORD, ['l', 'e', 't']⟩,
      ⟨.TOKEN_KEYWORD, ['a']⟩, ⟨.TOKEN_SYMBOL, ['=']⟩, ⟨.TOKEN_NUMBER, ['7']⟩,
      ⟨.TOKEN_EOF, []⟩]) ∧
    ∀ t ∈ [(⟨.TOKEN_KEYWORD, ['l', 'e', 't']⟩ : Token),
      ⟨.TOKEN_KEYWORD, ['a']⟩, ⟨.TOKEN_SYMBOL, ['=']⟩, ⟨.TOKEN_NUMBER, ['7']⟩,
      ⟨.TOKEN_EOF, []⟩],
      (t.type = .TOKEN_NUMBER → t.value ≠ [] ∧ ∀ c ∈ t.value, isdigit c = true) ∧
      (t.type = .TOKEN_KEYWORD → t.value ≠ [] ∧ ∀ c ∈ t.value, isalpha c = true) :=
  ⟨by decide, lexer_lexemes_well_formed "let a = 7".toList _ (by decide)⟩

/-- C4 fails on the code, by the defect of C1. For every token sequence that
`lexer` has stored inside the token array, `TOKEN_EOF` included, and that is
derivable from the grammar `program := block* EOF`, `parser` succeeds, and the
nodes it has written are, by kind and used fields, exactly the nodes that the
emission rules give for the derivation: for each block one `BLOCK` and then
one node for each statement in source order, and after all blocks one `END`.
But the 1024 tokens of `fullTokenSource` with their `TOKEN_EOF` are derivable,
as 512 empty blocks, and `lexer` stores that `TOKEN_EOF` outside the array:
`parser` does not find it, and no compilation of this source gives the AST of
512 `BLOCK` and one `END`. -/
theorem parser_emits_grammar_ast :
    (∀ (input : List Char) (toks : List Token) (nodes : List Node) (stale : List Token)
      (old : List ASTNode), lexer input = some (.ok toks) →
      Program IsName IsOperand toks nodes →
      toks.length ≤ MAX_TOKENS ∧
      ∃ ast, parseSource input stale old = some (.ok ast) ∧ ast.map ASTNode.view = nodes) ∧
    Program IsName IsOperand (fullTokenArray ++ [eofToken])
      (List.replicate 512 .BLOCK ++ [.END]) ∧
    lexer fullTokenSource = some (.overflow fullTokenArray) ∧
    (∀ (stale : List Token) (old : List ASTNode),
      parseSource fullTokenSource stale old = some .tokenOverflow) := by
  refine ⟨?_, ⟨fullTokenArray, eofToken, List.replicate 512 .BLOCK, rfl, rfl,
    blocks_replicate IsName IsOperand 512, rfl⟩, lexer_fullTokenSource, ?_⟩
  · intro input toks nodes stale old hlex hprog
    refine ⟨lexer_ok_length input toks hlex, ?_⟩
    obtain ⟨pre, rfl, hlen, -⟩ := lexer_ok_shape input toks hlex
    obtain ⟨ast, h1, h2⟩ := parser_program hprog
      (by simpa using hlen) (stale.drop (pre ++ [eofToken]).length) old
    exact ⟨ast, by simp only [parseSource, hlex, h1], h2⟩
  · intro stale old
    simp only [parseSource, lexer_fullTokenSource]

/-- Instance of C4 at the source `/+[ let a = 7 pnt "x" kbchk /=]`, whose ten
tokens lie inside the array. -/
theorem parser_emits_grammar_ast_witness :
    [(⟨.TOKEN_OP_BLOCK_START, ['/', '+', '[']⟩ : Token), ⟨.TOKEN_KEYWORD, ['l', 'e', 't']⟩,
      ⟨.TOKEN_KEYWORD, ['a']⟩, ⟨.TOKEN_SYMBOL, ['=']⟩, ⟨.TOKEN_NUMBER, ['7']⟩,
      ⟨.TOKEN_KEYWORD, ['p', 'n', 't']⟩, ⟨.TOKEN_STRING, ['x']⟩,
      ⟨.TOKEN_KEYWORD, ['k', 'b', 'c', 'h', 'k']⟩, ⟨.TOKEN_OP_BLOCK_END, ['/', '=', ']']⟩,
      ⟨.TOKEN_EOF, []⟩].length ≤ MAX_TOKENS ∧
    ∃ ast, parseSource "/+[ let a = 7 pnt \"x\" kbchk /=]".toList [] [] = some (.ok ast) ∧
      ast.map ASTNode.view =
        [.BLOCK, .VARDECL ['a'] ['7'], .PRINT ['x'], .KBCHK, .END] :=
  parser_emits_grammar_ast.1 "/+[ let a = 7 pnt \"x\" kbchk /=]".toList
    [⟨.TOKEN_OP_BLOCK_START, ['/', '+', '[']⟩, ⟨.TOKEN_KEYWORD, ['l', 'e', 't']⟩,
      ⟨.TOKEN_KEYWORD, ['a']⟩, ⟨.TOKEN_SYMBOL, ['=']⟩, ⟨.TOKEN_NUMBER, ['7']⟩,
      ⟨.TOKEN_KEYWORD, ['p', 'n', 't']⟩, ⟨.TOKEN_STRING, ['x']⟩,
      ⟨.TOKEN_KEYWORD, ['k', 'b', 'c', 'h', 'k']⟩, ⟨.TOKEN_OP_BLOCK_END, ['/', '=', ']']⟩,
      ⟨.TOKEN_EOF, []⟩]
    [.BLOCK, .VARDECL ['a'] ['7'], .PRINT ['x'], .KBCHK, .END] [] [] (by decide)
    ⟨_, ⟨.TOKEN_EOF, []⟩, _, rfl, rfl,
      Blocks.cons ⟨.TOKEN_OP_BLOCK_START, ['/', '+', '[']⟩ ⟨.TOKEN_OP_BLOCK_END, ['/', '=', ']']⟩
        _ [] _ [] rfl
        (Stmts.letInit ⟨.TOKEN_KEYWORD, ['l', 'e', 't']⟩ ⟨.TOKEN_KEYWORD, ['a']⟩
          ⟨.TOKEN_SYMBOL, ['=']⟩ ⟨.TOKEN_NUMBER, ['7']⟩ _ _ ⟨rfl, rfl⟩ rfl ⟨rfl, rfl⟩ (Or.inl rfl)
          (Stmts.pnt ⟨.TOKEN_KEYWORD, ['p', 'n', 't']⟩ ⟨.TOKEN_STRING, ['x']⟩ _ _ ⟨rfl, rfl⟩
            (Or.inr (Or.inl rfl))
            (Stmts.kbchk ⟨.TOKEN_KEYWORD, ['k', 'b', 'c', 'h', 'k']⟩ _ _ ⟨rfl, rfl⟩ Stmts.nil)))
        rfl Blocks.nil, rfl⟩

/-- C5, as stated, fails: in the source `/+[ let 5 /=]` the token that follows
`let` is a `NUMBER`, so the token sequence is not derivable from the grammar,
and `parser` succeeds on it, recording `5` as the name. -/
theorem parser_accepts_number_as_name :
    lexer "/+[ let 5 /=]".toList = some (.ok [⟨.TOKEN_OP_BLOCK_START, ['/', '+', '[']⟩,
      ⟨.TOKEN_KEYWORD, ['l', 'e', 't']⟩, ⟨.TOKEN_NUMBER, ['5']⟩,
      ⟨.TOKEN_OP_BLOCK_END, ['/', '=', ']']⟩, ⟨.TOKEN_EOF, []⟩]) ∧
    parser [⟨.TOKEN_OP_BLOCK_START, ['/', '+', '[']⟩,
      ⟨.TOKEN_KEYWORD, ['l', 'e', 't']⟩, ⟨.TOKEN_NUMBER, ['5']⟩,
      ⟨.TOKEN_OP_BLOCK_END, ['/', '=', ']']⟩, ⟨.TOKEN_EOF, []⟩] [] =
      some (.ok [⟨.AST_BLOCK, [], []⟩, ⟨.AST_VARDECL, ['5'], []⟩, ⟨.AST_END, [], []⟩]) ∧
    ¬ ∃ nodes, Program IsName IsOperand [⟨.TOKEN_OP_BLOCK_START, ['/', '+', '[']⟩,
      ⟨.TOKEN_KEYWORD, ['l', 'e', 't']⟩, ⟨.TOKEN_NUMBER, ['5']⟩,
      ⟨.TOKEN_OP_BLOCK_END, ['/', '=', ']']⟩, ⟨.TOKEN_EOF, []⟩] nodes := by
  refine ⟨by decide, by decide, ?_⟩
  rintro ⟨nodes, body, e, ns, h, -, hb, -⟩
  have h1 := congrArg List.dropLast h
  simp only [List.dropLast_concat] at h1
  rw [← h1] at hb
  have := hb.let_name ⟨rfl, rfl⟩
  simp [IsName] at this

/-- C5 (amended): `parser` does not check the kind of the tokens that follow
`let`, the `=` of a let and `pnt`. On the tokens of a source that `lexer` has
stored inside the token array, `TOKEN_EOF` included (at most `MAX_TOKENS`
tokens), with no stale token slots behind them, it succeeds exactly on the
sequences derivable from the grammar in which these three places take a token
of any kind, and it then has written the nodes of the derivation, with the
lexemes of those tokens. -/
theorem parser_accepts_iff_any_operand (input : List Char) (toks : List Token)
    (old : List ASTNode) (hlex : lexer input = some (.ok toks)) :
    toks.length ≤ MAX_TOKENS ∧
    (∀ ast, parser toks old = some (.ok ast) →
      Program AnyToken AnyToken toks (ast.map ASTNode.view)) ∧
    (∀ nodes, Program AnyToken AnyToken toks nodes →
      ∃ ast, parser toks old = some (.ok ast) ∧ ast.map ASTNode.view = nodes) := by
  refine ⟨lexer_ok_length input toks hlex, ?_⟩
  obtain ⟨pre, rfl, hlen, hpre⟩ := lexer_ok_shape input toks hlex
  constructor
  · intro ast h
    obtain ⟨body, e, tail, ns, h1, he, hb, hv⟩ := blocks_of_parseLoop old _ _ _ _ _ h
      (by simp only [List.length_nil, List.length_append, List.length_singleton, MAX_AST]
          simp only [MAX_TOKENS] at hlen
          omega)
    obtain ⟨rfl, rfl, rfl⟩ := eof_at_end h1.symm he hpre
    exact ⟨body, eofToken, ns, rfl, rfl, hb, by simpa using hv⟩
  · intro nodes h
    simpa using parser_program h (by simpa using hlen) [] old

/-- Instance of C5 (amended) at the source `/+[ let 5 /=]`. -/
theorem parser_accepts_iff_any_operand_witness :
    Program AnyToken AnyToken [⟨.TOKEN_OP_BLOCK_START, ['/', '+', '[']⟩,
      ⟨.TOKEN_KEYWORD, ['l', 'e', 't']⟩, ⟨.TOKEN_NUMBER, ['5']⟩,
      ⟨.TOKEN_OP_BLOCK_END, ['/', '=', ']']⟩, ⟨.TOKEN_EOF, []⟩]
      [.BLOCK, .VARDECL ['5'] [], .END] :=
  (parser_accepts_iff_any_operand "/+[ let 5 /=]".toList
    [⟨.TOKEN_OP_BLOCK_START, ['/', '+', '[']⟩,
      ⟨.TOKEN_KEYWORD, ['l', 'e', 't']⟩, ⟨.TOKEN_NUMBER, ['5']⟩,
      ⟨.TOKEN_OP_BLOCK_END, ['/', '=', ']']⟩, ⟨.TOKEN_EOF, []⟩] [] (by decide)).2.1
    [⟨.AST_BLOCK, [], []⟩, ⟨.AST_VARDECL, ['5'], []⟩, ⟨.AST_END, [], []⟩] (by decide)

/-- C6 fails on the code: for the source `/+[ pnt`, whose `TOKEN_EOF` is token
2, the first compilation of a process stops with `Parsing error at token 3`,
a slot behind the `TOKEN_EOF`; and after a compilation of
`/+[ kbchk kbchk /=]`, which leaves `/=]` in slot 3 and `TOKEN_EOF` in slot 4,
`parser` accepts it and writes `BLOCK`, `PRINT`, `END`. -/
theorem parser_reads_past_eof :
    lexer "/+[ pnt".toList = some (.ok [⟨.TOKEN_OP_BLOCK_START, ['/', '+', '[']⟩,
      ⟨.TOKEN_KEYWORD, ['p', 'n', 't']⟩, ⟨.TOKEN_EOF, []⟩]) ∧
    parseSource "/+[ pnt".toList [] [] = some (.parseError (.unexpectedToken 3)) ∧
    lexer "/+[ kbchk kbchk /=]".toList = some (.ok [⟨.TOKEN_OP_BLOCK_START, ['/', '+', '[']⟩,
      ⟨.TOKEN_KEYWORD, ['k', 'b', 'c', 'h', 'k']⟩, ⟨.TOKEN_KEYWORD, ['k', 'b', 'c', 'h', 'k']⟩,
      ⟨.TOKEN_OP_BLOCK_END, ['/', '=', ']']⟩, ⟨.TOKEN_EOF, []⟩]) ∧
    parseSource "/+[ pnt".toList [⟨.TOKEN_OP_BLOCK_START, ['/', '+', '[']⟩,
      ⟨.TOKEN_KEYWORD, ['k', 'b', 'c', 'h', 'k']⟩, ⟨.TOKEN_KEYWORD, ['k', 'b', 'c', 'h', 'k']⟩,
      ⟨.TOKEN_OP_BLOCK_END, ['/', '=', ']']⟩, ⟨.TOKEN_EOF, []⟩] [] =
      some (.ok [⟨.AST_BLOCK, [], []⟩, ⟨.AST_PRINT, [], []⟩, ⟨.AST_END, [], []⟩]) := by
  refine ⟨by decide, by decide, by decide, by decide⟩

/-- C7: for every source on which `lexer` and `parser` both succeed (with the
stale token slots within the token array), the kinds of the nodes written are,
for each block, `AST_BLOCK` followed only by `AST_VARDECL`, `AST_PRINT` or
`AST_KBCHK`, and after all blocks one `AST_END`: the AST ends with `END`,
`END` occurs nowhere else, and the first node is a `BLOCK` unless the AST is
`END` alone, so that every statement node is preceded by a `BLOCK` node. -/
theorem parser_ast_structure (input : List Char) (stale : List Token)
    (old ast : List ASTNode) (hstale : stale.length ≤ MAX_TOKENS + 1)
    (h : parseSource input stale old = some (.ok ast)) :
    (∃ blocks : List (List ASTType),
      ast.map ASTNode.type =
        (blocks.map (fun b => ASTType.AST_BLOCK :: b)).flatten ++ [.AST_END] ∧
      ∀ b ∈ blocks, ∀ ty ∈ b, ty = .AST_VARDECL ∨ ty = .AST_PRINT ∨ ty = .AST_KBCHK) ∧
    (ast.map ASTNode.type).getLast? = some .AST_END ∧
    (∀ ty ∈ (ast.map ASTNode.type).dropLast, ty ≠ .AST_END) ∧
    ((ast.map ASTNode.type).head? = some .AST_BLOCK ∨ ast.map ASTNode.type = [.AST_END]) := by
  obtain ⟨toks, hlex, hp⟩ := parseSource_ok h
  obtain ⟨pre, rfl, hlen, -⟩ := lexer_ok_shape input toks hlex
  have hmem := tokens_length_le (pre ++ [eofToken]) stale (by simpa using hlen) hstale
  obtain ⟨body, e, tail, ns, -, -, hb, hv⟩ := blocks_of_parseLoop old _ _ _ _ _ hp
    (by simp only [List.length_nil, MAX_AST]
        simp only [MAX_TOKENS] at hmem
        omega)
  obtain ⟨blocks, hk, hstmt⟩ := hb.block_kinds
  have hty : ast.map ASTNode.type =
      (blocks.map (fun b => ASTType.AST_BLOCK :: b)).flatten ++ [.AST_END] := by
    have h1 := congrArg (List.map Node.kind) hv
    rw [List.map_map, List.map_nil, List.nil_append, List.map_append, hk] at h1
    rw [show (List.map ASTNode.type ast) = List.map (Node.kind ∘ ASTNode.view) ast from
      List.map_congr_left (fun n _ => (view_kind n).symm), h1]
    rfl
  refine ⟨⟨blocks, hty, hstmt⟩, ?_, ?_, ?_⟩
  · rw [hty]; simp
  · rw [hty, List.dropLast_concat]
    intro ty hmem
    obtain ⟨l, hl, hin⟩ := List.mem_flatten.1 hmem
    obtain ⟨b, hb1, rfl⟩ := List.mem_map.1 hl
    rcases List.mem_cons.1 hin with rfl | hin
    · decide
    · rcases hstmt b hb1 ty hin with rfl | rfl | rfl <;> decide
  · rw [hty]
    cases blocks with
    | nil => right; rfl
    | cons b bs => left; rfl

/-- Instance of C7 at the source `/+[ pnt "x" /=]`. -/
theorem parser_ast_structure_witness :
    (∃ blocks : List (List ASTType),
      [ASTType.AST_BLOCK, .AST_PRINT, .AST_END] =
        (blocks.map (fun b => ASTType.AST_BLOCK :: b)).flatten ++ [.AST_END] ∧
      ∀ b ∈ blocks, ∀ ty ∈ b, ty = .AST_VARDECL ∨ ty = .AST_PRINT ∨ ty = .AST_KBCHK) ∧
    [ASTType.AST_BLOCK, .AST_PRINT, .AST_END].getLast? = some .AST_END ∧
    (∀ ty ∈ [ASTType.AST_BLOCK, .AST_PRINT, .AST_END].dropLast, ty ≠ .AST_END) ∧
    ([ASTType.AST_BLOCK, .AST_PRINT, .AST_END].head? = some .AST_BLOCK ∨
      [ASTType.AST_BLOCK, .AST_PRINT, .AST_END] = [.AST_END]) :=
  parser_ast_structure "/+[ pnt \"x\" /=]".toList [] []
    [⟨.AST_BLOCK, [], []⟩, ⟨.AST_PRINT, ['x'], []⟩, ⟨.AST_END, [], []⟩] (by decide) (by decide)

/-- C8: whenever a `KEYWORD` token whose lexeme is none of `let`, `pnt`,
`kbchk` stands at a statement position inside a block, after well-formed
blocks and well-formed statements of that block, in a token sequence that
fits the token array, `parser` fails with the unknown-keyword diagnostic
naming that lexeme, and so produces no AST. -/
theorem parser_rejects_unknown_keyword (before body rest : List Token) (bs k : Token)
    (ns0 ns1 : List Node) (old : List ASTNode)
    (hbefore : Blocks IsName IsOperand before ns0) (hbs : bs.type = .TOKEN_OP_BLOCK_START)
    (hbody : Stmts IsName IsOperand body ns1) (hk : k.type = .TOKEN_KEYWORD)
    (hlet : k.value ≠ ['l', 'e', 't']) (hpnt : k.value ≠ ['p', 'n', 't'])
    (hkbchk : k.value ≠ ['k', 'b', 'c', 'h', 'k'])
    (hlen : (before ++ bs :: (body ++ k :: rest)).length ≤ MAX_TOKENS + 1) :
    parser (before ++ bs :: (body ++ k :: rest)) old =
      some (.error (.unknownKeyword k.value)) := by
  obtain ⟨nb, hnb, hrun⟩ := parseLoop_blocks old hbefore
  have hl1 := hbody.length_le
  simp only [List.length_append, List.length_cons, MAX_TOKENS] at hlen
  obtain ⟨f, hf⟩ : ∃ f, (before ++ bs :: (body ++ k :: rest)).length + 2 =
      ((f + 1 + ns1.length) + 1) + nb :=
    ⟨(before ++ bs :: (body ++ k :: rest)).length - nb - ns1.length, by
      simp only [List.length_append, List.length_cons]; omega⟩
  have hfl : ns0.length ≤ (f + 1 + ns1.length) + 1 := by
    simp only [List.length_append, List.length_cons] at hf; omega
  obtain ⟨ast1, h1, -, h3⟩ := hrun ((f + 1 + ns1.length) + 1) 0 (bs :: (body ++ k :: rest)) []
    hfl (by simp only [List.length_nil, MAX_AST]; omega)
  unfold parser
  rw [hf, h1]
  rcases parseLoop_succ old (f + 1 + ns1.length) (0 + before.length)
      (bs :: (body ++ k :: rest)) ast1 with ⟨hc, -⟩ | ⟨-, h4, -⟩ | ⟨-, -, hr⟩ | ⟨-, -, h4, -⟩
  · simp only [List.length_nil, MAX_AST] at h3 hc; omega
  · rw [cur_cons, hbs] at h4; exact absurd h4 (by decide)
  · obtain ⟨ast2, h5, -, -⟩ := parseStmts_stmts old hbody (f + 1) (0 + before.length + 1)
      (k :: rest) (ast1 ++ [{ slot old ast1.length with type := .AST_BLOCK }])
      (not_isEq_of_type (by rw [cur_cons, hk]; decide))
    rw [hr, List.tail_cons, h5, parseStmts]
    simp only [cur_cons, hk]
    rw [if_neg (by decide), if_pos trivial, if_neg hlet, if_neg hpnt, if_neg hkbchk]
  · rw [cur_cons] at h4; exact absurd hbs h4

/-- Instance of C8 at the tokens of the source `/+[ foo /=]`. -/
theorem parser_rejects_unknown_keyword_witness :
    lexer "/+[ foo /=]".toList = some (.ok [⟨.TOKEN_OP_BLOCK_START, ['/', '+', '[']⟩,
      ⟨.TOKEN_KEYWORD, ['f', 'o', 'o']⟩, ⟨.TOKEN_OP_BLOCK_END, ['/', '=', ']']⟩,
      ⟨.TOKEN_EOF, []⟩]) ∧
    parser [⟨.TOKEN_OP_BLOCK_START, ['/', '+', '[']⟩,
      ⟨.TOKEN_KEYWORD, ['f', 'o', 'o']⟩, ⟨.TOKEN_OP_BLOCK_END, ['/', '=', ']']⟩,
      ⟨.TOKEN_EOF, []⟩] [] = some (.error (.unknownKeyword ['f', 'o', 'o'])) :=
  ⟨by decide, parser_rejects_unknown_keyword [] [] [⟨.TOKEN_OP_BLOCK_END, ['/', '=', ']']⟩,
      ⟨.TOKEN_EOF, []⟩] ⟨.TOKEN_OP_BLOCK_START, ['/', '+', '[']⟩
    ⟨.TOKEN_KEYWORD, ['f', 'o', 'o']⟩ [] [] [] Blocks.nil rfl Stmts.nil rfl
    (by decide) (by decide) (by decide) (by decide)⟩

/-! ## Code generator lemmas -/

theorem append_str_fit {out s : List Char} (h : out.length + s.length < MAX_OUTPUT) :
    append_str out s = out ++ s := by
  simp [append_str, h]

theorem append_str_drop {out s : List Char} (h : MAX_OUTPUT ≤ out.length + s.length) :
    append_str out s = out := by
  simp [append_str, Nat.not_lt.2 h]

/-- As long as everything fits, the calls of `append_str` concatenate. -/
theorem foldl_append_str_fit : ∀ (calls : List (List Char)) (out : List Char),
    out.length + calls.flatten.length < MAX_OUTPUT →
    calls.foldl append_str out = out ++ calls.flatten := by
  intro calls
  induction calls with
  | nil => intro out _; simp
  | cons s r ih =>
    intro out h
    simp only [List.flatten_cons, List.length_append] at h
    rw [List.foldl_cons, append_str_fit (by omega), ih _ (by simp only [List.length_append]; omega)]
    simp

/-- Calls that do not fit leave the output as it is. -/
theorem foldl_append_str_full : ∀ (calls : List (List Char)) (out : List Char),
    (∀ s ∈ calls, MAX_OUTPUT ≤ out.length + s.length) →
    calls.foldl append_str out = out := by
  intro calls
  induction calls with
  | nil => intro out _; rfl
  | cons s r ih =>
    intro out h
    rw [List.foldl_cons, append_str_drop (h s (List.mem_cons_self _ _))]
    exact ih out (fun x hx => h x (List.mem_cons_of_mem _ hx))

/-- The output is the strings of the calls that fitted, in order. -/
theorem foldl_append_str_kept : ∀ (calls : List (List Char)) (out : List Char),
    ∃ kept, List.Sublist kept calls ∧ calls.foldl append_str out = out ++ kept.flatten := by
  intro calls
  induction calls with
  | nil => intro out; exact ⟨[], List.Sublist.slnil, by simp⟩
  | cons s r ih =>
    intro out
    by_cases h : out.length + s.length < MAX_OUTPUT
    · obtain ⟨kept, hk, he⟩ := ih (out ++ s)
      exact ⟨s :: kept, hk.cons₂ s, by rw [List.foldl_cons, append_str_fit h, he]; simp⟩
    · obtain ⟨kept, hk, he⟩ := ih out
      exact ⟨kept, hk.cons s, by rw [List.foldl_cons, append_str_drop (Nat.not_lt.1 h), he]⟩

theorem foldl_append_str_length : ∀ (calls : List (List Char)) (out : List Char),
    out.length < MAX_OUTPUT → (calls.foldl append_str out).length < MAX_OUTPUT := by
  intro calls
  induction calls with
  | nil => intro out h; exact h
  | cons s r ih =>
    intro out h
    rw [List.foldl_cons]
    apply ih
    unfold append_str
    split_ifs with h1
    · simpa using h1
    · exact h

theorem foldl_append_str_prefix (calls : List (List Char)) (out : List Char) :
    List.IsPrefix out (calls.foldl append_str out) := by
  obtain ⟨kept, -, he⟩ := foldl_append_str_kept calls out
  rw [he]
  exact List.prefix_append _ _

theorem flatten_sublist {kept calls : List (List Char)} (h : List.Sublist kept calls) :
    List.Sublist kept.flatten calls.flatten := by
  induction h with
  | slnil => exact List.Sublist.slnil
  | cons a _ ih => exact ih.trans (by simp)
  | cons₂ a _ ih => exact List.Sublist.append (List.Sublist.refl a) ih

/-- The capped output is the unbounded text exactly when that text is shorter
than `MAX_OUTPUT`. -/
theorem codegen_eq_text_iff (t : Platform) (is_main : Bool) (exit_key : List Char)
    (ast : List ASTNode) :
    codegen t is_main exit_key ast [] = codegenText t is_main exit_key ast ↔
      (codegenText t is_main exit_key ast).length < MAX_OUTPUT := by
  constructor
  · intro h
    rw [← h]
    exact foldl_append_str_length _ [] (by simp [MAX_OUTPUT])
  · intro h
    unfold codegen
    rw [foldl_append_str_fit _ [] (by simpa [codegenText] using h)]
    simp [codegenText]

theorem flatten_flatten_map (f : ASTNode → List (List Char)) (ast : List ASTNode) :
    (ast.map f).flatten.flatten = (ast.map (fun n => (f n).flatten)).flatten := by
  induction ast with
  | nil => rfl
  | cons n r ih => simp [ih]

theorem codegenText_eq (t : Platform) (is_main : Bool) (exit_key : List Char)
    (ast : List ASTNode) :
    codegenText t is_main exit_key ast =
      prologueText t is_main ++ bodyText t exit_key ast ++ epilogueText t is_main := by
  unfold codegenText codegenCalls prologueText bodyText epilogueText nodeText
  rw [List.flatten_append, List.flatten_append, flatten_flatten_map]

theorem bodyText_append (t : Platform) (exit_key : List Char) (a b : List ASTNode) :
    bodyText t exit_key (a ++ b) = bodyText t exit_key a ++ bodyText t exit_key b := by
  simp [bodyText]

theorem bodyText_cons (t : Platform) (exit_key : List Char) (n : ASTNode) (a : List ASTNode) :
    bodyText t exit_key (n :: a) = nodeText t exit_key n ++ bodyText t exit_key a := by
  simp [bodyText]

/-! ## Lines of the emitted text -/

theorem linesFrom_append_newline : ∀ (a cur b : List Char),
    linesFrom (a ++ '\n' :: b) cur = linesFrom (a ++ ['\n']) cur ++ linesFrom b [] := by
  intro a
  induction a with
  | nil => intro cur b; simp [linesFrom]
  | cons c r ih =>
    intro cur b
    by_cases hc : c = '\n'
    · subst hc
      simp only [List.cons_append, linesFrom, if_true, List.cons.injEq, true_and]
      exact ih [] b
    · simp only [List.cons_append, linesFrom, if_neg hc]
      exact ih _ b

/-- A run without newline that a newline ends is one line. -/
theorem linesFrom_line : ∀ (x cur b : List Char), '\n' ∉ x →
    linesFrom (x ++ '\n' :: b) cur = (cur ++ x) :: linesFrom b [] := by
  intro x
  induction x with
  | nil => intro cur b _; simp [linesFrom]
  | cons c r ih =>
    intro cur b h
    have hc : c ≠ '\n' := fun e => h (by simp [e])
    have hr : '\n' ∉ r := fun e => h (List.mem_cons_of_mem _ e)
    rw [List.cons_append, linesFrom, if_neg hc, ih _ b hr]
    simp

theorem terminated_eq {a : List Char} (h : Terminated a) (hne : a ≠ []) :
    ∃ a1, a = a1 ++ ['\n'] := by
  rcases h with h | h
  · exact absurd h hne
  · refine ⟨a.dropLast, ?_⟩
    have h1 := List.dropLast_concat_getLast hne
    rw [List.getLast?_eq_getLast _ hne] at h
    simp only [Option.some.injEq] at h
    rw [h] at h1
    exact h1.symm

theorem linesFrom_append {a : List Char} (h : Terminated a) (b : List Char) :
    linesFrom (a ++ b) [] = linesFrom a [] ++ linesFrom b [] := by
  by_cases hne : a = []
  · subst hne; simp [linesFrom]
  · obtain ⟨a1, rfl⟩ := terminated_eq h hne
    rw [List.append_assoc, List.singleton_append, linesFrom_append_newline]

theorem asmLines_append {a : List Char} (h : Terminated a) (b : List Char) :
    asmLines (a ++ b) = asmLines a ++ asmLines b := by
  simp [asmLines, linesFrom_append h]

theorem Terminated.append {a b : List Char} (ha : Terminated a) (hb : Terminated b) :
    Terminated (a ++ b) := by
  rcases hb with rfl | hb
  · simpa using ha
  · right
    rw [List.getLast?_append, hb]
    rfl

theorem terminated_flatten : ∀ (l : List (List Char)), (∀ a ∈ l, Terminated a) →
    Terminated l.flatten := by
  intro l
  induction l with
  | nil => intro _; left; rfl
  | cons a r ih =>
    intro h
    rw [List.flatten_cons]
    exact (h a (List.mem_cons_self _ _)).append (ih (fun x hx => h x (List.mem_cons_of_mem _ hx)))

theorem asmLines_flatten : ∀ (l : List (List Char)), (∀ a ∈ l, Terminated a) →
    asmLines l.flatten = (l.map asmLines).flatten := by
  intro l
  induction l with
  | nil => intro _; rfl
  | cons a r ih =>
    intro h
    rw [List.flatten_cons, asmLines_append (h a (List.mem_cons_self _ _)),
      ih (fun x hx => h x (List.mem_cons_of_mem _ hx))]
    rfl

/-- A text that ends with a string that ends with a newline is terminated. -/
theorem terminated_append_right (a : List Char) {b : List Char} (hb : b.getLast? = some '\n') :
    Terminated (a ++ b) := by
  right
  rw [List.getLast?_append, hb]
  rfl

theorem nodeText_terminated (t : Platform) (exit_key : List Char) (n : ASTNode) :
    Terminated (nodeText t exit_key n) := by
  unfold nodeText nodeCalls
  split_ifs with h1 h2 h3 h4 h5 h6
  · left; rfl
  · simp only [List.singleton_append, List.flatten_cons, List.flatten_nil, List.append_nil]
    rw [← List.append_assoc, ← List.append_assoc, ← List.append_assoc]
    exact terminated_append_right _ (by decide)
  · right; decide
  · right; decide
  · right; decide
  · simp only [List.flatten_cons, List.flatten_nil, List.append_nil]
    repeat rw [← List.append_assoc]
    exact terminated_append_right _ (by decide)
  · left; rfl

theorem prologueText_terminated (t : Platform) (is_main : Bool) :
    Terminated (prologueText t is_main) := by
  right
  cases t <;> cases is_main <;> decide

theorem bodyText_terminated (t : Platform) (exit_key : List Char) (ast : List ASTNode) :
    Terminated (bodyText t exit_key ast) :=
  terminated_flatten _ (fun a ha => by
    obtain ⟨n, -, rfl⟩ := List.mem_map.1 ha
    exact nodeText_terminated t exit_key n)

/-- The lines of the unbounded text: those of the prologue, of each node in
order, and of the epilogue. -/
theorem asmLines_codegenText (t : Platform) (is_main : Bool) (exit_key : List Char)
    (ast : List ASTNode) :
    asmLines (codegenText t is_main exit_key ast) =
      asmLines (prologueText t is_main) ++
      (ast.map (fun n => asmLines (nodeText t exit_key n))).flatten ++
      asmLines (epilogueText t is_main) := by
  rw [codegenText_eq, asmLines_append
    ((prologueText_terminated t is_main).append (bodyText_terminated t exit_key ast)),
    asmLines_append (prologueText_terminated t is_main)]
  congr 2
  unfold bodyText
  rw [asmLines_flatten _ (fun a ha => by
    obtain ⟨n, -, rfl⟩ := List.mem_map.1 ha
    exact nodeText_terminated t exit_key n), List.map_map]
  rfl

/-! ## The text of one node -/

theorem nodeText_block (t : Platform) (exit_key : List Char) (n : ASTNode)
    (h : n.type = .AST_BLOCK ∨ n.type = .AST_END) : nodeText t exit_key n = [] := by
  rcases h with h | h <;> simp [nodeText, nodeCalls, h]

theorem nodeText_vardecl (t : Platform) (exit_key : List Char) (n : ASTNode)
    (h : n.type = .AST_VARDECL) :
    nodeText t exit_key n =
      if n.value2 = [] then "  mov qword [rbp-8], 0\n".toList
      else "  mov qword [rbp-8], 0\n  mov rax, ".toList ++ n.value2 ++
        "\n  mov [rbp-8], rax\n".toList := by
  have e1 : "  mov qword [rbp-8], 0\n  mov rax, ".toList =
      "  mov qword [rbp-8], 0\n".toList ++ "  mov rax, ".toList := by decide
  have e2 : "\n  mov [rbp-8], rax\n".toList = "\n".toList ++ "  mov [rbp-8], rax\n".toList := by
    decide
  by_cases hv : n.value2 = []
  · simp [nodeText, nodeCalls, h, hv]
  · rw [if_neg hv, e1, e2]
    simp [nodeText, nodeCalls, h, hv]

theorem nodeText_print (t : Platform) (exit_key : List Char) (n : ASTNode)
    (h : n.type = .AST_PRINT) :
    nodeText t exit_key n =
      if isApple t then "  lea rdi, [rel msg]\n  xor rax, rax\n  call _printf\n".toList
      else "  lea rdi, [msg]\n  xor rax, rax\n  call printf\n".toList := by
  by_cases ha : isApple t = true
  · have e : "  lea rdi, [rel msg]\n  xor rax, rax\n  call _printf\n".toList =
        "  lea rdi, [rel msg]\n".toList ++ ("  xor rax, rax\n".toList ++
          "  call _printf\n".toList) := by decide
    rw [if_pos ha, e]
    simp [nodeText, nodeCalls, h, ha]
  · have e : "  lea rdi, [msg]\n  xor rax, rax\n  call printf\n".toList =
        "  lea rdi, [msg]\n".toList ++ ("  xor rax, rax\n".toList ++
          "  call printf\n".toList) := by decide
    rw [if_neg ha, e]
    simp [nodeText, nodeCalls, h, ha]

theorem nodeText_kbchk (t : Platform) (exit_key : List Char) (n : ASTNode)
    (h : n.type = .AST_KBCHK) :
    nodeText t exit_key n =
      ("  call kbhit\n  test rax, rax\n  jz .no_input\n" ++
        "  mov al, byte [rel input_buf]\n  cmp al, '").toList ++ exit_key ++
        "'\n  je .exit\n.no_input:\n".toList := by
  have e1 : ("  call kbhit\n  test rax, rax\n  jz .no_input\n" ++
      "  mov al, byte [rel input_buf]\n  cmp al, '").toList = "  call kbhit\n".toList ++ ("  test rax, rax\n".toList ++
      ("  jz .no_input\n".toList ++ ("  mov al, byte [rel input_buf]\n".toList ++
      "  cmp al, '".toList))) := by decide
  have e2 : "'\n  je .exit\n.no_input:\n".toList =
      "'\n".toList ++ ("  je .exit\n".toList ++ ".no_input:\n".toList) := by decide
  rw [e1, e2]
  simp [nodeText, nodeCalls, h]

theorem dropWhile_append_left (p : Char → Bool) : ∀ (a b : List Char),
    a.dropWhile p ≠ [] → (a ++ b).dropWhile p = a.dropWhile p ++ b := by
  intro a
  induction a with
  | nil => intro b h; exact absurd rfl h
  | cons c r ih =>
    intro b h
    by_cases hc : p c = true
    · simp only [List.cons_append, List.dropWhile_cons, hc, if_true] at h ⊢
      exact ih b h
    · simp [List.dropWhile_cons, hc]

theorem asmLines_line (x b : List Char) (hx : '\n' ∉ x) :
    asmLines (x ++ '\n' :: b) = x.dropWhile (fun c => c = ' ') :: asmLines b := by
  simp [asmLines, linesFrom_line x [] b hx]

/-- The lines of the text of a `let` with an initializer that holds no
newline. -/
theorem asmLines_vardecl (v : List Char) (hv : '\n' ∉ v) :
    asmLines ("  mov qword [rbp-8], 0\n  mov rax, ".toList ++ v ++
        "\n  mov [rbp-8], rax\n".toList) =
      ["mov qword [rbp-8], 0".toList, "mov rax, ".toList ++ v, "mov [rbp-8], rax".toList] := by
  have e1 : "  mov qword [rbp-8], 0\n  mov rax, ".toList =
      "  mov qword [rbp-8], 0".toList ++ '\n' :: "  mov rax, ".toList := by decide
  have e2 : "\n  mov [rbp-8], rax\n".toList = '\n' :: ("  mov [rbp-8], rax".toList ++ ['\n']) := by
    decide
  have h1 : '\n' ∉ "  mov rax, ".toList ++ v := by
    intro h
    rcases List.mem_append.1 h with h | h
    · revert h; decide
    · exact hv h
  rw [e1, e2, List.append_assoc, List.append_assoc, List.cons_append,
    asmLines_line _ _ (by decide), ← List.append_assoc, asmLines_line _ _ h1,
    asmLines_line _ _ (by decide), dropWhile_append_left _ _ _ (by decide)]
  have e3 : asmLines [] = [] := by decide
  rw [e3]
  congr 1

/-- The lines of the text of a `kbchk` with an exit key that holds no
newline. -/
theorem asmLines_kbchk (k : List Char) (hk : '\n' ∉ k) :
    asmLines (("  call kbhit\n  test rax, rax\n  jz .no_input\n" ++
        "  mov al, byte [rel input_buf]\n  cmp al, '").toList ++ k ++
        "'\n  je .exit\n.no_input:\n".toList) =
      ["call kbhit".toList, "test rax, rax".toList, "jz .no_input".toList,
        "mov al, byte [rel input_buf]".toList, "cmp al, '".toList ++ k ++ "'".toList,
        "je .exit".toList, ".no_input:".toList] := by
  have e1 : ("  call kbhit\n  test rax, rax\n  jz .no_input\n" ++
      "  mov al, byte [rel input_buf]\n  cmp al, '").toList =
      ("  call kbhit\n  test rax, rax\n  jz .no_input\n" ++
        "  mov al, byte [rel input_buf]\n").toList ++ "  cmp al, '".toList := by decide
  have e2 : "'\n  je .exit\n.no_input:\n".toList =
      "'".toList ++ '\n' :: "  je .exit\n.no_input:\n".toList := by decide
  have h1 : '\n' ∉ "  cmp al, '".toList ++ (k ++ "'".toList) := by
    intro h
    rcases List.mem_append.1 h with h | h
    · revert h; decide
    · rcases List.mem_append.1 h with h | h
      · exact hk h
      · revert h; decide
  rw [e1, e2, List.append_assoc, List.append_assoc, asmLines_append (Or.inr (by decide)),
    ← List.append_assoc, ← List.append_assoc, List.append_assoc _ k, asmLines_line _ _ h1,
    dropWhile_append_left _ _ _ (by decide)]
  have e3 : asmLines ("  call kbhit\n  test rax, rax\n  jz .no_input\n" ++
      "  mov al, byte [rel input_buf]\n").toList = ["call kbhit".toList, "test rax, rax".toList,
      "jz .no_input".toList, "mov al, byte [rel input_buf]".toList] := by decide
  have e4 : asmLines "  je .exit\n.no_input:\n".toList =
      ["je .exit".toList, ".no_input:".toList] := by decide
  rw [e3, e4]
  simp


theorem take_append_left_eq (a b : List Char) (n : Nat) (h : a.length = n) :
    (a ++ b).take n = a := by
  subst h
  simp

/-- Every line of the text of a node is a statement line, when neither a
`let` initializer nor the exit key holds a newline. -/
theorem node_lines (t : Platform) (exit_key : List Char) (n : ASTNode)
    (hn : ¬ NewlineInInit n) (hk : '\n' ∉ exit_key) :
    ∀ l ∈ asmLines (nodeText t exit_key n), isStatementLine t l = true := by
  intro l hl
  cases hty : n.type with
  | AST_BLOCK => rw [nodeText_block t exit_key n (Or.inl hty)] at hl; simp [asmLines, linesFrom] at hl
  | AST_END => rw [nodeText_block t exit_key n (Or.inr hty)] at hl; simp [asmLines, linesFrom] at hl
  | AST_VARDECL =>
    rw [nodeText_vardecl t exit_key n hty] at hl
    by_cases hv : n.value2 = []
    · rw [if_pos hv] at hl
      have e : asmLines "  mov qword [rbp-8], 0\n".toList = ["mov qword [rbp-8], 0".toList] := by
        decide
      rw [e, List.mem_singleton] at hl
      subst hl
      cases t <;> decide
    · rw [if_neg hv, asmLines_vardecl _ (fun h => hn ⟨hty, h⟩)] at hl
      simp only [List.mem_cons, List.mem_singleton, List.not_mem_nil, or_false] at hl
      rcases hl with rfl | rfl | rfl
      · cases t <;> decide
      · simp [isStatementLine,
          take_append_left_eq "mov rax, ".toList n.value2 9 (by decide)]
      · cases t <;> decide
  | AST_PRINT =>
    rw [nodeText_print t exit_key n hty] at hl
    revert l
    cases t <;> decide
  | AST_KBCHK =>
    rw [nodeText_kbchk t exit_key n hty, asmLines_kbchk _ hk] at hl
    simp only [List.mem_cons, List.mem_singleton, List.not_mem_nil, or_false] at hl
    rcases hl with rfl | rfl | rfl | rfl | rfl | rfl | rfl
    · cases t <;> decide
    · cases t <;> decide
    · cases t <;> decide
    · cases t <;> decide
    · simp [isStatementLine, List.append_assoc,
        take_append_left_eq "cmp al, '".toList (exit_key ++ "'".toList) 9 (by decide)]
    · cases t <;> decide
    · cases t <;> decide

theorem body_lines (t : Platform) (exit_key : List Char) (ast : List ASTNode)
    (hinit : ∀ n ∈ ast, ¬ NewlineInInit n) (hk : '\n' ∉ exit_key) :
    ∀ l ∈ (ast.map (fun n => asmLines (nodeText t exit_key n))).flatten,
      isStatementLine t l = true := by
  intro l hl
  obtain ⟨ls, hls, hl⟩ := List.mem_flatten.1 hl
  obtain ⟨n, hn, rfl⟩ := List.mem_map.1 hls
  exact node_lines t exit_key n (hinit n hn) hk l hl

/-- The output after successive calls of `append_str`. -/
theorem foldl_append_str_eq : ∀ (calls : List (List Char)) (out : List Char),
    calls.foldl append_str out = out ++ (keptCalls out.length calls).flatten := by
  intro calls
  induction calls with
  | nil => intro out; simp [keptCalls]
  | cons s r ih =>
    intro out
    rw [List.foldl_cons, ih, keptCalls]
    unfold append_str
    split_ifs with h
    · simp
    · rfl

theorem codegen_split (t : Platform) (is_main : Bool) (exit_key : List Char)
    (a b : List ASTNode)
    (h : (prologueText t is_main).length + (bodyText t exit_key a).length < MAX_OUTPUT) :
    codegen t is_main exit_key (a ++ b) [] =
      ((b.map (nodeCalls t exit_key)).flatten ++ (exitCalls t is_main).map String.toList).foldl
        append_str (prologueText t is_main ++ bodyText t exit_key a) := by
  have e : codegenCalls t is_main exit_key (a ++ b) =
      ((headerCalls t is_main ++ kbhitCalls t ++ entryCalls t is_main).map String.toList ++
        (a.map (nodeCalls t exit_key)).flatten) ++
      ((b.map (nodeCalls t exit_key)).flatten ++ (exitCalls t is_main).map String.toList) := by
    simp [codegenCalls]
  have e2 : ((headerCalls t is_main ++ kbhitCalls t ++ entryCalls t is_main).map String.toList ++
        (a.map (nodeCalls t exit_key)).flatten).flatten =
      prologueText t is_main ++ bodyText t exit_key a := by
    rw [List.flatten_append, flatten_flatten_map]
    rfl
  unfold codegen
  rw [e, List.foldl_append, foldl_append_str_fit _ [] (by rw [e2]; simpa using h), e2]
  rfl

theorem bodyText_replicate_length (t : Platform) (exit_key : List Char) (v : ASTNode) :
    ∀ n, (bodyText t exit_key (List.replicate n v)).length = n * (nodeText t exit_key v).length := by
  intro n
  induction n with
  | zero => simp [bodyText]
  | succ k ih =>
    rw [List.replicate_succ, bodyText_cons, List.length_append, ih]
    ring

set_option maxRecDepth 100000 in
/-- On Linux, for the main file, the output for `fullBufferAst` is the
prologue, the text of the fourteen first nodes, and of the last node the
initializer and the newline only; the rest is dropped. -/
theorem codegen_fullBufferAst :
    codegen .PLATFORM_LINUX true ['q'] fullBufferAst [] =
      prologueText .PLATFORM_LINUX true ++
      bodyText .PLATFORM_LINUX ['q']
        (List.replicate 14 ⟨.AST_VARDECL, ['a'], List.replicate 213 '1'⟩) ++
      "global x\n".toList := by
  have hp : (prologueText .PLATFORM_LINUX true).length = 348 := by decide
  have hn : (nodeText .PLATFORM_LINUX ['q']
      ⟨.AST_VARDECL, ['a'], List.replicate 213 '1'⟩).length = 267 := by
    rw [nodeText_vardecl _ _ _ rfl, if_neg (by simp)]
    simp only [List.length_append, List.length_replicate]
    decide
  have hb := bodyText_replicate_length .PLATFORM_LINUX ['q']
    ⟨.AST_VARDECL, ['a'], List.replicate 213 '1'⟩ 14
  rw [hn] at hb
  unfold fullBufferAst
  rw [codegen_split _ _ _ _ _ (by rw [hp, hb]; decide), foldl_append_str_eq,
    List.length_append, hp, hb]
  congr 1

/-- Without a dropped call the output is prologue, statement body, epilogue. -/
theorem codegen_uncut (t : Platform) (is_main : Bool) (exit_key : List Char)
    (ast : List ASTNode) (hfit : (codegenText t is_main exit_key ast).length < MAX_OUTPUT) :
    codegen t is_main exit_key ast [] =
      prologueText t is_main ++ bodyText t exit_key ast ++ epilogueText t is_main := by
  rw [(codegen_eq_text_iff t is_main exit_key ast).2 hfit, codegenText_eq]

theorem asmLines_uncut (t : Platform) (is_main : Bool) (exit_key : List Char)
    (ast : List ASTNode) (hfit : (codegenText t is_main exit_key ast).length < MAX_OUTPUT) :
    asmLines (codegen t is_main exit_key ast []) =
      asmLines (prologueText t is_main) ++
      (ast.map (fun n => asmLines (nodeText t exit_key n))).flatten ++
      asmLines (epilogueText t is_main) := by
  rw [(codegen_eq_text_iff t is_main exit_key ast).2 hfit, asmLines_codegenText]

theorem print_lines (t : Platform) (exit_key : List Char) (n : ASTNode)
    (h : n.type = .AST_PRINT) :
    asmLines (nodeText t exit_key n) =
      if isApple t then ["lea rdi, [rel msg]".toList, "xor rax, rax".toList,
        "call _printf".toList]
      else ["lea rdi, [msg]".toList, "xor rax, rax".toList, "call printf".toList] := by
  rw [nodeText_print t exit_key n h]
  cases t <;> decide

theorem mem_body_lines {t : Platform} {exit_key : List Char} {ast : List ASTNode} {n : ASTNode}
    {l : List Char} (hn : n ∈ ast) (hl : l ∈ asmLines (nodeText t exit_key n)) :
    l ∈ (ast.map (fun n => asmLines (nodeText t exit_key n))).flatten :=
  List.mem_flatten.2 ⟨_, List.mem_map.2 ⟨n, hn, rfl⟩, hl⟩

set_option maxRecDepth 100000 in
theorem prologue_lines_apple (t : Platform) (h : t = .PLATFORM_MACOS ∨ t = .PLATFORM_IOS) :
    ∀ l ∈ ["global _main", "extern _printf", "_main:"],
      l.toList ∈ asmLines (prologueText t true) := by
  rcases h with rfl | rfl <;> decide

set_option maxRecDepth 100000 in
theorem prologue_lines_other (t : Platform) (h1 : t ≠ .PLATFORM_MACOS) (h2 : t ≠ .PLATFORM_IOS) :
    (∀ l ∈ ["global main", "extern printf", "main:"],
      l.toList ∈ asmLines (prologueText t true)) ∧
    (∀ l ∈ ["global _main", "extern _printf", "_main:", "call _printf"],
      l.toList ∉ asmLines (prologueText t true) ∧ isStatementLine t l.toList = false ∧
      l.toList ∉ asmLines (epilogueText t true)) := by
  cases t
  · exact absurd rfl h1
  · decide
  · decide
  · decide
  · exact absurd rfl h2
  · decide

/-! ## Claims about the code generator -/

set_option maxRecDepth 100000 in
/-- C11, as stated, fails: the source `/+[ pnt 1 let a = "0\nglobal _main" /=]`
is accepted and has a `pnt`, no call is dropped, the target is Linux, and the
output holds the line `global _main`, pasted from the initializer. -/
theorem codegen_pastes_global_main :
    parseSource "/+[ pnt 1 let a = \"0\nglobal _main\" /=]".toList [] [] =
      some (.ok [⟨.AST_BLOCK, [], []⟩, ⟨.AST_PRINT, ['1'], []⟩,
        ⟨.AST_VARDECL, ['a'], "0\nglobal _main".toList⟩, ⟨.AST_END, [], []⟩]) ∧
    (codegenText .PLATFORM_LINUX true ['q'] [⟨.AST_BLOCK, [], []⟩, ⟨.AST_PRINT, ['1'], []⟩,
        ⟨.AST_VARDECL, ['a'], "0\nglobal _main".toList⟩, ⟨.AST_END, [], []⟩]).length <
      MAX_OUTPUT ∧
    "global _main".toList ∈ asmLines (codegen .PLATFORM_LINUX true ['q']
      [⟨.AST_BLOCK, [], []⟩, ⟨.AST_PRINT, ['1'], []⟩,
        ⟨.AST_VARDECL, ['a'], "0\nglobal _main".toList⟩, ⟨.AST_END, [], []⟩] []) := by
  refine ⟨by decide, by decide, by decide⟩

/-- C11 (amended): for every AST with a `PRINT` node, compiled with role main
and no call dropped by the output cap: on macOS and iOS the output holds the
lines `global _main`, `extern _printf`, `_main:`, `lea rdi, [rel msg]` and
`call _printf`; on every other target it holds `global main`,
`extern printf`, `main:`, `lea rdi, [msg]` and `call printf`, and, when no
`let` initializer and not the exit key holds a newline, none of
`global _main`, `extern _printf`, `_main:`, `call _printf`. -/
theorem codegen_main_lines (t : Platform) (exit_key : List Char) (ast : List ASTNode)
    (hfit : (codegenText t true exit_key ast).length < MAX_OUTPUT)
    (hprint : ∃ n ∈ ast, n.type = .AST_PRINT) :
    (t = .PLATFORM_MACOS ∨ t = .PLATFORM_IOS →
      ∀ l ∈ ["global _main", "extern _printf", "_main:", "lea rdi, [rel msg]", "call _printf"],
        l.toList ∈ asmLines (codegen t true exit_key ast [])) ∧
    (t ≠ .PLATFORM_MACOS → t ≠ .PLATFORM_IOS →
      (∀ l ∈ ["global main", "extern printf", "main:", "lea rdi, [msg]", "call printf"],
        l.toList ∈ asmLines (codegen t true exit_key ast [])) ∧
      ((∀ n ∈ ast, ¬ NewlineInInit n) → '\n' ∉ exit_key →
        ∀ l ∈ ["global _main", "extern _printf", "_main:", "call _printf"],
          l.toList ∉ asmLines (codegen t true exit_key ast []))) := by
  obtain ⟨n, hn, hty⟩ := hprint
  rw [asmLines_uncut t true exit_key ast hfit]
  have hpl := print_lines t exit_key n hty
  constructor
  · intro ha l hl
    have hap : isApple t = true := by rcases ha with rfl | rfl <;> rfl
    rw [if_pos hap] at hpl
    simp only [List.mem_cons, List.mem_singleton, List.not_mem_nil, or_false] at hl
    rcases hl with rfl | rfl | rfl | rfl | rfl
    · exact List.mem_append_left _ (List.mem_append_left _
        (prologue_lines_apple t ha _ (by simp)))
    · exact List.mem_append_left _ (List.mem_append_left _
        (prologue_lines_apple t ha _ (by simp)))
    · exact List.mem_append_left _ (List.mem_append_left _
        (prologue_lines_apple t ha _ (by simp)))
    · exact List.mem_append_left _ (List.mem_append_right _
        (mem_body_lines hn (by rw [hpl]; simp)))
    · exact List.mem_append_left _ (List.mem_append_right _
        (mem_body_lines hn (by rw [hpl]; simp)))
  · intro h1 h2
    have hap : ¬ isApple t = true := by cases t <;> simp_all [isApple]
    rw [if_neg hap] at hpl
    obtain ⟨hpos, hneg⟩ := prologue_lines_other t h1 h2
    constructor
    · intro l hl
      simp only [List.mem_cons, List.mem_singleton, List.not_mem_nil, or_false] at hl
      rcases hl with rfl | rfl | rfl | rfl | rfl
      · exact List.mem_append_left _ (List.mem_append_left _ (hpos _ (by simp)))
      · exact List.mem_append_left _ (List.mem_append_left _ (hpos _ (by simp)))
      · exact List.mem_append_left _ (List.mem_append_left _ (hpos _ (by simp)))
      · exact List.mem_append_left _ (List.mem_append_right _
          (mem_body_lines hn (by rw [hpl]; simp)))
      · exact List.mem_append_left _ (List.mem_append_right _
          (mem_body_lines hn (by rw [hpl]; simp)))
    · intro hinit hkey l hl hmem
      obtain ⟨hp, hs, he⟩ := hneg l hl
      rcases List.mem_append.1 hmem with hmem | hmem
      · rcases List.mem_append.1 hmem with hmem | hmem
        · exact hp hmem
        · rw [body_lines t exit_key ast hinit hkey _ hmem] at hs
          exact absurd hs (by decide)
      · exact he hmem

set_option maxRecDepth 100000 in
/-- Instance of C11 (amended) at the AST of `/+[ pnt "x" /=]` on Linux. -/
theorem codegen_main_lines_witness :
    (∀ l ∈ ["global main", "extern printf", "main:", "lea rdi, [msg]", "call printf"],
      l.toList ∈ asmLines (codegen .PLATFORM_LINUX true ['q']
        [⟨.AST_BLOCK, [], []⟩, ⟨.AST_PRINT, ['x'], []⟩, ⟨.AST_END, [], []⟩] [])) ∧
    (∀ l ∈ ["global _main", "extern _printf", "_main:", "call _printf"],
      l.toList ∉ asmLines (codegen .PLATFORM_LINUX true ['q']
        [⟨.AST_BLOCK, [], []⟩, ⟨.AST_PRINT, ['x'], []⟩, ⟨.AST_END, [], []⟩] [])) :=
  ⟨((codegen_main_lines .PLATFORM_LINUX ['q']
      [⟨.AST_BLOCK, [], []⟩, ⟨.AST_PRINT, ['x'], []⟩, ⟨.AST_END, [], []⟩] (by decide)
      ⟨⟨.AST_PRINT, ['x'], []⟩, by decide, rfl⟩).2 (by decide) (by decide)).1,
    ((codegen_main_lines .PLATFORM_LINUX ['q']
      [⟨.AST_BLOCK, [], []⟩, ⟨.AST_PRINT, ['x'], []⟩, ⟨.AST_END, [], []⟩] (by decide)
      ⟨⟨.AST_PRINT, ['x'], []⟩, by decide, rfl⟩).2 (by decide) (by decide)).2
      (by simp [NewlineInInit]) (by decide)⟩

theorem epilogue_lines (t : Platform) (is_main : Bool) :
    asmLines (epilogueText t is_main) =
      ([".exit:", "mov rsp, rbp", "pop rbp"] ++
        (if is_main then exitSequence t else ["ret"])).map String.toList := by
  cases t <;> cases is_main <;> decide

/-- C12: for every target, role and AST whose emitted text is not cut by the
output cap, the output of `codegen` ends with the lines `.exit:`,
`mov rsp, rbp`, `pop rbp`, followed for role main by exactly the exit
sequence of the target and for role module by the single line `ret`. -/
theorem codegen_ends_with_epilogue (t : Platform) (is_main : Bool) (exit_key : List Char)
    (ast : List ASTNode)
    (hfit : (codegenText t is_main exit_key ast).length < MAX_OUTPUT) :
    ∃ pre, Terminated pre ∧
      codegen t is_main exit_key ast [] = pre ++ epilogueText t is_main ∧
      asmLines (codegen t is_main exit_key ast []) = asmLines pre ++
        ([".exit:", "mov rsp, rbp", "pop rbp"] ++
          (if is_main then exitSequence t else ["ret"])).map String.toList := by
  have hterm : Terminated (prologueText t is_main ++ bodyText t exit_key ast) :=
    (prologueText_terminated t is_main).append (bodyText_terminated t exit_key ast)
  refine ⟨prologueText t is_main ++ bodyText t exit_key ast, hterm,
    codegen_uncut t is_main exit_key ast hfit, ?_⟩
  rw [codegen_uncut t is_main exit_key ast hfit, asmLines_append hterm, epilogue_lines]

set_option maxRecDepth 100000 in
/-- Instance of C12 at the AST of `/+[ kbchk /=]` on FreeBSD, role main. -/
theorem codegen_ends_with_epilogue_witness :
    ∃ pre, Terminated pre ∧
      codegen .PLATFORM_FREEBSD true ['q']
        [⟨.AST_BLOCK, [], []⟩, ⟨.AST_KBCHK, [], []⟩, ⟨.AST_END, [], []⟩] [] =
        pre ++ epilogueText .PLATFORM_FREEBSD true ∧
      asmLines (codegen .PLATFORM_FREEBSD true ['q']
        [⟨.AST_BLOCK, [], []⟩, ⟨.AST_KBCHK, [], []⟩, ⟨.AST_END, [], []⟩] []) = asmLines pre ++
        ([".exit:", "mov rsp, rbp", "pop rbp"] ++
          (if true then exitSequence .PLATFORM_FREEBSD else ["ret"])).map String.toList :=
  codegen_ends_with_epilogue .PLATFORM_FREEBSD true ['q']
    [⟨.AST_BLOCK, [], []⟩, ⟨.AST_KBCHK, [], []⟩, ⟨.AST_END, [], []⟩] (by decide)

/-- C13: for every target, role and AST whose emitted text is not cut by the
output cap, a `VARDECL` node with non-empty `v2` contributes, at its place in
the statement body, exactly the lines `  mov qword [rbp-8], 0`,
`  mov rax, ` followed by `v2` verbatim, and `  mov [rbp-8], rax`; a
`VARDECL` node with empty `v2` contributes the first line only. -/
theorem codegen_vardecl_text (t : Platform) (is_main : Bool) (exit_key : List Char)
    (before after : List ASTNode) (n : ASTNode) (hn : n.type = .AST_VARDECL)
    (hfit : (codegenText t is_main exit_key (before ++ n :: after)).length < MAX_OUTPUT) :
    codegen t is_main exit_key (before ++ n :: after) [] =
      prologueText t is_main ++ bodyText t exit_key before ++
      (if n.value2 = [] then "  mov qword [rbp-8], 0\n".toList
       else "  mov qword [rbp-8], 0\n  mov rax, ".toList ++ n.value2 ++
        "\n  mov [rbp-8], rax\n".toList) ++
      bodyText t exit_key after ++ epilogueText t is_main := by
  rw [codegen_uncut _ _ _ _ hfit, bodyText_append, bodyText_cons, nodeText_vardecl _ _ _ hn]
  simp only [List.append_assoc]

set_option maxRecDepth 100000 in
/-- Instance of C13 at the source `/+[ let a = 42 /=]` on Linux. -/
theorem codegen_vardecl_text_witness :
    parseSource "/+[ let a = 42 /=]".toList [] [] =
      some (.ok ([⟨.AST_BLOCK, [], []⟩] ++ ⟨.AST_VARDECL, ['a'], ['4', '2']⟩ ::
        [⟨.AST_END, [], []⟩])) ∧
    codegen .PLATFORM_LINUX true ['q'] ([⟨.AST_BLOCK, [], []⟩] ++
        ⟨.AST_VARDECL, ['a'], ['4', '2']⟩ :: [⟨.AST_END, [], []⟩]) [] =
      prologueText .PLATFORM_LINUX true ++ bodyText .PLATFORM_LINUX ['q'] [⟨.AST_BLOCK, [], []⟩] ++
      (if ['4', '2'] = [] then "  mov qword [rbp-8], 0\n".toList
       else "  mov qword [rbp-8], 0\n  mov rax, ".toList ++ ['4', '2'] ++
        "\n  mov [rbp-8], rax\n".toList) ++
      bodyText .PLATFORM_LINUX ['q'] [⟨.AST_END, [], []⟩] ++ epilogueText .PLATFORM_LINUX true :=
  ⟨by decide, codegen_vardecl_text .PLATFORM_LINUX true ['q'] [⟨.AST_BLOCK, [], []⟩]
    [⟨.AST_END, [], []⟩] ⟨.AST_VARDECL, ['a'], ['4', '2']⟩ rfl (by decide)⟩

/-- C14: for every target, role, exit key and AST whose emitted text is not
cut by the output cap, a `KBCHK` node contributes, at its place in the
statement body and in this order, `call kbhit`, `test rax, rax`,
`jz .no_input`, the load of `al`, the compare of `al` with the exit key
between single quotes, `je .exit` and, after the compare, the label
`.no_input:`; the exit key of the initial `config` is `q`, and for the exit
key `x` the compared byte is 0x78. -/
theorem codegen_kbchk_text (t : Platform) (is_main : Bool) (exit_key : List Char)
    (before after : List ASTNode) (n : ASTNode) (hn : n.type = .AST_KBCHK)
    (hfit : (codegenText t is_main exit_key (before ++ n :: after)).length < MAX_OUTPUT) :
    codegen t is_main exit_key (before ++ n :: after) [] =
      prologueText t is_main ++ bodyText t exit_key before ++
      (("  call kbhit\n  test rax, rax\n  jz .no_input\n" ++
        "  mov al, byte [rel input_buf]\n  cmp al, '").toList ++ exit_key ++
        "'\n  je .exit\n.no_input:\n".toList) ++
      bodyText t exit_key after ++ epilogueText t is_main ∧
    config.exit_key = ['q'] ∧ (exit_key = ['x'] → exit_key.map Char.toNat = [0x78]) := by
  refine ⟨?_, rfl, fun h => by rw [h]; rfl⟩
  rw [codegen_uncut _ _ _ _ hfit, bodyText_append, bodyText_cons, nodeText_kbchk _ _ _ hn]
  simp only [List.append_assoc]

set_option maxRecDepth 100000 in
/-- Instance of C14 at the AST of `/+[ kbchk /=]` on FreeBSD with the exit key
`x`. -/
theorem codegen_kbchk_text_witness :
    codegen .PLATFORM_FREEBSD true ['x'] ([⟨.AST_BLOCK, [], []⟩] ++
        ⟨.AST_KBCHK, [], []⟩ :: [⟨.AST_END, [], []⟩]) [] =
      prologueText .PLATFORM_FREEBSD true ++
      bodyText .PLATFORM_FREEBSD ['x'] [⟨.AST_BLOCK, [], []⟩] ++
      (("  call kbhit\n  test rax, rax\n  jz .no_input\n" ++
        "  mov al, byte [rel input_buf]\n  cmp al, '").toList ++ ['x'] ++
        "'\n  je .exit\n.no_input:\n".toList) ++
      bodyText .PLATFORM_FREEBSD ['x'] [⟨.AST_END, [], []⟩] ++
      epilogueText .PLATFORM_FREEBSD true ∧
    config.exit_key = ['q'] ∧ (['x'] = ['x'] → ['x'].map Char.toNat = [0x78]) :=
  codegen_kbchk_text .PLATFORM_FREEBSD true ['x'] [⟨.AST_BLOCK, [], []⟩]
    [⟨.AST_END, [], []⟩] ⟨.AST_KBCHK, [], []⟩ rfl (by decide)

theorem not_global_of_statementLine (t : Platform) (l : List Char)
    (h : isStatementLine t l = true) : decide (l.take 6 = "global".toList) = false := by
  simp only [isStatementLine, Bool.or_eq_true, decide_eq_true_eq] at h
  simp only [decide_eq_false_iff_not]
  rcases h with (h | h) | h
  · revert l
    cases t <;> decide
  · intro h6
    have := congrArg (List.take 6) h
    rw [List.take_take] at this
    simp only [Nat.min_def] at this
    rw [if_pos (by decide), h6] at this
    revert this
    decide
  · intro h6
    have := congrArg (List.take 6) h
    rw [List.take_take] at this
    simp only [Nat.min_def] at this
    rw [if_pos (by decide), h6] at this
    revert this
    decide

set_option maxRecDepth 100000 in
theorem prologue_counts (t : Platform) (is_main : Bool) :
    (asmLines (prologueText t is_main)).count (entryLabel t is_main).toList = 1 ∧
    (asmLines (prologueText t is_main)).count ".exit:".toList = 0 ∧
    (asmLines (epilogueText t is_main)).count (entryLabel t is_main).toList = 0 ∧
    (asmLines (epilogueText t is_main)).count ".exit:".toList = 1 ∧
    isStatementLine t (entryLabel t is_main).toList = false ∧
    isStatementLine t ".exit:".toList = false := by
  cases t <;> cases is_main <;> decide

set_option maxRecDepth 100000 in
theorem prologue_globals (t : Platform) (is_main : Bool) :
    globalLines (prologueText t is_main) =
      (if is_main then
        [if t = .PLATFORM_MACOS ∨ t = .PLATFORM_IOS then "global _main".toList
         else "global main".toList]
       else []) ∧
    globalLines (epilogueText t is_main) = [] := by
  cases t <;> cases is_main <;> decide

theorem count_body_zero (t : Platform) (exit_key : List Char) (ast : List ASTNode)
    (hinit : ∀ n ∈ ast, ¬ NewlineInInit n) (hk : '\n' ∉ exit_key) (l : List Char)
    (hl : isStatementLine t l = false) :
    ((ast.map (fun n => asmLines (nodeText t exit_key n))).flatten).count l = 0 := by
  rw [List.count_eq_zero]
  intro hmem
  rw [body_lines t exit_key ast hinit hk l hmem] at hl
  exact absurd hl (by decide)

theorem filter_body_global (t : Platform) (exit_key : List Char) (ast : List ASTNode)
    (hinit : ∀ n ∈ ast, ¬ NewlineInInit n) (hk : '\n' ∉ exit_key) :
    ((ast.map (fun n => asmLines (nodeText t exit_key n))).flatten).filter
      (fun l => decide (l.take 6 = "global".toList)) = [] := by
  rw [List.filter_eq_nil_iff]
  intro l hl
  rw [not_global_of_statementLine t l (body_lines t exit_key ast hinit hk l hl)]
  decide

theorem filler_no_newline :
    ∀ n ∈ List.replicate 14 (⟨.AST_VARDECL, ['a'], List.replicate 213 '1'⟩ : ASTNode),
      ¬ NewlineInInit n := by
  intro n hn h
  rw [List.eq_of_mem_replicate hn] at h
  have h2 : '\n' ∈ List.replicate 213 '1' := h.2
  exact absurd (List.eq_of_mem_replicate h2) (by decide)

/-- The lines of the output for `fullBufferAst` on Linux: those of the
prologue, those of the fourteen first nodes, and `global x`. -/
theorem asmLines_fullBufferAst :
    asmLines (codegen .PLATFORM_LINUX true ['q'] fullBufferAst []) =
      asmLines (prologueText .PLATFORM_LINUX true) ++
      ((List.replicate 14 (⟨.AST_VARDECL, ['a'], List.replicate 213 '1'⟩ : ASTNode)).map
        (fun n => asmLines (nodeText .PLATFORM_LINUX ['q'] n))).flatten ++
      ["global x".toList] := by
  have e1 : asmLines (bodyText .PLATFORM_LINUX ['q']
      (List.replicate 14 (⟨.AST_VARDECL, ['a'], List.replicate 213 '1'⟩ : ASTNode))) =
      ((List.replicate 14 (⟨.AST_VARDECL, ['a'], List.replicate 213 '1'⟩ : ASTNode)).map
        (fun n => asmLines (nodeText .PLATFORM_LINUX ['q'] n))).flatten := by
    unfold bodyText
    rw [asmLines_flatten _ (fun a ha => by
      obtain ⟨n, -, rfl⟩ := List.mem_map.1 ha
      exact nodeText_terminated _ _ n), List.map_map]
    rfl
  have e2 : asmLines "global x\n".toList = ["global x".toList] := by decide
  rw [codegen_fullBufferAst, asmLines_append ((prologueText_terminated _ _).append
    (bodyText_terminated _ _ _)), asmLines_append (prologueText_terminated _ _), e1, e2]

/-- The `BLOCK` node in front of the statement nodes and the `END` node behind
them add nothing to the output. -/
theorem codegen_block_end (t : Platform) (is_main : Bool) (exit_key : List Char)
    (ast : List ASTNode) (a b c d out : List Char) :
    codegen t is_main exit_key (⟨.AST_BLOCK, a, b⟩ :: ast ++ [⟨.AST_END, c, d⟩]) out =
      codegen t is_main exit_key ast out := by
  unfold codegen codegenCalls
  simp [nodeCalls]

set_option maxRecDepth 100000 in
/-- C15, as stated, fails in two ways. The accepted source
`/+[ let a = "0\n.exit:" /=]` gives on Linux an output with two lines
`.exit:`, one pasted from the initializer. And for the AST of one block of
fifteen `let`, a `BLOCK` node, the nodes of `fullBufferAst` and an `END` node,
the call for `.exit:` is dropped by the output cap: the output has no line
`.exit:`. -/
theorem codegen_exit_label_twice_or_never :
    parseSource "/+[ let a = \"0\n.exit:\" /=]".toList [] [] =
      some (.ok [⟨.AST_BLOCK, [], []⟩, ⟨.AST_VARDECL, ['a'], "0\n.exit:".toList⟩,
        ⟨.AST_END, [], []⟩]) ∧
    (asmLines (codegen .PLATFORM_LINUX true ['q'] [⟨.AST_BLOCK, [], []⟩,
      ⟨.AST_VARDECL, ['a'], "0\n.exit:".toList⟩, ⟨.AST_END, [], []⟩] [])).count
        ".exit:".toList = 2 ∧
    (asmLines (codegen .PLATFORM_LINUX true ['q']
      (⟨.AST_BLOCK, [], []⟩ :: fullBufferAst ++ [⟨.AST_END, [], []⟩]) [])).count
        ".exit:".toList = 0 := by
  refine ⟨by decide, by decide, ?_⟩
  rw [codegen_block_end, asmLines_fullBufferAst, List.count_append, List.count_append,
    (prologue_counts .PLATFORM_LINUX true).2.1,
    count_body_zero _ _ _ filler_no_newline (by decide) _ (by decide)]
  decide

/-- C15 (amended): for every target, role and AST whose emitted text is not
cut by the output cap and in which no `let` initializer holds a newline, with
an exit key that holds no newline, the output of `codegen` has exactly one
line that defines the entry label and exactly one line `.exit:`. -/
theorem codegen_one_entry_one_exit (t : Platform) (is_main : Bool) (exit_key : List Char)
    (ast : List ASTNode)
    (hfit : (codegenText t is_main exit_key ast).length < MAX_OUTPUT)
    (hinit : ∀ n ∈ ast, ¬ NewlineInInit n) (hkey : '\n' ∉ exit_key) :
    (asmLines (codegen t is_main exit_key ast [])).count (entryLabel t is_main).toList = 1 ∧
    (asmLines (codegen t is_main exit_key ast [])).count ".exit:".toList = 1 := by
  obtain ⟨h1, h2, h3, h4, h5, h6⟩ := prologue_counts t is_main
  rw [asmLines_uncut t is_main exit_key ast hfit]
  simp only [List.count_append]
  rw [h1, h2, h3, h4, count_body_zero t exit_key ast hinit hkey _ h5,
    count_body_zero t exit_key ast hinit hkey _ h6]
  exact ⟨rfl, rfl⟩

set_option maxRecDepth 100000 in
/-- Instance of C15 (amended) at the AST of `/+[ pnt "x" /=]` on macOS. -/
theorem codegen_one_entry_one_exit_witness :
    (asmLines (codegen .PLATFORM_MACOS true ['q']
      [⟨.AST_BLOCK, [], []⟩, ⟨.AST_PRINT, ['x'], []⟩, ⟨.AST_END, [], []⟩] [])).count
        (entryLabel .PLATFORM_MACOS true).toList = 1 ∧
    (asmLines (codegen .PLATFORM_MACOS true ['q']
      [⟨.AST_BLOCK, [], []⟩, ⟨.AST_PRINT, ['x'], []⟩, ⟨.AST_END, [], []⟩] [])).count
        ".exit:".toList = 1 :=
  codegen_one_entry_one_exit .PLATFORM_MACOS true ['q']
    [⟨.AST_BLOCK, [], []⟩, ⟨.AST_PRINT, ['x'], []⟩, ⟨.AST_END, [], []⟩] (by decide)
    (by simp [NewlineInInit]) (by decide)

set_option maxRecDepth 100000 in
/-- C17, as stated, fails in three ways. For role module the output has no
`global` line at all, so none for `module_init`. For role main the accepted
source `/+[ let a = "0\nglobal x" /=]` gives a second `global` line, pasted
from the initializer. And for `fullBufferAst` the output cap drops the two
calls before the initializer `global x` of the last `let`, which so becomes a
line of its own. -/
theorem codegen_global_lines_differ :
    globalLines (codegen .PLATFORM_LINUX false ['q'] [⟨.AST_END, [], []⟩] []) = [] ∧
    "module_init:".toList ∈
      asmLines (codegen .PLATFORM_LINUX false ['q'] [⟨.AST_END, [], []⟩] []) ∧
    parseSource "/+[ let a = \"0\nglobal x\" /=]".toList [] [] =
      some (.ok [⟨.AST_BLOCK, [], []⟩, ⟨.AST_VARDECL, ['a'], "0\nglobal x".toList⟩,
        ⟨.AST_END, [], []⟩]) ∧
    globalLines (codegen .PLATFORM_LINUX true ['q'] [⟨.AST_BLOCK, [], []⟩,
      ⟨.AST_VARDECL, ['a'], "0\nglobal x".toList⟩, ⟨.AST_END, [], []⟩] []) =
      ["global main".toList, "global x".toList] ∧
    globalLines (codegen .PLATFORM_LINUX true ['q'] fullBufferAst []) =
      ["global main".toList, "global x".toList] := by
  refine ⟨by decide, by decide, by decide, by decide, ?_⟩
  unfold globalLines
  rw [asmLines_fullBufferAst, List.filter_append, List.filter_append,
    filter_body_global _ _ _ filler_no_newline (by decide)]
  have h := (prologue_globals .PLATFORM_LINUX true).1
  unfold globalLines at h
  rw [h]
  decide

/-- C17 (amended): for every target and AST whose emitted text is not cut by
the output cap and in which no `let` initializer holds a newline, with an exit
key that holds no newline: the output for role main has exactly one `global`
line, `global _main` on macOS and iOS and `global main` on the other targets,
and the output for role module has no `global` line (`module_init` is defined
as a label and not declared global). -/
theorem codegen_global_lines (t : Platform) (is_main : Bool) (exit_key : List Char)
    (ast : List ASTNode)
    (hfit : (codegenText t is_main exit_key ast).length < MAX_OUTPUT)
    (hinit : ∀ n ∈ ast, ¬ NewlineInInit n) (hkey : '\n' ∉ exit_key) :
    globalLines (codegen t is_main exit_key ast []) =
      (if is_main then
        [if t = .PLATFORM_MACOS ∨ t = .PLATFORM_IOS then "global _main".toList
         else "global main".toList]
       else []) := by
  obtain ⟨h1, h2⟩ := prologue_globals t is_main
  unfold globalLines at h1 h2 ⊢
  rw [asmLines_uncut t is_main exit_key ast hfit, List.filter_append, List.filter_append,
    h1, h2, filter_body_global t exit_key ast hinit hkey]
  simp

set_option maxRecDepth 100000 in
/-- Instance of C17 (amended) at the AST of `/+[ pnt "x" /=]` on Windows, role
main. -/
theorem codegen_global_lines_witness :
    globalLines (codegen .PLATFORM_WINDOWS true ['q']
      [⟨.AST_BLOCK, [], []⟩, ⟨.AST_PRINT, ['x'], []⟩, ⟨.AST_END, [], []⟩] []) =
      (if true then
        [if Platform.PLATFORM_WINDOWS = .PLATFORM_MACOS ∨
            Platform.PLATFORM_WINDOWS = .PLATFORM_IOS then "global _main".toList
         else "global main".toList]
       else []) :=
  codegen_global_lines .PLATFORM_WINDOWS true ['q']
    [⟨.AST_BLOCK, [], []⟩, ⟨.AST_PRINT, ['x'], []⟩, ⟨.AST_END, [], []⟩] (by decide)
    (by simp [NewlineInInit]) (by decide)

set_option maxRecDepth 100000 in
/-- C20, as stated, fails. After a call of 4090 bytes, a call of 10 bytes is
dropped and a later call of one byte still changes the buffer. And the capped
output of `codegen` for `fullBufferAst` on Linux is not an initial part of the
unbounded text: behind the fourteenth `let` it goes on with `global x`, where
the unbounded text goes on with `  mov qword [rbp-8], 0`. -/
theorem append_str_resumes_after_drop :
    append_str (append_str [] (List.replicate 4090 'a')) (List.replicate 10 'b') =
      append_str [] (List.replicate 4090 'a') ∧
    append_str (append_str (append_str [] (List.replicate 4090 'a')) (List.replicate 10 'b'))
        ['c'] ≠
      append_str (append_str [] (List.replicate 4090 'a')) (List.replicate 10 'b') ∧
    ¬ List.IsPrefix (codegen .PLATFORM_LINUX true ['q'] fullBufferAst [])
      (codegenText .PLATFORM_LINUX true ['q'] fullBufferAst) := by
  have h0 : append_str [] (List.replicate 4090 'a') = List.replicate 4090 'a' := by
    rw [append_str_fit (by rw [List.length_replicate]; decide)]
    rfl
  have h1 : append_str (List.replicate 4090 'a') (List.replicate 10 'b') =
      List.replicate 4090 'a' :=
    append_str_drop (by rw [List.length_replicate, List.length_replicate]; decide)
  refine ⟨by rw [h0, h1], ?_, ?_⟩
  · rw [h0, h1, append_str_fit (by rw [List.length_replicate]; decide)]
    intro h
    have := congrArg List.length h
    rw [List.length_append, List.length_replicate] at this
    revert this
    decide
  · rw [codegen_fullBufferAst, codegenText_eq]
    unfold fullBufferAst
    rw [bodyText_append]
    simp only [List.append_assoc]
    rw [List.prefix_append_right_inj, List.prefix_append_right_inj]
    decide

/-- C20 (amended): a call of `append_str` whose string does not fit is dropped,
and only that call: later calls whose strings fit are still appended. After
any sequence of calls the buffer holds, behind what it held, the strings of
the calls that fitted, in order, and stays shorter than `MAX_OUTPUT`. For
every target, role and AST the capped output of `codegen` is a subsequence of
the text that `codegen` would emit with an unbounded buffer, and it is that
text exactly when the text is shorter than `MAX_OUTPUT`. -/
theorem codegen_capped_output :
    (∀ (calls : List (List Char)) (out : List Char), out.length < MAX_OUTPUT →
      calls.foldl append_str out = out ++ (keptCalls out.length calls).flatten ∧
      List.Sublist (keptCalls out.length calls) calls ∧
      (calls.foldl append_str out).length < MAX_OUTPUT) ∧
    (∀ (t : Platform) (is_main : Bool) (exit_key : List Char) (ast : List ASTNode),
      List.Sublist (codegen t is_main exit_key ast []) (codegenText t is_main exit_key ast) ∧
      (codegen t is_main exit_key ast [] = codegenText t is_main exit_key ast ↔
        (codegenText t is_main exit_key ast).length < MAX_OUTPUT)) := by
  have hsub : ∀ (calls : List (List Char)) (pos : Nat),
      List.Sublist (keptCalls pos calls) calls := by
    intro calls
    induction calls with
    | nil => intro pos; exact List.Sublist.slnil
    | cons s r ih =>
      intro pos
      rw [keptCalls]
      split_ifs with h
      · exact (ih _).cons₂ s
      · exact (ih _).cons s
  constructor
  · intro calls out hout
    exact ⟨foldl_append_str_eq calls out, hsub calls _, foldl_append_str_length calls out hout⟩
  · intro t is_main exit_key ast
    refine ⟨?_, codegen_eq_text_iff t is_main exit_key ast⟩
    unfold codegen codegenText
    rw [foldl_append_str_eq, List.nil_append]
    exact flatten_sublist (hsub _ _)

/-- Instance of C20 (amended) at calls of 4090, 10 and 1 bytes on the empty
buffer: the call of 10 bytes is dropped, the call of 1 byte behind it is
kept, and the buffer holds 4091 bytes. -/
theorem codegen_capped_output_witness :
    [List.replicate 4090 'a', List.replicate 10 'b', ['c']].foldl append_str [] =
      [] ++ (keptCalls ([] : List Char).length
        [List.replicate 4090 'a', List.replicate 10 'b', ['c']]).flatten ∧
    List.Sublist (keptCalls ([] : List Char).length
        [List.replicate 4090 'a', List.replicate 10 'b', ['c']])
      [List.replicate 4090 'a', List.replicate 10 'b', ['c']] ∧
    ([List.replicate 4090 'a', List.replicate 10 'b', ['c']].foldl append_str []).length <
      MAX_OUTPUT ∧
    keptCalls ([] : List Char).length
        [List.replicate 4090 'a', List.replicate 10 'b', ['c']] =
      [List.replicate 4090 'a', ['c']] := by
  have h := codegen_capped_output.1 [List.replicate 4090 'a', List.replicate 10 'b', ['c']] []
    (by decide)
  refine ⟨h.1, h.2.1, h.2.2, ?_⟩
  have h0 : 0 + 4090 < MAX_OUTPUT := by decide
  have h1 : ¬ (0 + 4090 + 10 < MAX_OUTPUT) := by decide
  have h2 : 0 + 4090 + 1 < MAX_OUTPUT := by decide
  rw [List.length_nil, keptCalls, List.length_replicate, if_pos h0, keptCalls,
    List.length_replicate, if_neg h1, keptCalls, List.length_singleton, if_pos h2, keptCalls]

/-- The calls for a node depend on its kind and its used fields only. -/
theorem nodeCalls_congr (t : Platform) (exit_key : List Char) (a b : ASTNode)
    (h : a.view = b.view) : nodeCalls t exit_key a = nodeCalls t exit_key b := by
  obtain ⟨ta, va, wa⟩ := a
  obtain ⟨tb, vb, wb⟩ := b
  cases ta <;> cases tb <;> simp [ASTNode.view] at h <;> simp [nodeCalls]
  rw [h.2]

theorem codegen_congr (t : Platform) (is_main : Bool) (exit_key : List Char)
    (a b : List ASTNode) (out : List Char) (h : a.map ASTNode.view = b.map ASTNode.view) :
    codegen t is_main exit_key a out = codegen t is_main exit_key b out := by
  have e : a.map (nodeCalls t exit_key) = b.map (nodeCalls t exit_key) := by
    induction a generalizing b with
    | nil =>
      cases b with
      | nil => rfl
      | cons y r => simp at h
    | cons x l ih =>
      cases b with
      | nil => simp at h
      | cons y r =>
        simp only [List.map_cons, List.cons.injEq] at h ⊢
        exact ⟨nodeCalls_congr t exit_key x y h.1, ih r h.2⟩
  unfold codegen codegenCalls
  rw [e]

theorem map_nodeCalls_filter (t : Platform) (exit_key : List Char) (ast : List ASTNode) :
    ((ast.filter (fun n => decide (n.type ≠ .AST_BLOCK))).map (nodeCalls t exit_key)).flatten =
      (ast.map (nodeCalls t exit_key)).flatten := by
  induction ast with
  | nil => rfl
  | cons n r ih =>
    by_cases h : n.type = .AST_BLOCK
    · rw [List.filter_cons_of_neg (by simpa using h), ih, List.map_cons, List.flatten_cons]
      simp [nodeCalls, h]
    · rw [List.filter_cons_of_pos (by simpa using h), List.map_cons, List.flatten_cons, ih,
        List.map_cons, List.flatten_cons]

set_option maxRecDepth 100000 in
theorem empty_body_length (t : Platform) (is_main : Bool) (exit_key : List Char) :
    (codegenText t is_main exit_key [⟨.AST_BLOCK, [], []⟩, ⟨.AST_END, [], []⟩]).length <
      MAX_OUTPUT ∧
    codegenText t is_main exit_key [⟨.AST_BLOCK, [], []⟩, ⟨.AST_END, [], []⟩] =
      prologueText t is_main ++ epilogueText t is_main := by
  have e : codegenText t is_main exit_key [⟨.AST_BLOCK, [], []⟩, ⟨.AST_END, [], []⟩] =
      prologueText t is_main ++ epilogueText t is_main := by
    rw [codegenText_eq, bodyText_cons, bodyText_cons, nodeText_block _ _ _ (Or.inl rfl),
      nodeText_block _ _ _ (Or.inr rfl)]
    simp [bodyText]
  refine ⟨?_, e⟩
  rw [e]
  cases t <;> cases is_main <;> decide

/-- The output for an AST whose nodes are one `BLOCK` and one `END`, or one
`END` alone, is the prologue and the epilogue. -/
theorem codegen_empty_body (t : Platform) (is_main : Bool) (exit_key : List Char)
    (ast : List ASTNode)
    (h : ast.map ASTNode.view = [.BLOCK, .END] ∨ ast.map ASTNode.view = [.END]) :
    codegen t is_main exit_key ast [] = prologueText t is_main ++ epilogueText t is_main := by
  obtain ⟨h1, h2⟩ := empty_body_length t is_main exit_key
  rcases h with h | h
  · rw [codegen_congr t is_main exit_key ast [⟨.AST_BLOCK, [], []⟩, ⟨.AST_END, [], []⟩] [] h,
      (codegen_eq_text_iff _ _ _ _).2 h1, h2]
  · have h3 : codegen t is_main exit_key [⟨.AST_END, [], []⟩] [] =
        codegen t is_main exit_key [⟨.AST_BLOCK, [], []⟩, ⟨.AST_END, [], []⟩] [] := by
      unfold codegen codegenCalls
      simp [nodeCalls]
    rw [codegen_congr t is_main exit_key ast [⟨.AST_END, [], []⟩] [] h, h3,
      (codegen_eq_text_iff _ _ _ _).2 h1, h2]

/-- Outcome of `compile_file` on a source whose tokens are a derivable
program. -/
theorem compile_file_program (t : Platform) (exit_key : List Char) (mem : Memory)
    (contents : List Char) (is_main : Bool) (toks : List Token) (nodes : List Node)
    (hlex : lexer (read_file contents) = some (.ok toks))
    (hprog : Program AnyToken AnyToken toks nodes) :
    ∃ mem1 ast, compile_file t exit_key mem contents is_main =
        some (.ok mem1 ast (codegen t is_main exit_key ast [])) ∧
      ast.map ASTNode.view = nodes := by
  obtain ⟨pre, rfl, hlen, -⟩ := lexer_ok_shape _ toks hlex
  obtain ⟨ast, h1, h2⟩ := parser_program hprog (by simpa using hlen)
    (mem.tokens.drop (pre ++ [eofToken]).length) mem.ast
  refine ⟨⟨pre ++ [eofToken] ++ mem.tokens.drop (pre ++ [eofToken]).length,
    ast ++ mem.ast.drop ast.length⟩, ast, ?_, h2⟩
  simp only [compile_file, hlex, h1]

set_option maxRecDepth 100000 in
/-- C16: `BLOCK` nodes emit nothing: for every target, role, exit key and
output so far, `codegen` gives on an AST what it gives on the same AST without
its `BLOCK` nodes; and the empty program `/+[ /=]` compiles, like the empty
source, to exactly this text: the data section and the `.text` header with
the `extern` lines and, for the main file, the `global` line; the subroutine
`kbhit` of the target; the entry label with the prologue; and right behind
it, with no statement body, the label `.exit:` and the epilogue with the exit
sequence of the target or `ret`. -/
theorem codegen_ignores_blocks (t : Platform) (is_main : Bool) (exit_key : List Char) :
    (∀ (ast : List ASTNode) (out : List Char),
      codegen t is_main exit_key ast out =
        codegen t is_main exit_key (ast.filter (fun n => decide (n.type ≠ .AST_BLOCK))) out) ∧
    (∀ mem : Memory, ∃ mem1 ast1 mem2 ast2 out,
      compile_file t exit_key mem "/+[ /=]".toList is_main = some (.ok mem1 ast1 out) ∧
      compile_file t exit_key mem [] is_main = some (.ok mem2 ast2 out) ∧
      out = ("section .data\nmsg db 'N0roshi running...', 10, 0\ninput_buf db 0\n" ++
        "section .text\n" ++
        (if t = .PLATFORM_MACOS ∨ t = .PLATFORM_IOS then "extern _getchar\nextern _printf\n"
         else "extern getchar\nextern printf\n") ++
        (if is_main then
          (if t = .PLATFORM_MACOS ∨ t = .PLATFORM_IOS then "global _main\n"
           else "global main\n")
         else "") ++
        "kbhit:\n" ++
        (match t with
          | .PLATFORM_MACOS | .PLATFORM_IOS =>
            "  mov rax, 0x2000003\n  mov rdi, 0\n  syscall\n  cmp rax, -1\n" ++
            "  je .no_key\n  mov byte [rel input_buf], al\n  mov rax, 1\n  ret\n"
          | .PLATFORM_FREEBSD =>
            "  mov rax, 3\n  mov rdi, 0\n  mov rsi, input_buf\n  mov rdx, 1\n  syscall\n" ++
            "  cmp rax, 0\n" ++
            "  je .no_key\n  mov byte [rel input_buf], al\n  mov rax, 1\n  ret\n"
          | .PLATFORM_LINUX | .PLATFORM_ANDROID =>
            "  mov rax, 0\n  mov rdi, 0\n  mov rsi, input_buf\n  mov rdx, 1\n  syscall\n" ++
            "  cmp rax, 0\n" ++
            "  je .no_key\n  mov byte [rel input_buf], al\n  mov rax, 1\n  ret\n"
          | .PLATFORM_WINDOWS =>
            "  call getchar\n  cmp rax, -1\n  je .no_key\n  mov byte [input_buf], al\n" ++
            "  mov rax, 1\n  ret\n") ++
        ".no_key:\n  xor rax, rax\n  ret\n" ++
        (if is_main then
          (if t = .PLATFORM_MACOS ∨ t = .PLATFORM_IOS then "_main:\n" else "main:\n")
         else "module_init:\n") ++
        "  push rbp\n  mov rbp, rsp\n  sub rsp, 16\n" ++
        ".exit:\n  mov rsp, rbp\n  pop rbp\n" ++
        (if is_main then
          (match t with
            | .PLATFORM_MACOS | .PLATFORM_IOS => "  mov rax, 0x2000001\n  mov rdi, 0\n  syscall\n"
            | .PLATFORM_FREEBSD => "  mov rax, 1\n  xor rdi, rdi\n  syscall\n"
            | .PLATFORM_LINUX | .PLATFORM_ANDROID => "  mov rax, 60\n  xor rdi, rdi\n  syscall\n"
            | .PLATFORM_WINDOWS => "  mov rcx, 0\n  call ExitProcess\n")
         else "  ret\n")).toList) := by
  constructor
  · intro ast out
    unfold codegen codegenCalls
    rw [map_nodeCalls_filter]
  · intro mem
    obtain ⟨mem1, ast1, h1, h2⟩ := compile_file_program t exit_key mem "/+[ /=]".toList is_main
      [⟨.TOKEN_OP_BLOCK_START, ['/', '+', '[']⟩, ⟨.TOKEN_OP_BLOCK_END, ['/', '=', ']']⟩,
        ⟨.TOKEN_EOF, []⟩] [.BLOCK, .END] (by decide)
      ⟨_, ⟨.TOKEN_EOF, []⟩, _, rfl, rfl,
        Blocks.cons ⟨.TOKEN_OP_BLOCK_START, ['/', '+', '[']⟩
          ⟨.TOKEN_OP_BLOCK_END, ['/', '=', ']']⟩ [] [] [] [] rfl Stmts.nil rfl Blocks.nil, rfl⟩
    rw [codegen_empty_body t is_main exit_key ast1 (Or.inl h2)] at h1
    obtain ⟨mem2, ast2, h3, h4⟩ := compile_file_program t exit_key mem [] is_main
      [⟨.TOKEN_EOF, []⟩] [.END] (by decide)
      ⟨[], ⟨.TOKEN_EOF, []⟩, [], rfl, rfl, Blocks.nil, rfl⟩
    rw [codegen_empty_body t is_main exit_key ast2 (Or.inr h4)] at h3
    refine ⟨mem1, ast1, mem2, ast2, _, h1, h3, ?_⟩
    cases t <;> cases is_main <;> decide

set_option maxRecDepth 100000 in
/-- C18 fails on the code, by the defect of C6: in a fresh process
`compile_file` stops on the source `/+[ pnt` with `Parsing error at token 3`,
and after a compilation of `/+[ kbchk kbchk /=]`, which leaves `/=]` and
`TOKEN_EOF` in the token slots 3 and 4, it accepts the same source and emits
assembly for the AST `BLOCK`, `PRINT`, `END`. -/
theorem compile_file_depends_on_previous_file :
    compile_file .PLATFORM_LINUX ['q'] ⟨[], []⟩ "/+[ pnt".toList true =
      some (.parseError (.unexpectedToken 3)) ∧
    compile_file .PLATFORM_LINUX ['q'] ⟨[], []⟩ "/+[ kbchk kbchk /=]".toList false =
      some (.ok
        ⟨[⟨.TOKEN_OP_BLOCK_START, ['/', '+', '[']⟩, ⟨.TOKEN_KEYWORD, ['k', 'b', 'c', 'h', 'k']⟩,
            ⟨.TOKEN_KEYWORD, ['k', 'b', 'c', 'h', 'k']⟩, ⟨.TOKEN_OP_BLOCK_END, ['/', '=', ']']⟩,
            ⟨.TOKEN_EOF, []⟩],
          [⟨.AST_BLOCK, [], []⟩, ⟨.AST_KBCHK, [], []⟩, ⟨.AST_KBCHK, [], []⟩,
            ⟨.AST_END, [], []⟩]⟩
        [⟨.AST_BLOCK, [], []⟩, ⟨.AST_KBCHK, [], []⟩, ⟨.AST_KBCHK, [], []⟩, ⟨.AST_END, [], []⟩]
        (codegen .PLATFORM_LINUX false ['q'] [⟨.AST_BLOCK, [], []⟩, ⟨.AST_KBCHK, [], []⟩,
          ⟨.AST_KBCHK, [], []⟩, ⟨.AST_END, [], []⟩] [])) ∧
    compile_file .PLATFORM_LINUX ['q']
        ⟨[⟨.TOKEN_OP_BLOCK_START, ['/', '+', '[']⟩, ⟨.TOKEN_KEYWORD, ['k', 'b', 'c', 'h', 'k']⟩,
            ⟨.TOKEN_KEYWORD, ['k', 'b', 'c', 'h', 'k']⟩, ⟨.TOKEN_OP_BLOCK_END, ['/', '=', ']']⟩,
            ⟨.TOKEN_EOF, []⟩],
          [⟨.AST_BLOCK, [], []⟩, ⟨.AST_KBCHK, [], []⟩, ⟨.AST_KBCHK, [], []⟩,
            ⟨.AST_END, [], []⟩]⟩
        "/+[ pnt".toList true =
      some (.ok
        ⟨[⟨.TOKEN_OP_BLOCK_START, ['/', '+', '[']⟩, ⟨.TOKEN_KEYWORD, ['p', 'n', 't']⟩,
            ⟨.TOKEN_EOF, []⟩, ⟨.TOKEN_OP_BLOCK_END, ['/', '=', ']']⟩, ⟨.TOKEN_EOF, []⟩],
          [⟨.AST_BLOCK, [], []⟩, ⟨.AST_PRINT, [], []⟩, ⟨.AST_END, [], []⟩,
            ⟨.AST_END, [], []⟩]⟩
        [⟨.AST_BLOCK, [], []⟩, ⟨.AST_PRINT, [], []⟩, ⟨.AST_END, [], []⟩]
        (codegen .PLATFORM_LINUX true ['q'] [⟨.AST_BLOCK, [], []⟩, ⟨.AST_PRINT, [], []⟩,
          ⟨.AST_END, [], []⟩] [])) := by
  refine ⟨by decide, by decide, by decide⟩

/-- A piece read by `fgets(line, size, file)` holds at most `size - 1`
bytes. -/
theorem fgetsFrom_length (size : Nat) : ∀ (r cur : List Char), cur.length < size - 1 →
    ∀ p ∈ fgetsFrom size r cur, p.length ≤ size - 1 := by
  intro r
  induction r with
  | nil =>
    intro cur hcur p hp
    unfold fgetsFrom at hp
    split_ifs at hp with h
    · simp at hp
    · rw [List.mem_singleton] at hp
      subst hp
      omega
  | cons c r ih =>
    intro cur hcur p hp
    unfold fgetsFrom at hp
    split_ifs at hp with h
    · rcases List.mem_cons.1 hp with rfl | hp
      · simp only [List.length_append, List.length_singleton]
        omega
      · exact ih [] (by simp only [List.length_nil]; omega) p hp
    · push_neg at h
      exact ih (cur ++ [c]) (by simp only [List.length_append, List.length_singleton]; omega) p hp

/-- A line that the loop of `read_noi` works on holds at most 255 bytes and
no newline. -/
theorem noiLine_bounds (file : List Char) :
    ∀ l ∈ (fgetsFrom 256 file []).map noiLine, l.length ≤ 255 ∧ '\n' ∉ l := by
  intro l hl
  obtain ⟨p, hp, rfl⟩ := List.mem_map.1 hl
  constructor
  · have h1 := fgetsFrom_length 256 file [] (by decide) p hp
    have h2 : (noiLine p).length ≤ (cstr p).length := (List.takeWhile_prefix _).length_le
    have h3 : (cstr p).length ≤ p.length := (cstr_isPrefix p).length_le
    omega
  · intro h
    have := List.mem_takeWhile_imp h
    simp at this

set_option maxRecDepth 100000 in
/-- On Linux, for the main file, the output for `fullBufferLabelAst` is the
prologue, the text of the fourteen first nodes, and of the last node the
initializer and the newline only; the rest is dropped. -/
theorem codegen_fullBufferLabelAst :
    codegen .PLATFORM_LINUX true ['q'] fullBufferLabelAst [] =
      prologueText .PLATFORM_LINUX true ++
      bodyText .PLATFORM_LINUX ['q']
        (List.replicate 14 ⟨.AST_VARDECL, ['a'], List.replicate 213 '1'⟩) ++
      "kbhit:\n".toList := by
  have hp : (prologueText .PLATFORM_LINUX true).length = 348 := by decide
  have hn : (nodeText .PLATFORM_LINUX ['q']
      ⟨.AST_VARDECL, ['a'], List.replicate 213 '1'⟩).length = 267 := by
    rw [nodeText_vardecl _ _ _ rfl, if_neg (by simp)]
    simp only [List.length_append, List.length_replicate]
    decide
  have hb := bodyText_replicate_length .PLATFORM_LINUX ['q']
    ⟨.AST_VARDECL, ['a'], List.replicate 213 '1'⟩ 14
  rw [hn] at hb
  unfold fullBufferLabelAst
  rw [codegen_split _ _ _ _ _ (by rw [hp, hb]; decide), foldl_append_str_eq,
    List.length_append, hp, hb]
  congr 1

/-- The lines of the output for `fullBufferLabelAst` on Linux: those of the
prologue, those of the fourteen first nodes, and `kbhit:`. -/
theorem asmLines_fullBufferLabelAst :
    asmLines (codegen .PLATFORM_LINUX true ['q'] fullBufferLabelAst []) =
      asmLines (prologueText .PLATFORM_LINUX true) ++
      ((List.replicate 14 (⟨.AST_VARDECL, ['a'], List.replicate 213 '1'⟩ : ASTNode)).map
        (fun n => asmLines (nodeText .PLATFORM_LINUX ['q'] n))).flatten ++
      ["kbhit:".toList] := by
  have e1 : asmLines (bodyText .PLATFORM_LINUX ['q']
      (List.replicate 14 (⟨.AST_VARDECL, ['a'], List.replicate 213 '1'⟩ : ASTNode))) =
      ((List.replicate 14 (⟨.AST_VARDECL, ['a'], List.replicate 213 '1'⟩ : ASTNode)).map
        (fun n => asmLines (nodeText .PLATFORM_LINUX ['q'] n))).flatten := by
    unfold bodyText
    rw [asmLines_flatten _ (fun a ha => by
      obtain ⟨n, -, rfl⟩ := List.mem_map.1 ha
      exact nodeText_terminated _ _ n), List.map_map]
    rfl
  have e2 : asmLines "kbhit:\n".toList = ["kbhit:".toList] := by decide
  rw [codegen_fullBufferLabelAst, asmLines_append ((prologueText_terminated _ _).append
    (bodyText_terminated _ _ _)), asmLines_append (prologueText_terminated _ _), e1, e2]

set_option maxRecDepth 100000 in
/-- The labels of the prologue and of the epilogue, counted as lines, and not
among the lines of the statement body other than `.no_input:`. -/
theorem label_counts (t : Platform) (is_main : Bool) :
    (asmLines (prologueText t is_main)).count "kbhit:".toList = 1 ∧
    (asmLines (prologueText t is_main)).count ".no_key:".toList = 1 ∧
    (asmLines (prologueText t is_main)).count ".no_input:".toList = 0 ∧
    (asmLines (epilogueText t is_main)).count "kbhit:".toList = 0 ∧
    (asmLines (epilogueText t is_main)).count ".no_key:".toList = 0 ∧
    (asmLines (epilogueText t is_main)).count ".no_input:".toList = 0 ∧
    isStatementLine t "kbhit:".toList = false ∧
    isStatementLine t ".no_key:".toList = false := by
  cases t <;> cases is_main <;> decide

/-- A node of kind `KBCHK` contributes one line `.no_input:`, every other
node none, when neither a `let` initializer nor the exit key holds a
newline. -/
theorem count_no_input_node (t : Platform) (exit_key : List Char) (n : ASTNode)
    (hn : ¬ NewlineInInit n) (hk : '\n' ∉ exit_key) :
    (asmLines (nodeText t exit_key n)).count ".no_input:".toList =
      if n.type = .AST_KBCHK then 1 else 0 := by
  have e0 : ".no_input:".toList = '.' :: "no_input:".toList := by decide
  by_cases hty : n.type = .AST_KBCHK
  · rw [if_pos hty, nodeText_kbchk t exit_key n hty, asmLines_kbchk _ hk]
    have hmid : "cmp al, '".toList ++ exit_key ++ "'".toList ≠ ".no_input:".toList := by
      have e : "cmp al, '".toList = 'c' :: "mp al, '".toList := by decide
      rw [e, e0, List.cons_append, List.cons_append]
      intro h
      injection h with h1 h2
      exact absurd h1 (by decide)
    rw [show ["call kbhit".toList, "test rax, rax".toList, "jz .no_input".toList,
        "mov al, byte [rel input_buf]".toList, "cmp al, '".toList ++ exit_key ++ "'".toList,
        "je .exit".toList, ".no_input:".toList] =
        ["call kbhit".toList, "test rax, rax".toList, "jz .no_input".toList,
          "mov al, byte [rel input_buf]".toList] ++
        ("cmp al, '".toList ++ exit_key ++ "'".toList) ::
          ["je .exit".toList, ".no_input:".toList] from rfl,
      List.count_append, List.count_cons_of_ne hmid.symm]
    decide
  · rw [if_neg hty, List.count_eq_zero]
    intro hl
    cases hty2 : n.type with
    | AST_BLOCK =>
      rw [nodeText_block t exit_key n (Or.inl hty2)] at hl
      simp [asmLines, linesFrom] at hl
    | AST_END =>
      rw [nodeText_block t exit_key n (Or.inr hty2)] at hl
      simp [asmLines, linesFrom] at hl
    | AST_VARDECL =>
      rw [nodeText_vardecl t exit_key n hty2] at hl
      by_cases hv : n.value2 = []
      · rw [if_pos hv] at hl
        revert hl
        decide
      · rw [if_neg hv, asmLines_vardecl _ (fun h => hn ⟨hty2, h⟩)] at hl
        simp only [List.mem_cons, List.mem_singleton, List.not_mem_nil, or_false] at hl
        rcases hl with h | h | h
        · revert h; decide
        · have e : "mov rax, ".toList = 'm' :: "ov rax, ".toList := by decide
          rw [e, e0, List.cons_append] at h
          injection h with h1 h2
          exact absurd h1 (by decide)
        · revert h; decide
    | AST_PRINT =>
      rw [print_lines t exit_key n hty2] at hl
      revert hl
      cases t <;> decide
    | AST_KBCHK => exact hty hty2

theorem count_no_input_body (t : Platform) (exit_key : List Char) (ast : List ASTNode)
    (hinit : ∀ n ∈ ast, ¬ NewlineInInit n) (hk : '\n' ∉ exit_key) :
    ((ast.map (fun n => asmLines (nodeText t exit_key n))).flatten).count ".no_input:".toList =
      ast.countP (fun n => decide (n.type = .AST_KBCHK)) := by
  induction ast with
  | nil => rfl
  | cons n r ih =>
    rw [List.map_cons, List.flatten_cons, List.count_append,
      count_no_input_node t exit_key n (hinit n (List.mem_cons_self _ _)) hk,
      ih (fun x hx => hinit x (List.mem_cons_of_mem _ hx)), List.countP_cons]
    by_cases h : n.type = .AST_KBCHK
    · simp [h]; omega
    · simp [h]

set_option maxRecDepth 100000 in
/-- C21, as stated, fails in three ways. The accepted source
`/+[ kbchk kbchk /=]` gives, with no call dropped, an output with two lines
`.no_input:`, one for each `kbchk`. The accepted source
`/+[ let a = "0\nkbhit:" /=]` gives two lines `kbhit:`, one pasted from the
initializer. And for the AST of one block of fifteen `let`, a `BLOCK` node,
the nodes of `fullBufferLabelAst` and an `END` node, the output cap drops the
two calls before the initializer `kbhit:` of the last `let`, which so becomes
a second line `kbhit:`. -/
theorem codegen_defines_label_twice :
    parseSource "/+[ kbchk kbchk /=]".toList [] [] =
      some (.ok [⟨.AST_BLOCK, [], []⟩, ⟨.AST_KBCHK, [], []⟩, ⟨.AST_KBCHK, [], []⟩,
        ⟨.AST_END, [], []⟩]) ∧
    (codegenText .PLATFORM_LINUX true ['q'] [⟨.AST_BLOCK, [], []⟩, ⟨.AST_KBCHK, [], []⟩,
      ⟨.AST_KBCHK, [], []⟩, ⟨.AST_END, [], []⟩]).length < MAX_OUTPUT ∧
    (asmLines (codegen .PLATFORM_LINUX true ['q'] [⟨.AST_BLOCK, [], []⟩,
      ⟨.AST_KBCHK, [], []⟩, ⟨.AST_KBCHK, [], []⟩, ⟨.AST_END, [], []⟩] [])).count
        ".no_input:".toList = 2 ∧
    parseSource "/+[ let a = \"0\nkbhit:\" /=]".toList [] [] =
      some (.ok [⟨.AST_BLOCK, [], []⟩, ⟨.AST_VARDECL, ['a'], "0\nkbhit:".toList⟩,
        ⟨.AST_END, [], []⟩]) ∧
    (asmLines (codegen .PLATFORM_LINUX true ['q'] [⟨.AST_BLOCK, [], []⟩,
      ⟨.AST_VARDECL, ['a'], "0\nkbhit:".toList⟩, ⟨.AST_END, [], []⟩] [])).count
        "kbhit:".toList = 2 ∧
    (asmLines (codegen .PLATFORM_LINUX true ['q']
      (⟨.AST_BLOCK, [], []⟩ :: fullBufferLabelAst ++ [⟨.AST_END, [], []⟩]) [])).count
        "kbhit:".toList = 2 := by
  refine ⟨by decide, by decide, by decide, by decide, by decide, ?_⟩
  rw [codegen_block_end, asmLines_fullBufferLabelAst, List.count_append, List.count_append,
    (label_counts .PLATFORM_LINUX true).1,
    count_body_zero _ _ _ filler_no_newline (by decide) _ (by decide)]
  decide

/-- C21 (amended): for every target, role and AST whose emitted text is not
cut by the output cap and in which no `let` initializer holds a newline, with
an exit key that holds no newline: each of `kbhit:`, `.no_key:`, the entry
label and `.exit:` is a line of the output exactly once, so at most once, and
`.no_input:` is a line of the output once for each `KBCHK` node, so at most
once exactly when the program has at most one `kbchk`. -/
theorem codegen_label_counts (t : Platform) (is_main : Bool) (exit_key : List Char)
    (ast : List ASTNode)
    (hfit : (codegenText t is_main exit_key ast).length < MAX_OUTPUT)
    (hinit : ∀ n ∈ ast, ¬ NewlineInInit n) (hkey : '\n' ∉ exit_key) :
    (asmLines (codegen t is_main exit_key ast [])).count "kbhit:".toList = 1 ∧
    (asmLines (codegen t is_main exit_key ast [])).count ".no_key:".toList = 1 ∧
    (asmLines (codegen t is_main exit_key ast [])).count (entryLabel t is_main).toList = 1 ∧
    (asmLines (codegen t is_main exit_key ast [])).count ".exit:".toList = 1 ∧
    (asmLines (codegen t is_main exit_key ast [])).count ".no_input:".toList =
      ast.countP (fun n => decide (n.type = .AST_KBCHK)) ∧
    ((asmLines (codegen t is_main exit_key ast [])).count ".no_input:".toList ≤ 1 ↔
      ast.countP (fun n => decide (n.type = .AST_KBCHK)) ≤ 1) := by
  obtain ⟨h1, h2, h3, h4, h5, h6⟩ := prologue_counts t is_main
  obtain ⟨k1, k2, k3, k4, k5, k6, k7, k8⟩ := label_counts t is_main
  have hn := count_no_input_body t exit_key ast hinit hkey
  rw [asmLines_uncut t is_main exit_key ast hfit]
  simp only [List.count_append]
  rw [h1, h2, h3, h4, k1, k2, k3, k4, k5, k6, hn,
    count_body_zero t exit_key ast hinit hkey _ h5,
    count_body_zero t exit_key ast hinit hkey _ h6,
    count_body_zero t exit_key ast hinit hkey _ k7,
    count_body_zero t exit_key ast hinit hkey _ k8]
  simp

set_option maxRecDepth 100000 in
/-- Instance of C21 (amended) at the AST of `/+[ kbchk pnt "x" kbchk /=]` on
Windows, role module: one line for each of the four labels and two lines
`.no_input:`. -/
theorem codegen_label_counts_witness :
    (asmLines (codegen .PLATFORM_WINDOWS false ['q'] [⟨.AST_BLOCK, [], []⟩,
      ⟨.AST_KBCHK, [], []⟩, ⟨.AST_PRINT, ['x'], []⟩, ⟨.AST_KBCHK, [], []⟩,
      ⟨.AST_END, [], []⟩] [])).count "kbhit:".toList = 1 ∧
    (asmLines (codegen .PLATFORM_WINDOWS false ['q'] [⟨.AST_BLOCK, [], []⟩,
      ⟨.AST_KBCHK, [], []⟩, ⟨.AST_PRINT, ['x'], []⟩, ⟨.AST_KBCHK, [], []⟩,
      ⟨.AST_END, [], []⟩] [])).count ".no_input:".toList = 2 := by
  have h := codegen_label_counts .PLATFORM_WINDOWS false ['q'] [⟨.AST_BLOCK, [], []⟩,
      ⟨.AST_KBCHK, [], []⟩, ⟨.AST_PRINT, ['x'], []⟩, ⟨.AST_KBCHK, [], []⟩,
      ⟨.AST_END, [], []⟩] (by decide) (by simp [NewlineInInit]) (by decide)
  exact ⟨h.1, h.2.2.2.2.1⟩

set_option maxRecDepth 100000 in
/-- The `call` lines of the prologue and of the epilogue: in the prologue the
called symbol is declared `extern` there; in the epilogue the only `call` is
`call ExitProcess`, for the main file on Windows. The prologue has the label
`kbhit:` and the `extern` line for `printf` or `_printf`, and no line that
defines or declares `ExitProcess`; the epilogue neither. -/
theorem call_lines_fixed (t : Platform) (is_main : Bool) :
    (∀ l ∈ asmLines (prologueText t is_main), l.take 5 = "call ".toList →
      "extern ".toList ++ l.drop 5 ∈ asmLines (prologueText t is_main)) ∧
    (∀ l ∈ asmLines (epilogueText t is_main), l.take 5 = "call ".toList →
      t = .PLATFORM_WINDOWS ∧ is_main = true ∧ l = "call ExitProcess".toList) ∧
    (∀ l ∈ statementLines t, l.take 5 = "call ".toList →
      l.drop 5 ++ [':'] ∈ asmLines (prologueText t is_main) ∨
      "extern ".toList ++ l.drop 5 ∈ asmLines (prologueText t is_main)) ∧
    "ExitProcess:".toList ∉ asmLines (prologueText t is_main) ∧
    "extern ExitProcess".toList ∉ asmLines (prologueText t is_main) ∧
    "ExitProcess:".toList ∉ asmLines (epilogueText t is_main) ∧
    "extern ExitProcess".toList ∉ asmLines (epilogueText t is_main) ∧
    isStatementLine t "ExitProcess:".toList = false ∧
    isStatementLine t "extern ExitProcess".toList = false := by
  cases t <;> cases is_main <;> decide

/-- A line of the statement body that starts with `call ` is one of the fixed
statement lines. -/
theorem call_statementLine (t : Platform) (l : List Char)
    (h : isStatementLine t l = true) (hc : l.take 5 = "call ".toList) :
    l ∈ statementLines t := by
  simp only [isStatementLine, Bool.or_eq_true, decide_eq_true_eq] at h
  rcases h with (h | h) | h
  · exact h
  · have := congrArg (List.take 5) h
    rw [List.take_take] at this
    simp only [Nat.min_def] at this
    rw [if_pos (by decide), hc] at this
    exact absurd this (by decide)
  · have := congrArg (List.take 5) h
    rw [List.take_take] at this
    simp only [Nat.min_def] at this
    rw [if_pos (by decide), hc] at this
    exact absurd this (by decide)

set_option maxRecDepth 100000 in
/-- C22 holds except for one symbol. For every target, role and AST whose
emitted text is not cut by the output cap and in which no `let` initializer
holds a newline (so for NUMBER initializers), with an exit key that holds no
newline: the symbol `X` of every line `call X` of the output is defined by a
line `X:` or declared by a line `extern X` of the output, unless the line is
`call ExitProcess` in the main file for Windows; and the output of the main
file for Windows has the line `call ExitProcess` and neither a line
`ExitProcess:` nor a line `extern ExitProcess`. -/
theorem codegen_call_targets (t : Platform) (is_main : Bool) (exit_key : List Char)
    (ast : List ASTNode)
    (hfit : (codegenText t is_main exit_key ast).length < MAX_OUTPUT)
    (hinit : ∀ n ∈ ast, ¬ NewlineInInit n) (hkey : '\n' ∉ exit_key) :
    (∀ l ∈ asmLines (codegen t is_main exit_key ast []), l.take 5 = "call ".toList →
      (l.drop 5 ++ [':'] ∈ asmLines (codegen t is_main exit_key ast []) ∨
        "extern ".toList ++ l.drop 5 ∈ asmLines (codegen t is_main exit_key ast [])) ∨
      (t = .PLATFORM_WINDOWS ∧ is_main = true ∧ l = "call ExitProcess".toList)) ∧
    (t = .PLATFORM_WINDOWS → is_main = true →
      "call ExitProcess".toList ∈ asmLines (codegen t is_main exit_key ast []) ∧
      "ExitProcess:".toList ∉ asmLines (codegen t is_main exit_key ast []) ∧
      "extern ExitProcess".toList ∉ asmLines (codegen t is_main exit_key ast [])) := by
  obtain ⟨c1, c2, c3, c4, c5, c6, c7, c8, c9⟩ := call_lines_fixed t is_main
  rw [asmLines_uncut t is_main exit_key ast hfit]
  constructor
  · intro l hl hc
    simp only [List.mem_append] at hl ⊢
    rcases hl with (hl | hl) | hl
    · exact Or.inl (Or.inr (Or.inl (Or.inl (c1 l hl hc))))
    · have hs := call_statementLine t l (body_lines t exit_key ast hinit hkey l hl) hc
      rcases c3 l hs hc with h | h
      · exact Or.inl (Or.inl (Or.inl (Or.inl h)))
      · exact Or.inl (Or.inr (Or.inl (Or.inl h)))
    · exact Or.inr (c2 l hl hc)
  · intro ht hm
    subst ht
    subst hm
    simp only [List.mem_append]
    refine ⟨Or.inr (by decide), ?_, ?_⟩
    · rintro ((h | h) | h)
      · exact c4 h
      · rw [body_lines _ exit_key ast hinit hkey _ h] at c8
        exact absurd c8 (by decide)
      · exact c6 h
    · rintro ((h | h) | h)
      · exact c5 h
      · rw [body_lines _ exit_key ast hinit hkey _ h] at c9
        exact absurd c9 (by decide)
      · exact c7 h

set_option maxRecDepth 100000 in
/-- Instance of C22 at the AST of `/+[ pnt "x" kbchk /=]` for the main file
on Windows: `call ExitProcess` is a line of the output, `ExitProcess:` and
`extern ExitProcess` are not. -/
theorem codegen_call_targets_witness :
    "call ExitProcess".toList ∈ asmLines (codegen .PLATFORM_WINDOWS true ['q']
      [⟨.AST_BLOCK, [], []⟩, ⟨.AST_PRINT, ['x'], []⟩, ⟨.AST_KBCHK, [], []⟩,
        ⟨.AST_END, [], []⟩] []) ∧
    "ExitProcess:".toList ∉ asmLines (codegen .PLATFORM_WINDOWS true ['q']
      [⟨.AST_BLOCK, [], []⟩, ⟨.AST_PRINT, ['x'], []⟩, ⟨.AST_KBCHK, [], []⟩,
        ⟨.AST_END, [], []⟩] []) ∧
    "extern ExitProcess".toList ∉ asmLines (codegen .PLATFORM_WINDOWS true ['q']
      [⟨.AST_BLOCK, [], []⟩, ⟨.AST_PRINT, ['x'], []⟩, ⟨.AST_KBCHK, [], []⟩,
        ⟨.AST_END, [], []⟩] []) :=
  (codegen_call_targets .PLATFORM_WINDOWS true ['q']
    [⟨.AST_BLOCK, [], []⟩, ⟨.AST_PRINT, ['x'], []⟩, ⟨.AST_KBCHK, [], []⟩,
      ⟨.AST_END, [], []⟩] (by decide) (by simp [NewlineInInit]) (by decide)).2 rfl rfl

/-- The exit key that `read_noi` configures holds no newline, as the lines
that its loop works on hold none. -/
theorem read_noi_no_newline (file : List Char) (cfg : Config)
    (hc : '\n' ∉ cfg.exit_key) : '\n' ∉ (read_noi file cfg).exit_key := by
  have key : ∀ (lines : List (List Char)) (cfg : Config), (∀ l ∈ lines, '\n' ∉ l) →
      '\n' ∉ cfg.exit_key → '\n' ∉ (lines.foldl read_noi_line cfg).exit_key := by
    intro lines
    induction lines with
    | nil => intro cfg _ hc; exact hc
    | cons l r ih =>
      intro cfg hl hc
      rw [List.foldl_cons]
      apply ih _ (fun x hx => hl x (List.mem_cons_of_mem _ hx))
      have hl1 : '\n' ∉ l := hl l (List.mem_cons_self _ _)
      unfold read_noi_line
      split_ifs
      · exact hc
      · exact hc
      · cases hd : (l.drop 9).dropWhile (fun c => c != '"') with
        | nil => exact hc
        | cons q key =>
          intro h
          have h1 : '\n' ∈ key.take 7 := (List.takeWhile_prefix _).subset h
          have h2 : '\n' ∈ q :: key := List.mem_cons_of_mem _ (List.mem_of_mem_take h1)
          rw [← hd] at h2
          exact hl1 (List.mem_of_mem_drop ((List.dropWhile_suffix _).subset h2))
      · exact hc
  exact key _ cfg (fun l hl => (noiLine_bounds file l hl).2) hc

end N0ryst
